import Mathlib

/-!
# Thread Local Storage library (`tls.cpp`): shallow embedding

The C++ program keeps a global `vector<TLS*> table`; every `TLS` owns a
`vector<page*> pageTable`, and every `page` object owns one `mmap`ed region of
`pageSize` bytes together with a reference counter.

Embedding conventions.

* A `page*` is a natural number, the index of the page object in `State.heap`.
  Page objects are never deleted by the program, so the heap only grows;
  `State.nextPage` is the number of page objects allocated so far.  The region
  a page object owns is stored inline (`bytes`, `prot`, `mapped`), because the
  program creates exactly one region per page object.
* A `TLS*` is a position in `State.table`.
* `int` values are `Int`, `unsigned int` and `pthread_t` values are `Nat`.
  Conversions between the two are written out (`toInt32`, `toUInt32`,
  `toSizeT`) wherever the program performs them.
* A call either returns (`Except.ok`) or does not return: `vector::at` throws
  `std::out_of_range` (`Fault.out_of_range`), or a `memcpy` leaves its mapping
  or hits a protected or unmapped page (`Fault.segv`).
* `mmap` is assumed to succeed and to return zero-filled memory (the program
  never checks its result); the address of the k-th mapping is taken to be
  `(k + 1) * pageSize`.
* Calls are executed one at a time.  The semaphore `mutex_sem` has static storage,
  so it starts zero-filled, as a semaphore of value 0, and `init()` is the only
  place that initialises it (to 1); `init()` runs exactly when `notInitialized`
  is cleared (lines 138-141), and every `return` is preceded by the `sem_post`
  matching the `sem_wait` at the start of the call.  Between calls the value of
  the semaphore is therefore 0 while `notInitialized` is true and 1 afterwards,
  and the state has no separate field for it.  A `sem_wait` on value 0 never
  returns, as no other call is running that could post (`Fault.blocked`).
* The `int` variables `referenceCounter`, `pageNum`, `offsetOfBuffer` and
  `remainingLength` are updated without wrap-around: the counter would need
  2^31 clones to overflow, and the other three are bounded by the 32-bit
  `length` of the call.
* The caller's buffer is a function from positions to bytes, so that a `memcpy`
  of any length has bytes to read or a place to write.
-/

namespace TLSLib

/-! ## Machine integers -/

/-- Conversion of an integer value to `int` (two's complement, 32 bits). -/
def toInt32 (n : Int) : Int :=
  if n % 4294967296 < 2147483648 then n % 4294967296 else n % 4294967296 - 4294967296

/-- Conversion of an integer value to `unsigned int` (32 bits). -/
def toUInt32 (n : Int) : Nat := (n % 4294967296).toNat

/-- Conversion of an `int` to `size_t` (64 bits), as done for the length of `memcpy`. -/
def toSizeT (n : Int) : Nat := (n % 18446744073709551616).toNat

/-- Line 23: `const int ERROR_CODE = -1;` -/
def ERROR_CODE : Int := -1

/-! ## Data model -/

/-- Protection of a mapped region: `PROT_NONE` or `PROT_READ | PROT_WRITE`. -/
inductive Prot where
  | PROT_NONE
  | PROT_READ_WRITE
  deriving DecidableEq

/-- Lines 28-31, `struct page`, together with the region `pagePointer` points to:
its contents, its protection, and whether it is still mapped. -/
structure page where
  referenceCounter : Int
  pagePointer : Nat
  bytes : Nat → Nat
  prot : Prot
  mapped : Bool

/-- Lines 33-59, `struct TLS`. `pageTable` holds `page*` values. -/
structure TLS where
  size : Int
  numPages : Int
  tid : Nat
  pageTable : List Nat

/-- The global variables of the program (`pageSize`, `notInitialized`, `table`)
and the heap of page objects. -/
structure State where
  pageSize : Int
  notInitialized : Bool
  heap : Nat → page
  nextPage : Nat
  table : List TLS

/-- The ways in which a call fails to return. -/
inductive Fault where
  | out_of_range
  | segv
  | fuel
  | blocked
  deriving DecidableEq

/-- A page object that has never been allocated. -/
def unallocatedPage : page :=
  { referenceCounter := 0, pagePointer := 0, bytes := fun _ => 0, prot := Prot.PROT_NONE,
    mapped := false }

/-- The state of the process before the first call, for a given page size. -/
def initialState (pageSize : Int) : State :=
  { pageSize := pageSize, notInitialized := true, heap := fun _ => unallocatedPage,
    nextPage := 0, table := [] }

/-! ## Memory primitives -/

/-- Checked element access `v.at(i)` with an `int` index: a negative index converts
to a huge `size_t`, so it throws like any index past the end. -/
def vecAt (v : List Nat) (i : Int) : Except Fault Nat :=
  if i < 0 then Except.error Fault.out_of_range
  else match v[i.toNat]? with
    | some x => Except.ok x
    | none => Except.error Fault.out_of_range

/-- Lines 48-51 and 186-190: `mmap` of one page with protection `prot`, then
`new page()` with `referenceCounter = 1` and `pagePointer` the new mapping.
Returns the new state and the new `page*`. -/
def newPage (s : State) (prot : Prot) : State × Nat :=
  ({ s with
      heap := Function.update s.heap s.nextPage
        { referenceCounter := 1, pagePointer := (s.nextPage + 1) * s.pageSize.toNat,
          bytes := fun _ => 0, prot := prot, mapped := true }
      nextPage := s.nextPage + 1 }, s.nextPage)

/-- The call `mprotect(p->pagePointer, pageSize, prot)`; it fails without effect on a
region that is not mapped. -/
def mprotect (s : State) (p : Nat) (prot : Prot) : State :=
  if (s.heap p).mapped = true then
    { s with heap := Function.update s.heap p { s.heap p with prot := prot } }
  else s

/-- The call `munmap(p->pagePointer, pageSize)`. -/
def munmap (s : State) (p : Nat) : State :=
  { s with heap := Function.update s.heap p { s.heap p with mapped := false } }

/-- The byte range `[off, off + n)` of page `p` can be accessed: the region is mapped
and readable/writable and the range lies inside it. -/
def pageRangeOk (s : State) (p : Nat) (off : Int) (n : Nat) : Prop :=
  (s.heap p).mapped = true ∧ (s.heap p).prot = Prot.PROT_READ_WRITE ∧
    0 ≤ off ∧ off + n ≤ s.pageSize

instance (s : State) (p : Nat) (off : Int) (n : Nat) : Decidable (pageRangeOk s p off n) := by
  unfold pageRangeOk
  infer_instance

/-- Contents of a destination after `memcpy(dst + dstOff, src + srcOff, n)`. -/
def copyBytes (dst : Nat → Nat) (dstOff : Nat) (src : Nat → Nat) (srcOff : Nat) (n : Nat) :
    Nat → Nat :=
  fun i => if dstOff ≤ i ∧ i < dstOff + n then src (srcOff + (i - dstOff)) else dst i

/-- The call `memcpy(p->pagePointer + off, buffer + srcOff, n)`. It is a fault unless
`n` is 0 or the page is accessible and `[off, off + n)` lies inside it. (`srcOff` is
`0` or `offsetOfBuffer`, which is not negative whenever the loop is reached.) -/
def memcpyToPage (s : State) (p : Nat) (off : Int) (buffer : Nat → Nat) (srcOff : Int)
    (n : Nat) : Except Fault State :=
  if n = 0 then Except.ok s
  else if pageRangeOk s p off n then
    Except.ok { s with
      heap := Function.update s.heap p
        { s.heap p with
          bytes := copyBytes (s.heap p).bytes off.toNat buffer srcOff.toNat n } }
  else Except.error Fault.segv

/-- The call `memcpy(buffer + dstOff, p->pagePointer + off, n)`; returns the buffer. -/
def memcpyFromPage (s : State) (buffer : Nat → Nat) (dstOff : Int) (p : Nat) (off : Int)
    (n : Nat) : Except Fault (Nat → Nat) :=
  if n = 0 then Except.ok buffer
  else if pageRangeOk s p off n then
    Except.ok (copyBytes buffer dstOff.toNat (s.heap p).bytes off.toNat n)
  else Except.error Fault.segv

/-- The call `memcpy(dst->pagePointer, src->pagePointer, n)`. -/
def memcpyPageToPage (s : State) (dst src : Nat) (n : Nat) : Except Fault State :=
  if n = 0 then Except.ok s
  else if pageRangeOk s dst 0 n ∧ pageRangeOk s src 0 n then
    Except.ok { s with
      heap := Function.update s.heap dst
        { s.heap dst with bytes := copyBytes (s.heap dst).bytes 0 (s.heap src).bytes 0 n } }
  else Except.error Fault.segv

/-! ## The semaphore -/

/-- The call `sem_wait(&mutex_sem)` at the start of an operation. Before `init()` has
run the semaphore is the zero-filled global, of value 0, and the call never returns;
afterwards its value between calls is 1 and the call returns at once. -/
def sem_wait (s : State) : Except Fault State :=
  if s.notInitialized = true then Except.error Fault.blocked else Except.ok s

/-! ## Registry lookup -/

/-- Lines 63-70. -/
def tableContains : List TLS → Nat → Bool
  | [], _ => false
  | t :: ts, tid => if t.tid = tid then true else tableContains ts tid

/-- The loop of lines 74-78 and 312-316 from position `i` on: `index` ends as the
last position whose `tid` matches. -/
def findIndexFrom (tid : Nat) : List TLS → Nat → Option Nat → Option Nat
  | [], _, index => index
  | t :: ts, i, index => findIndexFrom tid ts (i + 1) (if t.tid = tid then some i else index)

/-- The position computed by lines 73-78 (`none` stands for the sentinel `-1`). -/
def findIndex (table : List TLS) (tid : Nat) : Option Nat :=
  findIndexFrom tid table 0 none

/-- Lines 72-85 (`none` stands for `NULL`). -/
def findTlsWithThreadID (table : List TLS) (tid : Nat) : Option TLS :=
  match findIndex table tid with
  | none => none
  | some index => table[index]?

/-! ## tls_create -/

/-- The loop of lines 47-53 with `n` iterations left. -/
def allocPages : Nat → State → List Nat → State × List Nat
  | 0, s, pageTable => (s, pageTable)
  | n + 1, s, pageTable =>
    allocPages n (newPage s Prot.PROT_NONE).1 (pageTable ++ [(newPage s Prot.PROT_NONE).2])

/-- Lines 42-46: the page count computed by the constructor (`/` and `%` of C++
truncate towards zero). -/
def numPagesFor (size pageSize : Int) : Int :=
  if Int.tmod size pageSize = 0 then Int.tdiv size pageSize else Int.tdiv size pageSize + 1

/-- Lines 39-54, the constructor `TLS(int size, pthread_t tid)`. -/
def TLS_new (s : State) (size : Int) (tid : Nat) : State × TLS :=
  let r := allocPages (numPagesFor size s.pageSize).toNat s []
  (r.1, { size := size, numPages := numPagesFor size s.pageSize, tid := tid, pageTable := r.2 })

/-- Lines 137-160. `size` is the `unsigned int` argument, `currentTID` is
`pthread_self()`. Lines 138-141 run `init()` on the first call and clear
`notInitialized`, so the `sem_wait` of line 142 returns. -/
def tls_create (s : State) (currentTID : Nat) (size : Nat) : Int × State :=
  let s0 : State := { s with notInitialized := false }
  if size = 0 then (ERROR_CODE, s0)
  else if tableContains s0.table currentTID = true then (ERROR_CODE, s0)
  else
    let r := TLS_new s0 (toInt32 size) currentTID
    (0, { r.1 with table := r.1.table ++ [r.2] })

/-! ## tls_write -/

/-- Lines 184-196 and 216-228: if the page in slot `pageNum` is shared, replace the
slot by a private copy. `pageTable` is `currentTLS->pageTable`. -/
def copyOnWrite (s : State) (pageTable : List Nat) (pageNum : Int) :
    Except Fault (State × List Nat) :=
  match vecAt pageTable pageNum with
  | Except.error e => Except.error e
  | Except.ok p =>
    if (s.heap p).referenceCounter > 1 then
      let s1 : State := { s with
        heap := Function.update s.heap p
          { s.heap p with referenceCounter := (s.heap p).referenceCounter - 1 } }
      let s2 := (newPage s1 Prot.PROT_READ_WRITE).1
      let q := (newPage s1 Prot.PROT_READ_WRITE).2
      let s3 := mprotect s2 p Prot.PROT_READ_WRITE
      match memcpyPageToPage s3 q p (toSizeT s.pageSize) with
      | Except.error e => Except.error e
      | Except.ok s4 =>
        Except.ok (mprotect (mprotect s4 p Prot.PROT_NONE) q Prot.PROT_NONE,
          pageTable.set pageNum.toNat q)
    else Except.ok (s, pageTable)

/-- The pattern `mprotect(.., PROT_READ | PROT_WRITE); memcpy(page + off, buffer + srcOff, n);
mprotect(.., PROT_NONE)` of lines 198-208 and 230-241, on slot `pageNum`. -/
def writeChunk (s : State) (pageTable : List Nat) (pageNum : Int) (off : Int)
    (buffer : Nat → Nat) (srcOff : Int) (n : Nat) : Except Fault State :=
  match vecAt pageTable pageNum with
  | Except.error e => Except.error e
  | Except.ok p =>
    match memcpyToPage (mprotect s p Prot.PROT_READ_WRITE) p off buffer srcOff n with
    | Except.error e => Except.error e
    | Except.ok s1 => Except.ok (mprotect s1 p Prot.PROT_NONE)

/-- The loop of lines 213-243. The first argument bounds the number of iterations;
`pageNum` is the value before the increment of line 214. -/
def writeLoop (buffer : Nat → Nat) :
    Nat → State → List Nat → Int → Int → Int → Except Fault (State × List Nat)
  | 0, s, pageTable, _, remainingLength, _ =>
    if remainingLength > 0 then Except.error Fault.fuel else Except.ok (s, pageTable)
  | fuel + 1, s, pageTable, pageNum, remainingLength, offsetOfBuffer =>
    if remainingLength > 0 then
      match copyOnWrite s pageTable (pageNum + 1) with
      | Except.error e => Except.error e
      | Except.ok r =>
        if remainingLength > 4096 then
          match writeChunk r.1 r.2 (pageNum + 1) 0 buffer offsetOfBuffer 4096 with
          | Except.error e => Except.error e
          | Except.ok s1 =>
            writeLoop buffer fuel s1 r.2 (pageNum + 1) (remainingLength - 4096)
              (offsetOfBuffer + 4096)
        else
          match writeChunk r.1 r.2 (pageNum + 1) 0 buffer offsetOfBuffer
              (toSizeT remainingLength) with
          | Except.error e => Except.error e
          | Except.ok s1 => writeLoop buffer fuel s1 r.2 (pageNum + 1) 0 offsetOfBuffer
    else Except.ok (s, pageTable)

/-- Lines 184-246, for the values of `pageNum`, `pageOffset` and `remainingMemory`
computed by lines 179-181, on the `TLS` object at position `index` of the table.
Returns the state in which the object has its new page table. -/
def writeFrom (s : State) (index : Nat) (currentTLS : TLS) (length : Nat)
    (buffer : Nat → Nat) (pageNum pageOffset remainingMemory : Int) : Except Fault State :=
  match copyOnWrite s currentTLS.pageTable pageNum with
  | Except.error e => Except.error e
  | Except.ok r =>
    if length ≤ toUInt32 remainingMemory then
      match writeChunk r.1 r.2 pageNum pageOffset buffer 0 length with
      | Except.error e => Except.error e
      | Except.ok s1 =>
        Except.ok { s1 with table := s1.table.set index { currentTLS with pageTable := r.2 } }
    else
      match writeChunk r.1 r.2 pageNum pageOffset buffer 0 (toSizeT remainingMemory) with
      | Except.error e => Except.error e
      | Except.ok s1 =>
        match writeLoop buffer (toInt32 (length - remainingMemory)).toNat s1 r.2 pageNum
            (toInt32 (length - remainingMemory)) remainingMemory with
        | Except.error e => Except.error e
        | Except.ok r2 =>
          Except.ok { r2.1 with
            table := r2.1.table.set index { currentTLS with pageTable := r2.2 } }

/-- Lines 179-246, after the two checks: `pageNum = offset/pageSize`,
`pageOffset = offset%pageSize` and `remainingMemory = pageSize - offset` are computed
in `unsigned int` and stored in `int` variables. -/
def writeBody (s : State) (index : Nat) (currentTLS : TLS) (offset length : Nat)
    (buffer : Nat → Nat) : Except Fault State :=
  writeFrom s index currentTLS length buffer
    (toInt32 (offset / toUInt32 s.pageSize))
    (toInt32 (offset % toUInt32 s.pageSize))
    (toInt32 (s.pageSize - offset))

/-- Lines 164-247, the part of `tls_write` after `sem_wait` (every `return` is
preceded by `sem_post`). Returns the return value and the new state. -/
def tls_write_locked (s : State) (currentTID : Nat) (offset length : Nat) (buffer : Nat → Nat) :
    Except Fault (Int × State) :=
  if tableContains s.table currentTID = false then Except.ok (ERROR_CODE, s)
  else
    match findIndex s.table currentTID with
    | none => Except.error Fault.segv
    | some index =>
      match s.table[index]? with
      | none => Except.error Fault.out_of_range
      | some currentTLS =>
        if (offset + length) % 4294967296 > toUInt32 currentTLS.size then
          Except.ok (ERROR_CODE, s)
        else
          match writeBody s index currentTLS offset length buffer with
          | Except.error e => Except.error e
          | Except.ok s1 => Except.ok (0, s1)

/-- Lines 162-247: `sem_wait(&mutex_sem)` of line 163, then the rest of the call. -/
def tls_write (s : State) (currentTID : Nat) (offset length : Nat) (buffer : Nat → Nat) :
    Except Fault (Int × State) :=
  match sem_wait s with
  | Except.error e => Except.error e
  | Except.ok s0 => tls_write_locked s0 currentTID offset length buffer

/-! ## tls_read -/

/-- The pattern `mprotect(.., PROT_READ | PROT_WRITE); memcpy(buffer + dstOff, page + off, n);
mprotect(.., PROT_NONE)` of lines 269-279 and 286-297, on slot `pageNum`. -/
def readChunk (s : State) (pageTable : List Nat) (pageNum : Int) (off : Int)
    (buffer : Nat → Nat) (dstOff : Int) (n : Nat) : Except Fault (State × (Nat → Nat)) :=
  match vecAt pageTable pageNum with
  | Except.error e => Except.error e
  | Except.ok p =>
    match memcpyFromPage (mprotect s p Prot.PROT_READ_WRITE) buffer dstOff p off n with
    | Except.error e => Except.error e
    | Except.ok b =>
      Except.ok (mprotect (mprotect s p Prot.PROT_READ_WRITE) p Prot.PROT_NONE, b)

/-- The loop of lines 284-298. The first argument bounds the number of iterations;
`pageNum` is the value before the increment of line 285. -/
def readLoop (pageTable : List Nat) :
    Nat → State → (Nat → Nat) → Int → Int → Int → Except Fault (State × (Nat → Nat))
  | 0, s, buffer, _, remainingLength, _ =>
    if remainingLength > 0 then Except.error Fault.fuel else Except.ok (s, buffer)
  | fuel + 1, s, buffer, pageNum, remainingLength, offsetOfBuffer =>
    if remainingLength > 0 then
      if remainingLength > 4096 then
        match readChunk s pageTable (pageNum + 1) 0 buffer offsetOfBuffer 4096 with
        | Except.error e => Except.error e
        | Except.ok r =>
          readLoop pageTable fuel r.1 r.2 (pageNum + 1) (remainingLength - 4096)
            (offsetOfBuffer + 4096)
      else
        match readChunk s pageTable (pageNum + 1) 0 buffer offsetOfBuffer
            (toSizeT remainingLength) with
        | Except.error e => Except.error e
        | Except.ok r => readLoop pageTable fuel r.1 r.2 (pageNum + 1) 0 offsetOfBuffer
    else Except.ok (s, buffer)

/-- Lines 269-300, for the values of `pageNum`, `pageOffset` and `remainingMemory`
computed by lines 265-267. -/
def readFrom (s : State) (currentTLS : TLS) (length : Nat) (buffer : Nat → Nat)
    (pageNum pageOffset remainingMemory : Int) : Except Fault (State × (Nat → Nat)) :=
  if length ≤ toUInt32 remainingMemory then
    readChunk s currentTLS.pageTable pageNum pageOffset buffer 0 length
  else
    match readChunk s currentTLS.pageTable pageNum pageOffset buffer 0
        (toSizeT remainingMemory) with
    | Except.error e => Except.error e
    | Except.ok r =>
      readLoop currentTLS.pageTable (toInt32 (length - remainingMemory)).toNat r.1 r.2 pageNum
        (toInt32 (length - remainingMemory)) remainingMemory

/-- Lines 265-300, after the two checks. -/
def readBody (s : State) (currentTLS : TLS) (offset length : Nat) (buffer : Nat → Nat) :
    Except Fault (State × (Nat → Nat)) :=
  readFrom s currentTLS length buffer
    (toInt32 (offset / toUInt32 s.pageSize))
    (toInt32 (offset % toUInt32 s.pageSize))
    (toInt32 (s.pageSize - offset))

/-- Lines 251-301, the part of `tls_read` after `sem_wait` (every `return` is
preceded by `sem_post`). Returns the return value, the new state and the caller's
buffer. -/
def tls_read_locked (s : State) (currentTID : Nat) (offset length : Nat) (buffer : Nat → Nat) :
    Except Fault (Int × State × (Nat → Nat)) :=
  if tableContains s.table currentTID = false then Except.ok (ERROR_CODE, s, buffer)
  else
    match findTlsWithThreadID s.table currentTID with
    | none => Except.error Fault.segv
    | some currentTLS =>
      if (offset + length) % 4294967296 > toUInt32 currentTLS.size then
        Except.ok (ERROR_CODE, s, buffer)
      else
        match readBody s currentTLS offset length buffer with
        | Except.error e => Except.error e
        | Except.ok r => Except.ok (0, r.1, r.2)

/-- Lines 249-301: `sem_wait(&mutex_sem)` of line 250, then the rest of the call. -/
def tls_read (s : State) (currentTID : Nat) (offset length : Nat) (buffer : Nat → Nat) :
    Except Fault (Int × State × (Nat → Nat)) :=
  match sem_wait s with
  | Except.error e => Except.error e
  | Except.ok s0 => tls_read_locked s0 currentTID offset length buffer

/-! ## tls_destroy -/

/-- The body of the loop of lines 321-327 for one page. -/
def releasePage (s : State) (p : Nat) : State :=
  if (s.heap p).referenceCounter = 1 then munmap s p
  else { s with
    heap := Function.update s.heap p
      { s.heap p with referenceCounter := (s.heap p).referenceCounter - 1 } }

/-- The loop of lines 321-327 with `n` iterations left, at index `i`. -/
def destroyLoop (pageTable : List Nat) : Nat → Nat → State → Except Fault State
  | 0, _, s => Except.ok s
  | n + 1, i, s =>
    match vecAt pageTable i with
    | Except.error e => Except.error e
    | Except.ok p => destroyLoop pageTable n (i + 1) (releasePage s p)

/-- Lines 305-333, the part of `tls_destroy` after `sem_wait` (every `return` is
preceded by `sem_post`). -/
def tls_destroy_locked (s : State) (currentTID : Nat) : Except Fault (Int × State) :=
  if tableContains s.table currentTID = false then Except.ok (ERROR_CODE, s)
  else
    match findIndex s.table currentTID with
    | none => Except.error Fault.out_of_range
    | some index =>
      match s.table[index]? with
      | none => Except.error Fault.out_of_range
      | some TLS_toDestroy =>
        match destroyLoop TLS_toDestroy.pageTable TLS_toDestroy.numPages.toNat 0 s with
        | Except.error e => Except.error e
        | Except.ok s1 => Except.ok (0, { s1 with table := s1.table.eraseIdx index })

/-- Lines 303-333: `sem_wait(&mutex_sem)` of line 304, then the rest of the call. -/
def tls_destroy (s : State) (currentTID : Nat) : Except Fault (Int × State) :=
  match sem_wait s with
  | Except.error e => Except.error e
  | Except.ok s0 => tls_destroy_locked s0 currentTID

/-! ## tls_clone -/

/-- The loop of lines 358-361 with `n` iterations left, at index `i`; `newTable` is
`newTLS->pageTable`. -/
def cloneLoop (pageTable : List Nat) : Nat → Nat → State → List Nat →
    Except Fault (State × List Nat)
  | 0, _, s, newTable => Except.ok (s, newTable)
  | n + 1, i, s, newTable =>
    match vecAt pageTable i with
    | Except.error e => Except.error e
    | Except.ok p =>
      cloneLoop pageTable n (i + 1)
        { s with
          heap := Function.update s.heap p
            { s.heap p with referenceCounter := (s.heap p).referenceCounter + 1 } }
        (newTable ++ [p])

/-- Lines 337-366, the part of `tls_clone` after `sem_wait` (every `return` is
preceded by `sem_post`). `tid` is the argument, `currentTID` is `pthread_self()`. -/
def tls_clone_locked (s : State) (currentTID : Nat) (tid : Nat) : Except Fault (Int × State) :=
  if tableContains s.table tid = false then Except.ok (ERROR_CODE, s)
  else if tableContains s.table currentTID = true then Except.ok (ERROR_CODE, s)
  else
    match findTlsWithThreadID s.table tid with
    | none => Except.error Fault.segv
    | some targetTLS =>
      match cloneLoop targetTLS.pageTable targetTLS.numPages.toNat 0 s [] with
      | Except.error e => Except.error e
      | Except.ok r =>
        Except.ok (0, { r.1 with
          table := r.1.table ++
            [{ size := targetTLS.size, numPages := targetTLS.numPages, tid := currentTID,
               pageTable := r.2 }] })

/-- Lines 335-366: `sem_wait(&mutex_sem)` of line 336, then the rest of the call. -/
def tls_clone (s : State) (currentTID : Nat) (tid : Nat) : Except Fault (Int × State) :=
  match sem_wait s with
  | Except.error e => Except.error e
  | Except.ok s0 => tls_clone_locked s0 currentTID tid

/-! ## Specification vocabulary -/

/-- Number of page-table slots, over all LSAs of the table, that hold the `page*` `p`. -/
def slotCount (table : List TLS) (p : Nat) : Nat :=
  (table.map (fun t => t.pageTable.count p)).sum

/-- Consistency of a heap of page objects with a registry: every slot holds an
allocated page object, the reference counter of a referenced page is the number of
slots that hold it, referenced pages are mapped and at rest in `PROT_NONE`, no LSA
lists a page twice, thread ids are unique, and `numPages` is the length of the page
table. -/
structure WF (heap : Nat → page) (nextPage : Nat) (table : List TLS) : Prop where
  valid : ∀ t ∈ table, ∀ p ∈ t.pageTable, p < nextPage
  refs : ∀ p, 0 < slotCount table p → (heap p).referenceCounter = (slotCount table p : Int)
  rest : ∀ t ∈ table, ∀ p ∈ t.pageTable,
    (heap p).mapped = true ∧ (heap p).prot = Prot.PROT_NONE
  nodup : ∀ t ∈ table, t.pageTable.Nodup
  tids : (table.map TLS.tid).Nodup
  pages : ∀ t ∈ table, t.numPages.toNat = t.pageTable.length

/-- The invariant of the library state between calls. -/
def Inv (s : State) : Prop := WF s.heap s.nextPage s.table

/-- A call of one of the five public operations, with the calling thread
(`pthread_self()`) made explicit. -/
inductive Call where
  | create (currentTID size : Nat)
  | write (currentTID offset length : Nat) (buffer : Nat → Nat)
  | read (currentTID offset length : Nat) (buffer : Nat → Nat)
  | destroy (currentTID : Nat)
  | clone (currentTID tid : Nat)

/-- Return value and new state of a call. -/
def exec (s : State) : Call → Except Fault (Int × State)
  | Call.create currentTID size => Except.ok (tls_create s currentTID size)
  | Call.write currentTID offset length buffer => tls_write s currentTID offset length buffer
  | Call.read currentTID offset length buffer =>
    match tls_read s currentTID offset length buffer with
    | Except.error e => Except.error e
    | Except.ok r => Except.ok (r.1, r.2.1)
  | Call.destroy currentTID => tls_destroy s currentTID
  | Call.clone currentTID tid => tls_clone s currentTID tid

/-- States the process can be in between calls: the initial state, and every state
left by a call that returned (with any return value) from such a state. -/
inductive Reachable (pageSize : Int) : State → Prop where
  | init : Reachable pageSize (initialState pageSize)
  | step {s s' : State} {c : Call} {r : Int} :
      Reachable pageSize s → exec s c = Except.ok (r, s') → Reachable pageSize s'

/-- Heap after incrementing the reference counter of every page of a list, in
order (the effect of the loop of lines 358-361 on the heap). -/
def bumpAll : List Nat → (Nat → page) → (Nat → page)
  | [], heap => heap
  | p :: ps, heap =>
    bumpAll ps (Function.update heap p
      { heap p with referenceCounter := (heap p).referenceCounter + 1 })

/-- State after `releasePage` on every page of a list, in order (the effect of the
loop of lines 321-327). -/
def releaseAll : List Nat → State → State
  | [], s => s
  | p :: ps, s => releaseAll ps (releasePage s p)

/-- The byte contents of the pages of a page table, in slot order: the logical
contents of an LSA. -/
def contents (s : State) (pageTable : List Nat) : List (Nat → Nat) :=
  pageTable.map (fun p => (s.heap p).bytes)

/-- What `readChunk` delivers, as a function of the page contents alone. -/
def readChunkP (pageSize : Int) (pages : List (Nat → Nat)) (pageNum : Int) (off : Int)
    (buffer : Nat → Nat) (dstOff : Int) (n : Nat) : Except Fault (Nat → Nat) :=
  if pageNum < 0 then Except.error Fault.out_of_range
  else match pages[pageNum.toNat]? with
    | none => Except.error Fault.out_of_range
    | some bytes =>
      if n = 0 then Except.ok buffer
      else if 0 ≤ off ∧ off + n ≤ pageSize then
        Except.ok (copyBytes buffer dstOff.toNat bytes off.toNat n)
      else Except.error Fault.segv

/-- What `readLoop` delivers, as a function of the page contents alone. -/
def readLoopP (pageSize : Int) (pages : List (Nat → Nat)) :
    Nat → (Nat → Nat) → Int → Int → Int → Except Fault (Nat → Nat)
  | 0, buffer, _, remainingLength, _ =>
    if remainingLength > 0 then Except.error Fault.fuel else Except.ok buffer
  | fuel + 1, buffer, pageNum, remainingLength, offsetOfBuffer =>
    if remainingLength > 0 then
      if remainingLength > 4096 then
        match readChunkP pageSize pages (pageNum + 1) 0 buffer offsetOfBuffer 4096 with
        | Except.error e => Except.error e
        | Except.ok b =>
          readLoopP pageSize pages fuel b (pageNum + 1) (remainingLength - 4096)
            (offsetOfBuffer + 4096)
      else
        match readChunkP pageSize pages (pageNum + 1) 0 buffer offsetOfBuffer
            (toSizeT remainingLength) with
        | Except.error e => Except.error e
        | Except.ok b => readLoopP pageSize pages fuel b (pageNum + 1) 0 offsetOfBuffer
    else Except.ok buffer

/-- What `readFrom` delivers, as a function of the page contents alone. -/
def readFromP (pageSize : Int) (pages : List (Nat → Nat)) (length : Nat)
    (buffer : Nat → Nat) (pageNum pageOffset remainingMemory : Int) :
    Except Fault (Nat → Nat) :=
  if length ≤ toUInt32 remainingMemory then
    readChunkP pageSize pages pageNum pageOffset buffer 0 length
  else
    match readChunkP pageSize pages pageNum pageOffset buffer 0 (toSizeT remainingMemory) with
    | Except.error e => Except.error e
    | Except.ok b =>
      readLoopP pageSize pages (toInt32 (length - remainingMemory)).toNat b pageNum
        (toInt32 (length - remainingMemory)) remainingMemory

/-- What `readBody` delivers, as a function of the page contents alone. -/
def readBodyP (pageSize : Int) (pages : List (Nat → Nat)) (offset length : Nat)
    (buffer : Nat → Nat) : Except Fault (Nat → Nat) :=
  readFromP pageSize pages length buffer
    (toInt32 (offset / toUInt32 pageSize))
    (toInt32 (offset % toUInt32 pageSize))
    (toInt32 (pageSize - offset))

/-- Pairs a delivered buffer with the (unchanged) state. -/
def withState (s : State) : Except Fault (Nat → Nat) → Except Fault (State × (Nat → Nat))
  | Except.error e => Except.error e
  | Except.ok b => Except.ok (s, b)

/-- Every page of a page table is mapped and protected with `PROT_NONE`. -/
def AtRest (s : State) (pageTable : List Nat) : Prop :=
  ∀ p ∈ pageTable, (s.heap p).mapped = true ∧ (s.heap p).prot = Prot.PROT_NONE

/-- The state after the copy-on-write of lines 185-195 on the shared page `p`: the
counter of `p` is decremented and a new page object, a private copy of `p`, is
allocated. -/
def forkPage (s : State) (p : Nat) : State :=
  { s with
    heap := Function.update
      (Function.update s.heap p
        { s.heap p with referenceCounter := (s.heap p).referenceCounter - 1 })
      s.nextPage
      { referenceCounter := 1, pagePointer := (s.nextPage + 1) * s.pageSize.toNat,
        bytes := copyBytes (fun _ => 0) 0 (s.heap p).bytes 0 (toSizeT s.pageSize),
        prot := Prot.PROT_NONE, mapped := true }
    nextPage := s.nextPage + 1 }

/-- The state after a chunk of `n` bytes of the buffer has been stored in page `p`
at in-page offset `off` and the page is protected again. -/
def storeChunk (s : State) (p : Nat) (off : Int) (buffer : Nat → Nat) (srcOff : Int)
    (n : Nat) : State :=
  { s with
    heap := Function.update s.heap p
      { s.heap p with bytes := copyBytes (s.heap p).bytes off.toNat buffer srcOff.toNat n } }

/-- The condition that holds between the steps of `tls_write` on the LSA `cur`,
found between `pre` and `post` in the table of the state `s0` of the call: the state
`s` with the current page table `pageTable` of the LSA is consistent, the globals are
those of `s0`, and the bytes of every page listed by another LSA are those of `s0`. -/
structure Body (pre post : List TLS) (cur : TLS) (s0 s : State) (pageTable : List Nat) :
    Prop where
  wf : WF s.heap s.nextPage (pre ++ { cur with pageTable := pageTable } :: post)
  table : s.table = s0.table
  pageSize : s.pageSize = s0.pageSize
  flag : s.notInitialized = s0.notInitialized
  frame : ∀ x, 0 < slotCount (pre ++ post) x → (s.heap x).bytes = (s0.heap x).bytes

/-! ## Observations on results, and example runs -/

/-- The value a call returned, if it returned. -/
def codeOf : Except Fault (Int × State) → Option Int
  | Except.ok r => some r.1
  | Except.error _ => none

/-- The state left by a call that returned (the given state otherwise). -/
def stateOf (s : State) : Except Fault (Int × State) → State
  | Except.ok r => r.2
  | Except.error _ => s

/-- The byte contents of the LSA of thread `tid`, page by page, if it has one. -/
def lsaContents (s : State) (tid : Nat) : Option (List (Nat → Nat)) :=
  match findTlsWithThreadID s.table tid with
  | none => none
  | some t => some (contents s t.pageTable)

/-- A buffer holding the text `hello`. -/
def helloBuffer : Nat → Nat := fun i => [104, 101, 108, 108, 111].getD i 0

/-- Thread 1 has called `tls_create(8192)` in a fresh process with 4096-byte pages. -/
def twoPageState : State := (tls_create (initialState 4096) 1 8192).2

/-- Thread 1 has called `tls_create(100)` in a fresh process with 4096-byte pages. -/
def smallState : State := (tls_create (initialState 4096) 1 100).2

/-- Thread 1 has called `tls_create(8192)`, then thread 2 has called `tls_clone(1)`. -/
def sharedState : State := stateOf twoPageState (tls_clone twoPageState 2 1)

/-- In `sharedState`, thread 1 has then called `tls_write(4094, 4, "hell")`, a write
across the page boundary that forks both shared pages. -/
def forkedState : State := stateOf sharedState (tls_write sharedState 1 4094 4 helloBuffer)

/-- Scenario S6 before the destroy: thread 1 has called `tls_create(4096)`, then
thread 2 has called `tls_clone(1)`. -/
def sharedOnePageState : State :=
  stateOf (initialState 4096)
    (tls_clone (tls_create (initialState 4096) 1 4096).2 2 1)

/-- Thread 1 has called `tls_create(8192)` and `tls_write(0, 5, "hello")`. -/
def writtenState : State := stateOf twoPageState (tls_write twoPageState 1 0 5 helloBuffer)

/-- In `writtenState`, thread 2 has then called `tls_clone(1)`. -/
def writtenSharedState : State := stateOf writtenState (tls_clone writtenState 2 1)

/-- A buffer holding the text `bbbbb`. -/
def otherBuffer : Nat → Nat := fun i => if i < 5 then 98 else 0

/-! ## The fault handler and the test hook -/

/-- The addresses at which the compiler placed the locals `startOfPage`,
`segfaultAddressPointer` and `endOfPage` of `SIGSEGV_handler`: the operands of the
comparison of line 102, which takes `&startOfPage`, `&segfaultAddressPointer` and
`&endOfPage`. -/
structure HandlerFrame where
  addrStartOfPage : Nat
  addrSegfaultAddressPointer : Nat
  addrEndOfPage : Nat

/-- What the handler does at its end: `pthread_exit(NULL)` (line 111), or the default
disposition and `raise(SIGSEGV)` (lines 113-118). -/
inductive HandlerAction where
  | pthread_exit
  | raise_default
  deriving DecidableEq

/-- Lines 93-99: the values given to `startOfPage` and `endOfPage` for the page in
slot `j` of the LSA `t`. -/
def handlerPageBounds (s : State) (t : TLS) (j : Nat) (p : Nat) : Int × Int :=
  let startOfPage : Int := (s.heap p).pagePointer
  if j = t.pageTable.length - 1 then (startOfPage, startOfPage + Int.tmod t.size s.pageSize)
  else (startOfPage, startOfPage + s.pageSize)

/-- Line 102: the condition compares the addresses of the three locals; the values
computed for them (the bounds and the faulting address) do not enter it. -/
def handlerCondition (f : HandlerFrame) (_bounds : Int × Int) (_segfaultAddressPointer : Nat) :
    Bool :=
  decide (f.addrStartOfPage ≤ f.addrSegfaultAddressPointer ∧
    f.addrSegfaultAddressPointer ≤ f.addrEndOfPage)

/-- The inner loop of lines 92-106 from slot `j` on, over the remaining pages of the
LSA `t`; the result is the value of `segfaultInPage` (the `break` leaves the loop). -/
def handlerInner (f : HandlerFrame) (s : State) (t : TLS) (segfaultAddressPointer : Nat) :
    List Nat → Nat → Bool → Bool
  | [], _, segfaultInPage => segfaultInPage
  | p :: ps, j, segfaultInPage =>
    if handlerCondition f (handlerPageBounds s t j p) segfaultAddressPointer = true then true
    else handlerInner f s t segfaultAddressPointer ps (j + 1) segfaultInPage

/-- The outer loop of lines 91-107 over the remaining LSAs of the table. -/
def handlerOuter (f : HandlerFrame) (s : State) (segfaultAddressPointer : Nat) :
    List TLS → Bool → Bool
  | [], segfaultInPage => segfaultInPage
  | t :: ts, segfaultInPage =>
    handlerOuter f s segfaultAddressPointer ts
      (handlerInner f s t segfaultAddressPointer t.pageTable 0 segfaultInPage)

/-- Lines 87-123. `si_addr` is the faulting address. -/
def SIGSEGV_handler (f : HandlerFrame) (s : State) (si_addr : Nat) : HandlerAction :=
  if handlerOuter f s si_addr s.table false = true then HandlerAction.pthread_exit
  else HandlerAction.raise_default

/-- The address lies in `[base, base + pageSize)` for the base of some page listed by
some LSA of the table. -/
def inManagedPage (s : State) (a : Nat) : Bool :=
  s.table.any (fun t => t.pageTable.any (fun p =>
    decide (((s.heap p).pagePointer : Int) ≤ a ∧ (a : Int) < (s.heap p).pagePointer + s.pageSize)))

/-- Lines 375-377: the lookup, and the dereference of its result (a fault when the
result is `NULL`). -/
def startAddressOf (s : State) (currentTID : Nat) : Except Fault Nat :=
  match findTlsWithThreadID s.table currentTID with
  | none => Except.error Fault.segv
  | some currentTLS =>
    match vecAt currentTLS.pageTable 0 with
    | Except.error e => Except.error e
    | Except.ok p => Except.ok (s.heap p).pagePointer

/-- Lines 369-378. The body of the `if` of line 372 is the expression statement
`NULL;`, so both branches continue with line 375. -/
def tls_get_internal_start_address (s : State) (currentTID : Nat) : Except Fault Nat :=
  if tableContains s.table currentTID = false then startAddressOf s currentTID
  else startAddressOf s currentTID

/-! ## More observations and example runs -/

/-- The fault in which a call ended, if it did not return. -/
def faultOf {α : Type} : Except Fault α → Option Fault
  | Except.ok _ => none
  | Except.error e => some e

/-- The value a call of `tls_read` returned, if it returned. -/
def readCodeOf : Except Fault (Int × State × (Nat → Nat)) → Option Int
  | Except.ok r => some r.1
  | Except.error _ => none

/-- The caller's buffer after a call of `tls_read` that returned (the given buffer
otherwise). -/
def bufferOf (buffer : Nat → Nat) : Except Fault (Int × State × (Nat → Nat)) → Nat → Nat
  | Except.ok r => r.2.2
  | Except.error _ => buffer

/-- The byte of the LSA with page table `pageTable` at logical position `pos`: page
`pos div pageSize`, in-page offset `pos mod pageSize`. -/
def lsaByte (s : State) (pageTable : List Nat) (pos : Nat) : Nat :=
  (s.heap (pageTable.getD (pos / s.pageSize.toNat) 0)).bytes (pos % s.pageSize.toNat)

/-- Thread 1 has called `tls_create(4096)` in a fresh process with 4096-byte pages. -/
def onePageState : State := (tls_create (initialState 4096) 1 4096).2

/-- Thread 1 has called `tls_create(12288)` in a fresh process with 4096-byte pages. -/
def threePageState : State := (tls_create (initialState 4096) 1 12288).2

/-- Thread 1 has called `tls_create(12288)`, then thread 2 has called `tls_clone(1)`. -/
def threePageSharedState : State := stateOf threePageState (tls_clone threePageState 2 1)

/-- In `threePageState`, thread 1 has called `tls_write(8192, 1, "h")`. -/
def thirdPageWrittenState : State :=
  stateOf threePageState (tls_write threePageState 1 8192 1 helloBuffer)

/-- In `thirdPageWrittenState`, thread 2 has then called `tls_clone(1)`. -/
def thirdPageClonedState : State :=
  stateOf thirdPageWrittenState (tls_clone thirdPageWrittenState 2 1)

/-- In `thirdPageClonedState`, thread 1 has then called `tls_write(4096, 1, "b")`. -/
def clonedThenWrittenState : State :=
  stateOf thirdPageClonedState (tls_write thirdPageClonedState 1 4096 1 otherBuffer)

/-- The byte at in-page offset `x` of the page in slot `k` of a page table. -/
def slotByte (s : State) (pageTable : List Nat) (k x : Nat) : Nat :=
  (s.heap (pageTable.getD k 0)).bytes x

/-- The byte at logical position `pos` of a list of 4096-byte page contents. -/
def pageByte (pages : List (Nat → Nat)) (pos : Nat) : Nat :=
  (pages.getD (pos / 4096) (fun _ => 0)) (pos % 4096)

/-- Every LSA of the table has the page count the constructor computes from its
size. -/
def Shaped (s : State) : Prop :=
  ∀ t ∈ s.table, t.numPages = numPagesFor t.size s.pageSize

/-! ## Registry lookup lemmas -/

theorem tableContains_iff (table : List TLS) (tid : Nat) :
    tableContains table tid = true ↔ ∃ t ∈ table, t.tid = tid := by
  induction table with
  | nil => simp [tableContains]
  | cons t ts ih =>
    by_cases h : t.tid = tid
    · simp [tableContains, h]
    · simp [tableContains, h, ih]

theorem tableContains_false_iff (table : List TLS) (tid : Nat) :
    tableContains table tid = false ↔ ∀ t ∈ table, t.tid ≠ tid := by
  rw [← Bool.not_eq_true, tableContains_iff]
  simp

theorem tableContains_append (l₁ l₂ : List TLS) (tid : Nat) :
    tableContains (l₁ ++ l₂) tid = (tableContains l₁ tid || tableContains l₂ tid) := by
  induction l₁ with
  | nil => simp [tableContains]
  | cons t ts ih =>
    by_cases h : t.tid = tid
    · simp [tableContains, h]
    · simp [tableContains, h, ih]

theorem findIndexFrom_some (tid : Nat) (ts : List TLS) :
    ∀ (i : Nat) (index : Option Nat) (j : Nat), findIndexFrom tid ts i index = some j →
      (index = some j ∧ tableContains ts tid = false) ∨
      ∃ pre t post, ts = pre ++ t :: post ∧ j = i + pre.length ∧ t.tid = tid ∧
        tableContains post tid = false := by
  induction ts with
  | nil =>
    intro i index j h
    left
    exact ⟨h, rfl⟩
  | cons t ts ih =>
    intro i index j h
    simp only [findIndexFrom] at h
    rcases ih _ _ _ h with ⟨h1, h2⟩ | ⟨pre, t', post, h1, h2, h3, h4⟩
    · by_cases ht : t.tid = tid
      · right
        simp only [ht, if_true, Option.some.injEq] at h1
        exact ⟨[], t, ts, rfl, by simp [h1], ht, h2⟩
      · left
        simp only [ht, if_false] at h1
        exact ⟨h1, by simp [tableContains, ht, h2]⟩
    · right
      refine ⟨t :: pre, t', post, by simp [h1], ?_, h3, h4⟩
      simp only [List.length_cons]
      omega

theorem findIndexFrom_none (tid : Nat) (ts : List TLS) :
    ∀ (i : Nat) (index : Option Nat), findIndexFrom tid ts i index = none →
      tableContains ts tid = false := by
  induction ts with
  | nil => intro i index _; rfl
  | cons t ts ih =>
    intro i index h
    simp only [findIndexFrom] at h
    by_cases ht : t.tid = tid
    · exfalso
      simp only [ht, if_true] at h
      have key : ∀ (l : List TLS) (k : Nat) (a : Nat), findIndexFrom tid l k (some a) ≠ none := by
        intro l
        induction l with
        | nil => intro k a; simp [findIndexFrom]
        | cons u us ihu =>
          intro k a
          simp only [findIndexFrom]
          by_cases hu : u.tid = tid
          · simp only [hu, if_true]; exact ihu _ _
          · simp only [hu, if_false]; exact ihu _ _
      exact key _ _ _ h
    · simp only [ht, if_false] at h
      simp [tableContains, ht, ih _ _ h]

/-- A registered thread is found by the lookup: the table splits around the last
entry with that thread id, and `findIndex` returns its position. -/
theorem lookup_of_contains (table : List TLS) (tid : Nat)
    (h : tableContains table tid = true) :
    ∃ pre t post, table = pre ++ t :: post ∧ t.tid = tid ∧
      tableContains post tid = false ∧ findIndex table tid = some pre.length := by
  cases hf : findIndex table tid with
  | none =>
    have := findIndexFrom_none tid table 0 none hf
    rw [this] at h
    cases h
  | some j =>
    rcases findIndexFrom_some tid table 0 none j hf with ⟨h1, _⟩ | ⟨pre, t, post, h1, h2, h3, h4⟩
    · cases h1
    · refine ⟨pre, t, post, h1, h3, h4, ?_⟩
      simp [h2]

theorem getElem?_split {α : Type} (pre post : List α) (t : α) :
    (pre ++ t :: post)[pre.length]? = some t := by
  rw [List.getElem?_append_right (Nat.le_refl _)]
  simp

theorem set_split {α : Type} (pre post : List α) (t u : α) :
    (pre ++ t :: post).set pre.length u = pre ++ u :: post := by
  induction pre with
  | nil => rfl
  | cons a l ih => simp [ih]

theorem eraseIdx_split {α : Type} (pre post : List α) (t : α) :
    (pre ++ t :: post).eraseIdx pre.length = pre ++ post := by
  induction pre with
  | nil => rfl
  | cons a l ih => simp [ih]

theorem findTls_of_lookup (table pre post : List TLS) (t : TLS) (tid : Nat)
    (h : table = pre ++ t :: post) (hf : findIndex table tid = some pre.length) :
    findTlsWithThreadID table tid = some t := by
  unfold findTlsWithThreadID
  rw [hf, h]
  exact getElem?_split pre post t

/-! ## Counting slots -/

theorem slotCount_nil (p : Nat) : slotCount [] p = 0 := rfl

theorem slotCount_cons (t : TLS) (ts : List TLS) (p : Nat) :
    slotCount (t :: ts) p = t.pageTable.count p + slotCount ts p := by
  simp [slotCount]

theorem slotCount_append (l₁ l₂ : List TLS) (p : Nat) :
    slotCount (l₁ ++ l₂) p = slotCount l₁ p + slotCount l₂ p := by
  simp [slotCount]

theorem slotCount_pos_iff (table : List TLS) (p : Nat) :
    0 < slotCount table p ↔ ∃ t ∈ table, p ∈ t.pageTable := by
  induction table with
  | nil => simp [slotCount]
  | cons t ts ih =>
    rw [slotCount_cons]
    constructor
    · intro h
      by_cases hc : 0 < t.pageTable.count p
      · exact ⟨t, by simp, List.count_pos_iff.mp hc⟩
      · have : 0 < slotCount ts p := by omega
        obtain ⟨u, hu, hp⟩ := ih.mp this
        exact ⟨u, by simp [hu], hp⟩
    · rintro ⟨u, hu, hp⟩
      rcases List.mem_cons.mp hu with rfl | hu
      · have := List.count_pos_iff.mpr hp
        omega
      · have := ih.mpr ⟨u, hu, hp⟩
        omega

theorem slotCount_eq_zero (table : List TLS) (p : Nat)
    (h : ∀ t ∈ table, p ∉ t.pageTable) : slotCount table p = 0 := by
  by_contra hne
  have hpos : 0 < slotCount table p := Nat.pos_of_ne_zero hne
  obtain ⟨t, ht, hp⟩ := (slotCount_pos_iff table p).mp hpos
  exact h t ht hp

/-! ## tls_create: effect and preservation of the invariant -/

theorem allocPages_spec (n : Nat) : ∀ (s : State) (pt : List Nat),
    (allocPages n s pt).2 = pt ++ List.range' s.nextPage n ∧
    (allocPages n s pt).1.nextPage = s.nextPage + n ∧
    (allocPages n s pt).1.table = s.table ∧
    (allocPages n s pt).1.pageSize = s.pageSize ∧
    (allocPages n s pt).1.notInitialized = s.notInitialized ∧
    (∀ p, p < s.nextPage → (allocPages n s pt).1.heap p = s.heap p) ∧
    (∀ p, s.nextPage ≤ p → p < s.nextPage + n →
      ((allocPages n s pt).1.heap p).referenceCounter = 1 ∧
      ((allocPages n s pt).1.heap p).mapped = true ∧
      ((allocPages n s pt).1.heap p).prot = Prot.PROT_NONE ∧
      ((allocPages n s pt).1.heap p).bytes = fun _ => 0) := by
  induction n with
  | zero =>
    intro s pt
    refine ⟨by simp [allocPages], rfl, rfl, rfl, rfl, fun _ _ => rfl, ?_⟩
    intro p h1 h2
    omega
  | succ n ih =>
    intro s pt
    obtain ⟨h1, h2, h3, h4, h5, h6, h7⟩ :=
      ih (newPage s Prot.PROT_NONE).1 (pt ++ [(newPage s Prot.PROT_NONE).2])
    have hn : (newPage s Prot.PROT_NONE).1.nextPage = s.nextPage + 1 := rfl
    have hq : (newPage s Prot.PROT_NONE).2 = s.nextPage := rfl
    simp only [allocPages]
    rw [hn] at h2 h6 h7
    refine ⟨?_, ?_, h3, h4, h5, ?_, ?_⟩
    · rw [h1, hn, hq, List.range'_succ]
      simp
    · rw [h2]; omega
    · intro p hp
      rw [h6 p (by omega)]
      simp only [newPage]
      rw [Function.update_noteq (by omega)]
    · intro p hp1 hp2
      by_cases hp : p = s.nextPage
      · subst hp
        rw [h6 _ (by omega)]
        simp [newPage]
      · exact h7 p (by omega) (by omega)

theorem wf_create {heap heap' : Nat → page} {next n : Nat} {table : List TLS}
    (size numPages : Int) (tid : Nat)
    (h : WF heap next table) (htid : tableContains table tid = false)
    (hold : ∀ p, p < next → heap' p = heap p)
    (hnew : ∀ p, next ≤ p → p < next + n →
      (heap' p).referenceCounter = 1 ∧ (heap' p).mapped = true ∧
      (heap' p).prot = Prot.PROT_NONE ∧ (heap' p).bytes = fun _ => 0)
    (hn : numPages.toNat = n) :
    WF heap' (next + n)
      (table ++ [{ size := size, numPages := numPages, tid := tid,
                   pageTable := List.range' next n }]) := by
  have hfresh : ∀ p, next ≤ p → slotCount table p = 0 := by
    intro p hp
    apply slotCount_eq_zero
    intro t ht hmem
    have := h.valid t ht p hmem
    omega
  constructor
  · intro t ht p hp
    rcases List.mem_append.mp ht with ht | ht
    · have := h.valid t ht p hp
      omega
    · simp only [List.mem_singleton] at ht
      subst ht
      simp only [List.mem_range'_1] at hp
      omega
  · intro p hp
    rw [slotCount_append, slotCount_cons, slotCount_nil] at hp ⊢
    simp only [Nat.add_zero] at hp ⊢
    by_cases hlt : p < next
    · have hc : List.count p (List.range' next n) = 0 := by
        apply List.count_eq_zero_of_not_mem
        simp only [List.mem_range'_1]
        omega
      rw [hc] at hp ⊢
      rw [hold p hlt]
      simpa using h.refs p (by omega)
    · have h0 := hfresh p (by omega)
      rw [h0] at hp ⊢
      have hmem : p ∈ List.range' next n := List.count_pos_iff.mp (by omega)
      have hc : List.count p (List.range' next n) = 1 :=
        List.count_eq_one_of_mem (List.nodup_range' next n) hmem
      simp only [List.mem_range'_1] at hmem
      rw [hc, (hnew p hmem.1 hmem.2).1]
      simp
  · intro t ht p hp
    rcases List.mem_append.mp ht with ht | ht
    · rw [hold p (h.valid t ht p hp)]
      exact h.rest t ht p hp
    · simp only [List.mem_singleton] at ht
      subst ht
      simp only [List.mem_range'_1] at hp
      exact ⟨(hnew p hp.1 hp.2).2.1, (hnew p hp.1 hp.2).2.2.1⟩
  · intro t ht
    rcases List.mem_append.mp ht with ht | ht
    · exact h.nodup t ht
    · simp only [List.mem_singleton] at ht
      subst ht
      exact List.nodup_range' next n
  · rw [List.map_append, List.nodup_append]
    refine ⟨h.tids, by simp, ?_⟩
    intro x hx hx'
    simp only [List.map_cons, List.map_nil, List.mem_singleton] at hx'
    obtain ⟨t, ht, rfl⟩ := List.mem_map.mp hx
    exact (tableContains_false_iff table tid).mp htid t ht hx'
  · intro t ht
    rcases List.mem_append.mp ht with ht | ht
    · exact h.pages t ht
    · simp only [List.mem_singleton] at ht
      subst ht
      simp [hn]

/-- The state built by the constructor call and the `push_back` of lines 155-156. -/
theorem TLS_new_inv (s : State) (currentTID : Nat) (sz : Int) (ni : Bool) (h : Inv s)
    (hc : ¬tableContains s.table currentTID = true) :
    Inv { (TLS_new { s with notInitialized := ni } sz currentTID).1 with
      table := (TLS_new { s with notInitialized := ni } sz currentTID).1.table ++
        [(TLS_new { s with notInitialized := ni } sz currentTID).2] } := by
  obtain ⟨h1, h2, h3, _, _, h6, h7⟩ :=
    allocPages_spec (numPagesFor sz s.pageSize).toNat { s with notInitialized := ni } []
  have h8 := wf_create sz (numPagesFor sz s.pageSize) currentTID
    h (by simpa using hc) h6 h7 rfl
  unfold Inv TLS_new
  generalize allocPages (numPagesFor sz s.pageSize).toNat
    { s with notInitialized := ni } [] = r at h1 h2 h3 h6 h7 h8 ⊢
  obtain ⟨s', pt⟩ := r
  simp only [List.nil_append] at h1 h2 h3
  subst h1
  simp only [h2, h3]
  exact h8

theorem tls_create_inv (s : State) (currentTID size : Nat) (h : Inv s) :
    Inv (tls_create s currentTID size).2 := by
  unfold tls_create
  by_cases h0 : size = 0
  · rw [if_pos h0]
    exact h
  · rw [if_neg h0]
    by_cases hc : tableContains s.table currentTID = true
    · rw [if_pos hc]
      exact h
    · rw [if_neg hc]
      exact TLS_new_inv s currentTID _ false h hc

/-! ## Checked vector access -/

theorem vecAt_natCast (v : List Nat) (i : Nat) :
    vecAt v (i : Int) =
      match v[i]? with
      | some x => Except.ok x
      | none => Except.error Fault.out_of_range := by
  unfold vecAt
  have h : ¬ ((i : Int) < 0) := by omega
  rw [if_neg h, Int.toNat_ofNat]

theorem vecAt_natCast_lt (v : List Nat) (i : Nat) (h : i < v.length) :
    vecAt v (i : Int) = Except.ok (v.get ⟨i, h⟩) := by
  rw [vecAt_natCast, List.getElem?_eq_getElem h]
  rfl

theorem vecAt_ok {v : List Nat} {i : Int} {p : Nat} (h : vecAt v i = Except.ok p) :
    0 ≤ i ∧ v[i.toNat]? = some p := by
  unfold vecAt at h
  by_cases hi : i < 0
  · rw [if_pos hi] at h
    cases h
  · rw [if_neg hi] at h
    refine ⟨by omega, ?_⟩
    cases hv : v[i.toNat]? with
    | none => rw [hv] at h; cases h
    | some x =>
      rw [hv] at h
      simp only [Except.ok.injEq] at h
      rw [h]

/-! ## tls_clone: effect and preservation of the invariant -/

theorem bumpAll_heap (l : List Nat) : ∀ (heap : Nat → page) (p : Nat),
    bumpAll l heap p =
      { heap p with referenceCounter := (heap p).referenceCounter + (l.count p : Int) } := by
  induction l with
  | nil => intro heap p; simp [bumpAll]
  | cons q l ih =>
    intro heap p
    simp only [bumpAll]
    rw [ih]
    by_cases hpq : p = q
    · subst hpq
      simp only [Function.update_same, List.count_cons_self, Nat.cast_add, Nat.cast_one]
      congr 1
      omega
    · rw [Function.update_noteq hpq, List.count_cons_of_ne hpq]

theorem cloneLoop_eq (pt : List Nat) (n : Nat) : ∀ (i : Nat) (s : State) (acc : List Nat),
    i + n = pt.length →
    cloneLoop pt n i s acc =
      Except.ok ({ s with heap := bumpAll (pt.drop i) s.heap }, acc ++ pt.drop i) := by
  induction n with
  | zero =>
    intro i s acc h
    have : pt.drop i = [] := List.drop_eq_nil_of_le (by omega)
    simp [cloneLoop, this, bumpAll]
  | succ n ih =>
    intro i s acc h
    have hi : i < pt.length := by omega
    simp only [cloneLoop]
    rw [vecAt_natCast_lt pt i hi]
    simp only
    rw [ih (i + 1) _ _ (by omega), List.drop_eq_getElem_cons hi]
    simp [bumpAll]

theorem count_le_slotCount {table : List TLS} {t : TLS} (ht : t ∈ table) (p : Nat) :
    t.pageTable.count p ≤ slotCount table p := by
  induction table with
  | nil => cases ht
  | cons u us ih =>
    rw [slotCount_cons]
    rcases List.mem_cons.mp ht with rfl | h
    · omega
    · have := ih h
      omega

theorem wf_clone {heap : Nat → page} {next : Nat} {table : List TLS} (src : TLS) (tid : Nat)
    (h : WF heap next table) (hsrc : src ∈ table) (htid : tableContains table tid = false) :
    WF (bumpAll src.pageTable heap) next
      (table ++ [{ size := src.size, numPages := src.numPages, tid := tid,
                   pageTable := src.pageTable }]) := by
  constructor
  · intro t ht p hp
    rcases List.mem_append.mp ht with ht | ht
    · exact h.valid t ht p hp
    · simp only [List.mem_singleton] at ht
      subst ht
      exact h.valid src hsrc p hp
  · intro p hp
    rw [slotCount_append, slotCount_cons, slotCount_nil] at hp ⊢
    simp only [Nat.add_zero] at hp ⊢
    have hle := count_le_slotCount hsrc p
    rw [bumpAll_heap]
    simp only [Nat.cast_add]
    rw [h.refs p (by omega)]
  · intro t ht p hp
    rw [bumpAll_heap]
    rcases List.mem_append.mp ht with ht | ht
    · exact h.rest t ht p hp
    · simp only [List.mem_singleton] at ht
      subst ht
      exact h.rest src hsrc p hp
  · intro t ht
    rcases List.mem_append.mp ht with ht | ht
    · exact h.nodup t ht
    · simp only [List.mem_singleton] at ht
      subst ht
      exact h.nodup src hsrc
  · rw [List.map_append, List.nodup_append]
    refine ⟨h.tids, by simp, ?_⟩
    intro x hx hx'
    simp only [List.map_cons, List.map_nil, List.mem_singleton] at hx'
    obtain ⟨t, ht, rfl⟩ := List.mem_map.mp hx
    exact (tableContains_false_iff table tid).mp htid t ht hx'
  · intro t ht
    rcases List.mem_append.mp ht with ht | ht
    · exact h.pages t ht
    · simp only [List.mem_singleton] at ht
      subst ht
      exact h.pages src hsrc

/-- On a consistent state `tls_clone_locked` returns; this is its result when both
preconditions hold. -/
theorem tls_clone_eq (s : State) (currentTID tid : Nat) (h : Inv s)
    (h1 : tableContains s.table tid = true) (h2 : tableContains s.table currentTID = false) :
    ∃ src, src ∈ s.table ∧ findTlsWithThreadID s.table tid = some src ∧ src.tid = tid ∧
      tls_clone_locked s currentTID tid =
        Except.ok (0, { s with
          heap := bumpAll src.pageTable s.heap
          table := s.table ++ [{ size := src.size, numPages := src.numPages,
                                 tid := currentTID, pageTable := src.pageTable }] }) := by
  obtain ⟨pre, src, post, hsplit, htid, _, hfind⟩ := lookup_of_contains s.table tid h1
  have hmem : src ∈ s.table := by rw [hsplit]; simp
  have hf := findTls_of_lookup s.table pre post src tid hsplit hfind
  refine ⟨src, hmem, hf, htid, ?_⟩
  unfold tls_clone_locked
  rw [h1, h2, hf]
  simp only [Bool.true_eq_false, Bool.false_eq_true, if_false]
  rw [cloneLoop_eq src.pageTable _ 0 s [] (by simpa using h.pages src hmem)]
  simp

theorem tls_clone_inv (s s' : State) (currentTID tid : Nat) (r : Int) (h : Inv s)
    (hr : tls_clone_locked s currentTID tid = Except.ok (r, s')) : Inv s' := by
  by_cases h1 : tableContains s.table tid = true
  · by_cases h2 : tableContains s.table currentTID = true
    · unfold tls_clone_locked at hr
      rw [h1, h2] at hr
      simp only [Bool.true_eq_false, if_false, if_true, Except.ok.injEq, Prod.mk.injEq] at hr
      rw [← hr.2]
      exact h
    · have h2' : tableContains s.table currentTID = false := by simpa using h2
      obtain ⟨src, hmem, _, _, heq⟩ := tls_clone_eq s currentTID tid h h1 h2'
      rw [heq] at hr
      simp only [Except.ok.injEq, Prod.mk.injEq] at hr
      rw [← hr.2]
      exact wf_clone src currentTID h hmem h2'
  · have h1' : tableContains s.table tid = false := by simpa using h1
    unfold tls_clone_locked at hr
    rw [h1'] at hr
    simp only [if_true, Except.ok.injEq, Prod.mk.injEq] at hr
    rw [← hr.2]
    exact h

/-! ## tls_destroy: effect and preservation of the invariant -/

theorem releasePage_other (s : State) (p q : Nat) (h : q ≠ p) :
    (releasePage s p).heap q = s.heap q := by
  unfold releasePage munmap
  split <;> simp [Function.update_noteq h]

theorem releasePage_same (s : State) (p : Nat) :
    (releasePage s p).heap p =
      if (s.heap p).referenceCounter = 1 then { s.heap p with mapped := false }
      else { s.heap p with referenceCounter := (s.heap p).referenceCounter - 1 } := by
  unfold releasePage munmap
  split <;> simp

theorem releasePage_frame (s : State) (p : Nat) :
    (releasePage s p).table = s.table ∧ (releasePage s p).nextPage = s.nextPage ∧
    (releasePage s p).pageSize = s.pageSize ∧
    (releasePage s p).notInitialized = s.notInitialized := by
  unfold releasePage munmap
  split <;> simp

theorem releaseAll_frame (l : List Nat) : ∀ (s : State),
    (releaseAll l s).table = s.table ∧ (releaseAll l s).nextPage = s.nextPage ∧
    (releaseAll l s).pageSize = s.pageSize ∧
    (releaseAll l s).notInitialized = s.notInitialized := by
  induction l with
  | nil => intro s; exact ⟨rfl, rfl, rfl, rfl⟩
  | cons q l ih =>
    intro s
    obtain ⟨a, b, c, d⟩ := ih (releasePage s q)
    obtain ⟨a', b', c', d'⟩ := releasePage_frame s q
    simp only [releaseAll]
    exact ⟨a.trans a', b.trans b', c.trans c', d.trans d'⟩

theorem releaseAll_not_mem (l : List Nat) : ∀ (s : State) (p : Nat), p ∉ l →
    (releaseAll l s).heap p = s.heap p := by
  induction l with
  | nil => intro s p _; rfl
  | cons q l ih =>
    intro s p hp
    simp only [List.mem_cons, not_or] at hp
    simp only [releaseAll]
    rw [ih _ _ hp.2, releasePage_other s q p hp.1]

theorem releaseAll_mem (l : List Nat) : ∀ (s : State) (p : Nat), l.Nodup → p ∈ l →
    (releaseAll l s).heap p = (releasePage s p).heap p := by
  induction l with
  | nil => intro s p _ hp; cases hp
  | cons q l ih =>
    intro s p hnd hp
    simp only [List.nodup_cons] at hnd
    simp only [releaseAll]
    rcases List.mem_cons.mp hp with rfl | hmem
    · rw [releaseAll_not_mem l _ _ hnd.1]
    · have hne : p ≠ q := fun h => hnd.1 (h ▸ hmem)
      rw [ih _ _ hnd.2 hmem, releasePage_same, releasePage_same, releasePage_other s q p hne]

theorem destroyLoop_eq (pt : List Nat) (n : Nat) : ∀ (i : Nat) (s : State),
    i + n = pt.length →
    destroyLoop pt n i s = Except.ok (releaseAll (pt.drop i) s) := by
  induction n with
  | zero =>
    intro i s h
    have : pt.drop i = [] := List.drop_eq_nil_of_le (by omega)
    simp [destroyLoop, this, releaseAll]
  | succ n ih =>
    intro i s h
    have hi : i < pt.length := by omega
    simp only [destroyLoop]
    rw [vecAt_natCast_lt pt i hi]
    simp only
    rw [ih (i + 1) _ (by omega), List.drop_eq_getElem_cons hi]
    simp [releaseAll]

theorem wf_destroy {s : State} {pre post : List TLS} {t : TLS}
    (h : WF s.heap s.nextPage (pre ++ t :: post)) :
    WF (releaseAll t.pageTable s).heap s.nextPage (pre ++ post) := by
  have hsub : ∀ u ∈ pre ++ post, u ∈ pre ++ t :: post := by
    intro u hu
    rcases List.mem_append.mp hu with hu | hu
    · exact List.mem_append_left _ hu
    · exact List.mem_append_right _ (List.mem_cons_of_mem _ hu)
  have ht : t ∈ pre ++ t :: post := by simp
  have hsc : ∀ p, slotCount (pre ++ t :: post) p =
      slotCount (pre ++ post) p + t.pageTable.count p := by
    intro p
    simp only [slotCount_append, slotCount_cons]
    omega
  have hkeep : ∀ p, 0 < slotCount (pre ++ post) p →
      (releaseAll t.pageTable s).heap p =
        { s.heap p with referenceCounter := (slotCount (pre ++ post) p : Int) } := by
    intro p hp
    have hrc := h.refs p (by rw [hsc]; omega)
    by_cases hmem : p ∈ t.pageTable
    · have hc : t.pageTable.count p = 1 := List.count_eq_one_of_mem (h.nodup t ht) hmem
      rw [releaseAll_mem _ _ _ (h.nodup t ht) hmem, releasePage_same]
      rw [hsc, hc] at hrc
      have hne : ¬ (s.heap p).referenceCounter = 1 := by rw [hrc]; push_cast; omega
      rw [if_neg hne, hrc]
      push_cast
      congr 1
      omega
    · have hc : t.pageTable.count p = 0 := List.count_eq_zero_of_not_mem hmem
      rw [releaseAll_not_mem _ _ _ hmem]
      rw [hsc, hc, Nat.add_zero] at hrc
      rw [← hrc]
  constructor
  · intro u hu p hp
    exact h.valid u (hsub u hu) p hp
  · intro p hp
    rw [hkeep p hp]
  · intro u hu p hp
    rw [hkeep p ((slotCount_pos_iff _ _).mpr ⟨u, hu, hp⟩)]
    exact h.rest u (hsub u hu) p hp
  · intro u hu
    exact h.nodup u (hsub u hu)
  · have := h.tids
    rw [List.map_append, List.map_cons] at this
    rw [List.map_append]
    exact this.sublist (List.Sublist.append_left (List.sublist_cons_self _ _) _)
  · intro u hu
    exact h.pages u (hsub u hu)

/-- On a consistent state `tls_destroy_locked` returns; this is its result when the caller
has an LSA. -/
theorem tls_destroy_eq (s : State) (currentTID : Nat) (h : Inv s)
    (h1 : tableContains s.table currentTID = true) :
    ∃ pre t post, s.table = pre ++ t :: post ∧ t.tid = currentTID ∧
      tls_destroy_locked s currentTID =
        Except.ok (0, { releaseAll t.pageTable s with table := pre ++ post }) := by
  obtain ⟨pre, t, post, hsplit, htid, _, hfind⟩ := lookup_of_contains s.table currentTID h1
  have hmem : t ∈ s.table := by rw [hsplit]; simp
  refine ⟨pre, t, post, hsplit, htid, ?_⟩
  unfold tls_destroy_locked
  rw [h1, hfind]
  simp only [Bool.true_eq_false, if_false]
  have hget : s.table[pre.length]? = some t := by rw [hsplit]; exact getElem?_split pre post t
  rw [hget]
  simp only
  rw [destroyLoop_eq t.pageTable _ 0 s (by simpa using h.pages t hmem)]
  simp only [List.drop_zero]
  rw [(releaseAll_frame t.pageTable s).1, hsplit, eraseIdx_split]

theorem tls_destroy_inv (s s' : State) (currentTID : Nat) (r : Int) (h : Inv s)
    (hr : tls_destroy_locked s currentTID = Except.ok (r, s')) : Inv s' := by
  by_cases h1 : tableContains s.table currentTID = true
  · obtain ⟨pre, t, post, hsplit, _, heq⟩ := tls_destroy_eq s currentTID h h1
    rw [heq] at hr
    simp only [Except.ok.injEq, Prod.mk.injEq] at hr
    rw [← hr.2]
    have hwf : WF s.heap s.nextPage (pre ++ t :: post) := by rw [← hsplit]; exact h
    have := wf_destroy hwf
    unfold Inv
    simp only [(releaseAll_frame t.pageTable s).2.1]
    exact this
  · have h1' : tableContains s.table currentTID = false := by simpa using h1
    unfold tls_destroy_locked at hr
    rw [h1'] at hr
    simp only [if_true, Except.ok.injEq, Prod.mk.injEq] at hr
    rw [← hr.2]
    exact h

/-! ## Memory primitives -/

theorem copyBytes_zero (dst src : Nat → Nat) (d so : Nat) : copyBytes dst d src so 0 = dst := by
  funext i
  unfold copyBytes
  rw [if_neg]
  omega

theorem mprotect_frame (s : State) (p : Nat) (pr : Prot) :
    (mprotect s p pr).table = s.table ∧ (mprotect s p pr).nextPage = s.nextPage ∧
    (mprotect s p pr).pageSize = s.pageSize ∧
    (mprotect s p pr).notInitialized = s.notInitialized := by
  unfold mprotect
  split <;> simp

theorem mprotect_mapped (s : State) (p : Nat) (pr : Prot) (h : (s.heap p).mapped = true) :
    mprotect s p pr = { s with heap := Function.update s.heap p { s.heap p with prot := pr } } := by
  unfold mprotect
  rw [if_pos h]

theorem update_self_prot (s : State) (p : Nat) (pr : Prot) (h : (s.heap p).prot = pr) :
    ({ s with heap := Function.update s.heap p { s.heap p with prot := pr } } : State) = s := by
  have : ({ s.heap p with prot := pr } : page) = s.heap p := by rw [← h]
  rw [this, Function.update_eq_self]

/-- Raising the protection of a page at rest and lowering it again restores the state. -/
theorem mprotect_toggle (s : State) (p : Nat) (h1 : (s.heap p).mapped = true)
    (h2 : (s.heap p).prot = Prot.PROT_NONE) :
    mprotect (mprotect s p Prot.PROT_READ_WRITE) p Prot.PROT_NONE = s := by
  rw [mprotect_mapped s p _ h1, mprotect_mapped _ p _ (by simp [h1])]
  simp only [Function.update_same, Function.update_idem]
  exact update_self_prot s p _ h2

/-! ## tls_read: the state is left as it was, the buffer depends on the contents only -/

theorem mem_of_vecAt {v : List Nat} {i : Int} {p : Nat} (h : vecAt v i = Except.ok p) :
    p ∈ v :=
  List.getElem?_mem (vecAt_ok h).2

theorem readChunk_eq (s : State) (pt : List Nat) (hrest : AtRest s pt) (pageNum off : Int)
    (buffer : Nat → Nat) (dstOff : Int) (n : Nat) :
    readChunk s pt pageNum off buffer dstOff n =
      withState s (readChunkP s.pageSize (contents s pt) pageNum off buffer dstOff n) := by
  unfold readChunk readChunkP vecAt
  by_cases hneg : pageNum < 0
  · simp [hneg, withState]
  · simp only [hneg, if_false, contents, List.getElem?_map]
    cases hv : pt[pageNum.toNat]? with
    | none => simp [withState]
    | some p =>
      have hp := hrest p (List.getElem?_mem hv)
      simp only [Option.map_some']
      rw [mprotect_toggle s p hp.1 hp.2]
      unfold memcpyFromPage
      by_cases hn : n = 0
      · simp [hn, withState]
      · simp only [hn, if_false]
        have hok : pageRangeOk (mprotect s p Prot.PROT_READ_WRITE) p off n ↔
            (0 ≤ off ∧ off + n ≤ s.pageSize) := by
          unfold pageRangeOk
          rw [mprotect_mapped s p _ hp.1]
          simp [hp.1]
        by_cases hr : 0 ≤ off ∧ off + n ≤ s.pageSize
        · rw [if_pos (hok.mpr hr), if_pos hr]
          rw [mprotect_mapped s p _ hp.1]
          simp [withState]
        · rw [if_neg (fun h => hr (hok.mp h)), if_neg hr]
          simp [withState]

theorem readLoop_eq (s : State) (pt : List Nat) (hrest : AtRest s pt) (fuel : Nat) :
    ∀ (buffer : Nat → Nat) (pageNum remainingLength offsetOfBuffer : Int),
    readLoop pt fuel s buffer pageNum remainingLength offsetOfBuffer =
      withState s (readLoopP s.pageSize (contents s pt) fuel buffer pageNum remainingLength
        offsetOfBuffer) := by
  induction fuel with
  | zero =>
    intro buffer pageNum rem ob
    unfold readLoop readLoopP
    split <;> simp [withState]
  | succ fuel ih =>
    intro buffer pageNum rem ob
    unfold readLoop readLoopP
    by_cases h0 : rem > 0
    · simp only [h0, if_true]
      by_cases h1 : rem > 4096
      · simp only [h1, if_true]
        rw [readChunk_eq s pt hrest]
        cases readChunkP s.pageSize (contents s pt) (pageNum + 1) 0 buffer ob 4096 with
        | error e => simp [withState]
        | ok b => simp only [withState]; exact ih _ _ _ _
      · simp only [h1, if_false]
        rw [readChunk_eq s pt hrest]
        cases readChunkP s.pageSize (contents s pt) (pageNum + 1) 0 buffer ob (toSizeT rem) with
        | error e => simp [withState]
        | ok b => simp only [withState]; exact ih _ _ _ _
    · simp [h0, withState]

theorem readFrom_eq (s : State) (t : TLS) (hrest : AtRest s t.pageTable) (length : Nat)
    (buffer : Nat → Nat) (pageNum pageOffset remainingMemory : Int) :
    readFrom s t length buffer pageNum pageOffset remainingMemory =
      withState s (readFromP s.pageSize (contents s t.pageTable) length buffer pageNum
        pageOffset remainingMemory) := by
  unfold readFrom readFromP
  split
  · exact readChunk_eq s t.pageTable hrest _ _ _ _ _
  · rw [readChunk_eq s t.pageTable hrest]
    cases readChunkP s.pageSize (contents s t.pageTable) pageNum pageOffset buffer 0
        (toSizeT remainingMemory) with
    | error e => simp [withState]
    | ok b => simp only [withState]; exact readLoop_eq s t.pageTable hrest _ _ _ _ _

theorem readBody_eq (s : State) (t : TLS) (hrest : AtRest s t.pageTable) (offset length : Nat)
    (buffer : Nat → Nat) :
    readBody s t offset length buffer =
      withState s (readBodyP s.pageSize (contents s t.pageTable) offset length buffer) :=
  readFrom_eq s t hrest length buffer _ _ _

/-! ## tls_write: closed forms of the two building blocks -/

theorem State.ext' {a b : State} (h1 : a.pageSize = b.pageSize)
    (h2 : a.notInitialized = b.notInitialized) (h3 : a.heap = b.heap)
    (h4 : a.nextPage = b.nextPage) (h5 : a.table = b.table) : a = b := by
  cases a
  cases b
  simp only [State.mk.injEq]
  exact ⟨h1, h2, h3, h4, h5⟩

theorem mprotect_heap (s : State) (p : Nat) (pr : Prot) (x : Nat) :
    (mprotect s p pr).heap x =
      if x = p ∧ (s.heap p).mapped = true then { s.heap p with prot := pr } else s.heap x := by
  unfold mprotect
  by_cases hm : (s.heap p).mapped = true
  · rw [if_pos hm]
    by_cases hx : x = p
    · subst hx
      simp [hm]
    · simp [hx, Function.update_noteq hx]
  · rw [if_neg hm]
    simp [hm]

theorem update_self_bytes (s : State) (p : Nat) :
    ({ s with heap := Function.update s.heap p { s.heap p with bytes := (s.heap p).bytes } }
      : State) = s := by
  rw [Function.update_eq_self]

theorem memcpyPageToPage_ok {s s4 : State} {dst src n : Nat}
    (h : memcpyPageToPage s dst src n = Except.ok s4) :
    s4 = { s with
      heap := Function.update s.heap dst
        { s.heap dst with bytes := copyBytes (s.heap dst).bytes 0 (s.heap src).bytes 0 n } } := by
  unfold memcpyPageToPage at h
  by_cases hn : n = 0
  · rw [if_pos hn] at h
    simp only [Except.ok.injEq] at h
    rw [hn, copyBytes_zero, update_self_bytes]
    exact h.symm
  · rw [if_neg hn] at h
    by_cases hok : pageRangeOk s dst 0 n ∧ pageRangeOk s src 0 n
    · rw [if_pos hok] at h
      simp only [Except.ok.injEq] at h
      exact h.symm
    · rw [if_neg hok] at h
      cases h

theorem memcpyToPage_ok {s s1 : State} {p : Nat} {off srcOff : Int} {buffer : Nat → Nat}
    {n : Nat} (h : memcpyToPage s p off buffer srcOff n = Except.ok s1) :
    s1 = storeChunk s p off buffer srcOff n ∧ (n = 0 ∨ pageRangeOk s p off n) := by
  unfold memcpyToPage at h
  unfold storeChunk
  by_cases hn : n = 0
  · rw [if_pos hn] at h
    simp only [Except.ok.injEq] at h
    rw [hn, copyBytes_zero, update_self_bytes]
    exact ⟨h.symm, Or.inl rfl⟩
  · rw [if_neg hn] at h
    by_cases hok : pageRangeOk s p off n
    · rw [if_pos hok] at h
      simp only [Except.ok.injEq] at h
      exact ⟨h.symm, Or.inr hok⟩
    · rw [if_neg hok] at h
      cases h

theorem copyOnWrite_spec (s : State) (pt : List Nat) (pn : Int) (p : Nat)
    (hv : vecAt pt pn = Except.ok p) (hlt : p < s.nextPage)
    (hm : (s.heap p).mapped = true) (hp : (s.heap p).prot = Prot.PROT_NONE)
    (r : State × List Nat) (hr : copyOnWrite s pt pn = Except.ok r) :
    ((s.heap p).referenceCounter ≤ 1 ∧ r = (s, pt)) ∨
    ((s.heap p).referenceCounter > 1 ∧ r = (forkPage s p, pt.set pn.toNat s.nextPage)) := by
  unfold copyOnWrite at hr
  rw [hv] at hr
  simp only at hr
  by_cases hrc : (s.heap p).referenceCounter > 1
  · right
    refine ⟨hrc, ?_⟩
    rw [if_pos hrc] at hr
    have hne : p ≠ s.nextPage := by omega
    have hne' : s.nextPage ≠ p := fun h => hne h.symm
    generalize hn' : toSizeT s.pageSize = n at hr
    split at hr
    · cases hr
    · rename_i s4 hmc
      have h4 := memcpyPageToPage_ok hmc
      simp only [Except.ok.injEq] at hr
      rw [← hr, h4]
      unfold forkPage
      rw [hn']
      congr 1
      apply State.ext'
      · simp [mprotect_frame, newPage]
      · simp [mprotect_frame, newPage]
      · funext x
        by_cases hxq : x = s.nextPage
        · subst hxq
          simp [mprotect_heap, newPage, hne, hne', hm]
        · by_cases hxp : x = p
          · subst hxp
            simp [mprotect_heap, newPage, hne, hne', hm, hp, hxq]
          · simp [mprotect_heap, newPage, hne, hne', hm, hp, hxq, hxp]
      · simp [mprotect_frame, newPage]
      · simp [mprotect_frame, newPage]
  · left
    rw [if_neg hrc] at hr
    simp only [Except.ok.injEq] at hr
    exact ⟨by omega, hr.symm⟩

theorem writeChunk_spec (s : State) (pt : List Nat) (pn : Int) (p : Nat)
    (hv : vecAt pt pn = Except.ok p)
    (hm : (s.heap p).mapped = true) (hp : (s.heap p).prot = Prot.PROT_NONE)
    (off : Int) (buffer : Nat → Nat) (srcOff : Int) (n : Nat) (s' : State)
    (hr : writeChunk s pt pn off buffer srcOff n = Except.ok s') :
    s' = storeChunk s p off buffer srcOff n ∧ (n = 0 ∨ (0 ≤ off ∧ off + n ≤ s.pageSize)) := by
  unfold writeChunk at hr
  rw [hv] at hr
  simp only at hr
  split at hr
  · cases hr
  · rename_i s1 hmc
    obtain ⟨h1, h2⟩ := memcpyToPage_ok hmc
    simp only [Except.ok.injEq] at hr
    constructor
    · rw [← hr, h1]
      unfold storeChunk
      apply State.ext'
      · simp [mprotect_frame]
      · simp [mprotect_frame]
      · funext x
        by_cases hx : x = p
        · subst hx
          simp [mprotect_heap, hm, hp]
        · simp [mprotect_heap, hx]
      · simp [mprotect_frame]
      · simp [mprotect_frame]
    · rcases h2 with h2 | h2
      · exact Or.inl h2
      · right
        unfold pageRangeOk at h2
        rw [(mprotect_frame s p _).2.2.1] at h2
        exact h2.2.2

/-! ## tls_write: preservation of the invariant -/

theorem wf_heap_congr {heap heap' : Nat → page} {next : Nat} {table : List TLS}
    (h : WF heap next table)
    (hc : ∀ x, (heap' x).referenceCounter = (heap x).referenceCounter ∧
      (heap' x).mapped = (heap x).mapped ∧ (heap' x).prot = (heap x).prot) :
    WF heap' next table := by
  constructor
  · exact h.valid
  · intro p hp
    rw [(hc p).1]
    exact h.refs p hp
  · intro t ht p hp
    rw [(hc p).2.1, (hc p).2.2]
    exact h.rest t ht p hp
  · exact h.nodup
  · exact h.tids
  · exact h.pages

theorem slotCount_split (pre post : List TLS) (c : TLS) (x : Nat) :
    slotCount (pre ++ c :: post) x = slotCount (pre ++ post) x + c.pageTable.count x := by
  simp only [slotCount_append, slotCount_cons]
  omega

theorem mem_split_iff {pre post : List TLS} {c u : TLS} :
    u ∈ pre ++ c :: post ↔ u = c ∨ u ∈ pre ++ post := by
  simp only [List.mem_append, List.mem_cons]
  tauto

theorem wf_fork {s : State} {pre post : List TLS} {cur : TLS} {pt : List Nat} {k p : Nat}
    (h : WF s.heap s.nextPage (pre ++ { cur with pageTable := pt } :: post))
    (hk : pt[k]? = some p) :
    WF (forkPage s p).heap (s.nextPage + 1)
      (pre ++ { cur with pageTable := pt.set k s.nextPage } :: post) := by
  have hc : ({ cur with pageTable := pt } : TLS) ∈ pre ++ { cur with pageTable := pt } :: post :=
    mem_split_iff.mpr (Or.inl rfl)
  have hpmem : p ∈ pt := List.getElem?_mem hk
  have hplt : p < s.nextPage := h.valid _ hc p hpmem
  have hklt : k < pt.length := (List.getElem?_eq_some.mp hk).1
  have hkget : pt[k] = p := (List.getElem?_eq_some.mp hk).2
  have hqnot : s.nextPage ∉ pt := fun hq => Nat.lt_irrefl _ (h.valid _ hc _ hq)
  have hq0 : slotCount (pre ++ post) s.nextPage = 0 := by
    apply slotCount_eq_zero
    intro u hu hq
    exact Nat.lt_irrefl _ (h.valid u (mem_split_iff.mpr (Or.inr hu)) _ hq)
  have hcount : ∀ x, List.count x (pt.set k s.nextPage) + (if p = x then 1 else 0) =
      List.count x pt + (if s.nextPage = x then 1 else 0) := by
    intro x
    rw [List.count_set _ _ _ _ hklt, hkget]
    simp only [beq_iff_eq]
    by_cases hpx : p = x
    · have : 0 < List.count x pt := List.count_pos_iff.mpr (hpx ▸ hpmem)
      simp only [hpx, if_true]
      omega
    · simp only [hpx, if_false]
      omega
  have hheap : ∀ x, x ≠ s.nextPage → x ≠ p → (forkPage s p).heap x = s.heap x := by
    intro x h1 h2
    simp [forkPage, Function.update_noteq h1, Function.update_noteq h2]
  have hheapq : (forkPage s p).heap s.nextPage =
      { referenceCounter := 1, pagePointer := (s.nextPage + 1) * s.pageSize.toNat,
        bytes := copyBytes (fun _ => 0) 0 (s.heap p).bytes 0 (toSizeT s.pageSize),
        prot := Prot.PROT_NONE, mapped := true } := by
    simp [forkPage]
  have hheapp : (forkPage s p).heap p =
      { s.heap p with referenceCounter := (s.heap p).referenceCounter - 1 } := by
    have : p ≠ s.nextPage := by omega
    simp [forkPage, Function.update_noteq this]
  have hrest : ∀ x, ((s.heap x).mapped = true ∧ (s.heap x).prot = Prot.PROT_NONE) →
      ((forkPage s p).heap x).mapped = true ∧ ((forkPage s p).heap x).prot = Prot.PROT_NONE := by
    intro x hx
    by_cases h1 : x = s.nextPage
    · rw [h1, hheapq]
      exact ⟨rfl, rfl⟩
    · by_cases h2 : x = p
      · rw [h2, hheapp]
        rw [h2] at hx
        exact hx
      · rw [hheap x h1 h2]
        exact hx
  constructor
  · intro u hu x hx
    rcases mem_split_iff.mp hu with rfl | hu
    · rcases List.mem_or_eq_of_mem_set hx with hx | hx
      · have := h.valid _ hc x hx
        omega
      · omega
    · have := h.valid u (mem_split_iff.mpr (Or.inr hu)) x hx
      omega
  · intro x hx
    rw [slotCount_split] at hx ⊢
    simp only at hx ⊢
    have hcx := hcount x
    by_cases h1 : x = s.nextPage
    · subst h1
      have hpq : ¬ p = s.nextPage := by omega
      have h0 : List.count s.nextPage pt = 0 := List.count_eq_zero_of_not_mem hqnot
      simp only [hpq, if_false, if_true, h0] at hcx
      rw [hheapq, hq0]
      simp only
      omega
    · have hqx : ¬ s.nextPage = x := fun e => h1 e.symm
      simp only [hqx, if_false] at hcx
      have hold := h.refs x
      rw [slotCount_split] at hold
      simp only at hold
      by_cases h2 : x = p
      · subst h2
        simp only [if_true] at hcx
        rw [hheapp]
        simp only
        rw [hold (by omega)]
        omega
      · have hpx : ¬ p = x := fun e => h2 e.symm
        simp only [hpx, if_false] at hcx
        rw [hheap x h1 h2, hold (by omega)]
        omega
  · intro u hu x hx
    rcases mem_split_iff.mp hu with rfl | hu
    · rcases List.mem_or_eq_of_mem_set hx with hx | hx
      · exact hrest x (h.rest _ hc x hx)
      · rw [hx, hheapq]
        exact ⟨rfl, rfl⟩
    · exact hrest x (h.rest u (mem_split_iff.mpr (Or.inr hu)) x hx)
  · intro u hu
    rcases mem_split_iff.mp hu with rfl | hu
    · exact (h.nodup _ hc).set hqnot
    · exact h.nodup u (mem_split_iff.mpr (Or.inr hu))
  · have := h.tids
    simpa using this
  · intro u hu
    rcases mem_split_iff.mp hu with rfl | hu
    · have := h.pages _ hc
      simpa using this
    · exact h.pages u (mem_split_iff.mpr (Or.inr hu))

theorem Body.cur_mem {pre post : List TLS} {cur : TLS} {pt : List Nat} :
    ({ cur with pageTable := pt } : TLS) ∈ pre ++ { cur with pageTable := pt } :: post :=
  mem_split_iff.mpr (Or.inl rfl)

/-- After the copy-on-write step the slot holds a page that no other slot holds. -/
theorem body_copyOnWrite {pre post : List TLS} {cur : TLS} {s0 s : State} {pt : List Nat}
    (hb : Body pre post cur s0 s pt) (pn : Int) (r : State × List Nat)
    (hr : copyOnWrite s pt pn = Except.ok r) :
    Body pre post cur s0 r.1 r.2 ∧
      ∃ p', vecAt r.2 pn = Except.ok p' ∧ (r.1.heap p').referenceCounter = 1 := by
  cases hv : vecAt pt pn with
  | error e =>
    unfold copyOnWrite at hr
    rw [hv] at hr
    cases hr
  | ok p =>
    have hpmem : p ∈ pt := mem_of_vecAt hv
    have hlt : p < s.nextPage := hb.wf.valid _ Body.cur_mem p hpmem
    have hrest := hb.wf.rest _ Body.cur_mem p hpmem
    have hsc : 0 < slotCount (pre ++ { cur with pageTable := pt } :: post) p :=
      (slotCount_pos_iff _ _).mpr ⟨_, Body.cur_mem, hpmem⟩
    have hrefs := hb.wf.refs p hsc
    rcases copyOnWrite_spec s pt pn p hv hlt hrest.1 hrest.2 r hr with ⟨h1, h2⟩ | ⟨h1, h2⟩
    · subst h2
      refine ⟨hb, p, hv, ?_⟩
      have : (1 : Int) ≤ (slotCount (pre ++ { cur with pageTable := pt } :: post) p : Int) := by
        exact_mod_cast hsc
      show (s.heap p).referenceCounter = 1
      omega
    · subst h2
      obtain ⟨hpn, hk⟩ := vecAt_ok hv
      have hklt : pn.toNat < pt.length := (List.getElem?_eq_some.mp hk).1
      refine ⟨⟨wf_fork hb.wf hk, hb.table, hb.pageSize, hb.flag, ?_⟩, s.nextPage, ?_, ?_⟩
      · intro x hx
        rw [← hb.frame x hx]
        obtain ⟨u, hu, hxu⟩ := (slotCount_pos_iff _ _).mp hx
        have hxlt : x < s.nextPage := hb.wf.valid u (mem_split_iff.mpr (Or.inr hu)) x hxu
        have hxq : x ≠ s.nextPage := by omega
        by_cases hxp : x = p
        · subst hxp
          simp [forkPage, Function.update_noteq hxq]
        · simp [forkPage, Function.update_noteq hxq, Function.update_noteq hxp]
      · unfold vecAt
        rw [if_neg (by omega)]
        simp [List.getElem?_set, hklt]
      · simp [forkPage]

theorem body_writeChunk {pre post : List TLS} {cur : TLS} {s0 s : State} {pt : List Nat}
    (hb : Body pre post cur s0 s pt) (pn : Int) (p : Nat) (hv : vecAt pt pn = Except.ok p)
    (hrc : (s.heap p).referenceCounter = 1)
    (off : Int) (buffer : Nat → Nat) (srcOff : Int) (n : Nat) (s' : State)
    (hr : writeChunk s pt pn off buffer srcOff n = Except.ok s') :
    Body pre post cur s0 s' pt := by
  have hpmem : p ∈ pt := mem_of_vecAt hv
  have hrest := hb.wf.rest _ Body.cur_mem p hpmem
  obtain ⟨h1, _⟩ := writeChunk_spec s pt pn p hv hrest.1 hrest.2 off buffer srcOff n s' hr
  subst h1
  have hsc : 0 < slotCount (pre ++ { cur with pageTable := pt } :: post) p :=
    (slotCount_pos_iff _ _).mpr ⟨_, Body.cur_mem, hpmem⟩
  have hrefs := hb.wf.refs p hsc
  have hother : slotCount (pre ++ post) p = 0 := by
    rw [slotCount_split] at hrefs
    simp only at hrefs
    have : 0 < List.count p pt := List.count_pos_iff.mpr hpmem
    rw [hrc] at hrefs
    omega
  refine ⟨?_, hb.table, hb.pageSize, hb.flag, ?_⟩
  · apply wf_heap_congr hb.wf
    intro x
    by_cases hx : x = p
    · subst hx
      simp [storeChunk]
    · simp [storeChunk, Function.update_noteq hx]
  · intro x hx
    rw [← hb.frame x hx]
    have hxp : x ≠ p := by
      intro e
      rw [e, hother] at hx
      exact Nat.lt_irrefl _ hx
    simp [storeChunk, Function.update_noteq hxp]

theorem body_writeLoop {pre post : List TLS} {cur : TLS} {s0 : State} (buffer : Nat → Nat)
    (fuel : Nat) : ∀ (s : State) (pt : List Nat) (pn rem ob : Int) (r : State × List Nat),
    Body pre post cur s0 s pt →
    writeLoop buffer fuel s pt pn rem ob = Except.ok r →
    Body pre post cur s0 r.1 r.2 := by
  induction fuel with
  | zero =>
    intro s pt pn rem ob r hb hr
    unfold writeLoop at hr
    split at hr
    · cases hr
    · simp only [Except.ok.injEq] at hr
      rw [← hr]
      exact hb
  | succ fuel ih =>
    intro s pt pn rem ob r hb hr
    unfold writeLoop at hr
    by_cases h0 : rem > 0
    · rw [if_pos h0] at hr
      cases hc : copyOnWrite s pt (pn + 1) with
      | error e => rw [hc] at hr; cases hr
      | ok r1 =>
        rw [hc] at hr
        simp only at hr
        obtain ⟨hb1, p', hv', hrc'⟩ := body_copyOnWrite hb (pn + 1) r1 hc
        by_cases h1 : rem > 4096
        · rw [if_pos h1] at hr
          cases hw : writeChunk r1.1 r1.2 (pn + 1) 0 buffer ob 4096 with
          | error e => rw [hw] at hr; cases hr
          | ok s1 =>
            rw [hw] at hr
            simp only at hr
            exact ih _ _ _ _ _ _ (body_writeChunk hb1 _ p' hv' hrc' _ _ _ _ _ hw) hr
        · rw [if_neg h1] at hr
          cases hw : writeChunk r1.1 r1.2 (pn + 1) 0 buffer ob (toSizeT rem) with
          | error e => rw [hw] at hr; cases hr
          | ok s1 =>
            rw [hw] at hr
            simp only at hr
            exact ih _ _ _ _ _ _ (body_writeChunk hb1 _ p' hv' hrc' _ _ _ _ _ hw) hr
    · rw [if_neg h0] at hr
      simp only [Except.ok.injEq] at hr
      rw [← hr]
      exact hb

theorem body_init {pre post : List TLS} {cur : TLS} {s : State}
    (hsplit : s.table = pre ++ cur :: post) (h : Inv s) :
    Body pre post cur s s cur.pageTable := by
  refine ⟨?_, rfl, rfl, rfl, fun _ _ => rfl⟩
  have : WF s.heap s.nextPage s.table := h
  rw [hsplit] at this
  exact this

theorem body_writeFrom {pre post : List TLS} {cur : TLS} {s s' : State}
    (hsplit : s.table = pre ++ cur :: post) (h : Inv s) (length : Nat)
    (buffer : Nat → Nat) (pageNum pageOffset remainingMemory : Int)
    (hr : writeFrom s pre.length cur length buffer pageNum pageOffset remainingMemory
      = Except.ok s') :
    ∃ sN pt', Body pre post cur s sN pt' ∧
      s' = { sN with table := pre ++ { cur with pageTable := pt' } :: post } := by
  have hb := body_init hsplit h
  unfold writeFrom at hr
  cases hc : copyOnWrite s cur.pageTable pageNum with
  | error e => rw [hc] at hr; cases hr
  | ok r1 =>
    rw [hc] at hr
    simp only at hr
    obtain ⟨hb1, p', hv', hrc'⟩ := body_copyOnWrite hb pageNum r1 hc
    by_cases h1 : length ≤ toUInt32 remainingMemory
    · rw [if_pos h1] at hr
      cases hw : writeChunk r1.1 r1.2 pageNum pageOffset buffer 0 length with
      | error e => rw [hw] at hr; cases hr
      | ok s1 =>
        rw [hw] at hr
        simp only [Except.ok.injEq] at hr
        have hb2 := body_writeChunk hb1 _ p' hv' hrc' _ _ _ _ _ hw
        refine ⟨s1, r1.2, hb2, ?_⟩
        rw [← hr, hb2.table, hsplit, set_split]
    · rw [if_neg h1] at hr
      cases hw : writeChunk r1.1 r1.2 pageNum pageOffset buffer 0 (toSizeT remainingMemory) with
      | error e => rw [hw] at hr; cases hr
      | ok s1 =>
        rw [hw] at hr
        simp only at hr
        have hb2 := body_writeChunk hb1 _ p' hv' hrc' _ _ _ _ _ hw
        cases hl : writeLoop buffer (toInt32 (↑length - remainingMemory)).toNat s1 r1.2 pageNum
            (toInt32 (↑length - remainingMemory)) remainingMemory with
        | error e => rw [hl] at hr; cases hr
        | ok r2 =>
          rw [hl] at hr
          simp only [Except.ok.injEq] at hr
          have hb3 := body_writeLoop buffer _ _ _ _ _ _ _ hb2 hl
          refine ⟨r2.1, r2.2, hb3, ?_⟩
          rw [← hr, hb3.table, hsplit, set_split]

theorem body_writeBody {pre post : List TLS} {cur : TLS} {s s' : State}
    (hsplit : s.table = pre ++ cur :: post) (h : Inv s) (offset length : Nat)
    (buffer : Nat → Nat)
    (hr : writeBody s pre.length cur offset length buffer = Except.ok s') :
    ∃ sN pt', Body pre post cur s sN pt' ∧
      s' = { sN with table := pre ++ { cur with pageTable := pt' } :: post } :=
  body_writeFrom hsplit h length buffer _ _ _ hr

/-- Shape of the result of a call of `tls_write_locked` that returns: either the error code
with the state untouched, or `0` with a state produced by the steps of the body. -/
theorem tls_write_spec {s s' : State} {currentTID offset length : Nat} {buffer : Nat → Nat}
    {r : Int} (h : Inv s)
    (hr : tls_write_locked s currentTID offset length buffer = Except.ok (r, s')) :
    (r = ERROR_CODE ∧ s' = s) ∨
    (r = 0 ∧ ∃ pre cur post sN pt', s.table = pre ++ cur :: post ∧ cur.tid = currentTID ∧
      Body pre post cur s sN pt' ∧
      s' = { sN with table := pre ++ { cur with pageTable := pt' } :: post }) := by
  unfold tls_write_locked at hr
  by_cases hc : tableContains s.table currentTID = false
  · rw [if_pos hc] at hr
    simp only [Except.ok.injEq, Prod.mk.injEq] at hr
    exact Or.inl ⟨hr.1.symm, hr.2.symm⟩
  · rw [if_neg hc] at hr
    have hc' : tableContains s.table currentTID = true := by simpa using hc
    obtain ⟨pre, cur, post, hsplit, htid, _, hfind⟩ := lookup_of_contains s.table currentTID hc'
    have hget : s.table[pre.length]? = some cur := by rw [hsplit]; exact getElem?_split pre post cur
    rw [hfind] at hr
    simp only [hget] at hr
    by_cases hrange : (offset + length) % 4294967296 > toUInt32 cur.size
    · rw [if_pos hrange] at hr
      simp only [Except.ok.injEq, Prod.mk.injEq] at hr
      exact Or.inl ⟨hr.1.symm, hr.2.symm⟩
    · rw [if_neg hrange] at hr
      cases hw : writeBody s pre.length cur offset length buffer with
      | error e => rw [hw] at hr; cases hr
      | ok s1 =>
        rw [hw] at hr
        simp only [Except.ok.injEq, Prod.mk.injEq] at hr
        obtain ⟨sN, pt', hb, hs1⟩ := body_writeBody hsplit h offset length buffer hw
        right
        refine ⟨hr.1.symm, pre, cur, post, sN, pt', hsplit, htid, hb, ?_⟩
        rw [← hr.2, hs1]

theorem tls_write_inv (s s' : State) (currentTID offset length : Nat) (buffer : Nat → Nat)
    (r : Int) (h : Inv s)
    (hr : tls_write_locked s currentTID offset length buffer = Except.ok (r, s')) : Inv s' := by
  rcases tls_write_spec h hr with ⟨_, h2⟩ | ⟨_, pre, cur, post, sN, pt', _, _, hb, hs'⟩
  · rw [h2]
    exact h
  · rw [hs']
    exact hb.wf

/-! ## tls_read leaves the state as it is -/

theorem tls_read_eq (s : State) (currentTID offset length : Nat) (buffer : Nat → Nat)
    (h : Inv s) :
    tls_read_locked s currentTID offset length buffer =
      if tableContains s.table currentTID = false then Except.ok (ERROR_CODE, s, buffer)
      else
        match findTlsWithThreadID s.table currentTID with
        | none => Except.error Fault.segv
        | some currentTLS =>
          if (offset + length) % 4294967296 > toUInt32 currentTLS.size then
            Except.ok (ERROR_CODE, s, buffer)
          else
            match readBodyP s.pageSize (contents s currentTLS.pageTable) offset length
                buffer with
            | Except.error e => Except.error e
            | Except.ok b => Except.ok (0, s, b) := by
  unfold tls_read_locked
  by_cases hc : tableContains s.table currentTID = false
  · rw [if_pos hc, if_pos hc]
  · rw [if_neg hc, if_neg hc]
    have hc' : tableContains s.table currentTID = true := by simpa using hc
    obtain ⟨pre, cur, post, hsplit, htid, _, hfind⟩ := lookup_of_contains s.table currentTID hc'
    have hf := findTls_of_lookup s.table pre post cur currentTID hsplit hfind
    have hmem : cur ∈ s.table := by rw [hsplit]; simp
    rw [hf]
    simp only
    split
    · rfl
    · rw [readBody_eq s cur (h.rest cur hmem)]
      cases readBodyP s.pageSize (contents s cur.pageTable) offset length buffer with
      | error e => rfl
      | ok b => rfl

theorem tls_read_state {s s' : State} {currentTID offset length : Nat}
    {buffer out : Nat → Nat} {r : Int} (h : Inv s)
    (hr : tls_read_locked s currentTID offset length buffer = Except.ok (r, s', out)) : s' = s := by
  rw [tls_read_eq s currentTID offset length buffer h] at hr
  split at hr
  · simp only [Except.ok.injEq, Prod.mk.injEq] at hr
    exact hr.2.1.symm
  · split at hr
    · cases hr
    · split at hr
      · simp only [Except.ok.injEq, Prod.mk.injEq] at hr
        exact hr.2.1.symm
      · split at hr
        · cases hr
        · simp only [Except.ok.injEq, Prod.mk.injEq] at hr
          exact hr.2.1.symm

/-! ## Every call but `tls_create` waits for the semaphore first -/

theorem tls_write_of_initialized (s : State) (h : s.notInitialized = false)
    (currentTID offset length : Nat) (buffer : Nat → Nat) :
    tls_write s currentTID offset length buffer =
      tls_write_locked s currentTID offset length buffer := by
  simp [tls_write, sem_wait, h]

theorem tls_read_of_initialized (s : State) (h : s.notInitialized = false)
    (currentTID offset length : Nat) (buffer : Nat → Nat) :
    tls_read s currentTID offset length buffer =
      tls_read_locked s currentTID offset length buffer := by
  simp [tls_read, sem_wait, h]

theorem tls_destroy_of_initialized (s : State) (h : s.notInitialized = false)
    (currentTID : Nat) : tls_destroy s currentTID = tls_destroy_locked s currentTID := by
  simp [tls_destroy, sem_wait, h]

theorem tls_clone_of_initialized (s : State) (h : s.notInitialized = false)
    (currentTID tid : Nat) : tls_clone s currentTID tid = tls_clone_locked s currentTID tid := by
  simp [tls_clone, sem_wait, h]

theorem tls_write_blocked (s : State) (h : s.notInitialized = true)
    (currentTID offset length : Nat) (buffer : Nat → Nat) :
    tls_write s currentTID offset length buffer = Except.error Fault.blocked := by
  simp [tls_write, sem_wait, h]

theorem tls_read_blocked (s : State) (h : s.notInitialized = true)
    (currentTID offset length : Nat) (buffer : Nat → Nat) :
    tls_read s currentTID offset length buffer = Except.error Fault.blocked := by
  simp [tls_read, sem_wait, h]

theorem tls_destroy_blocked (s : State) (h : s.notInitialized = true) (currentTID : Nat) :
    tls_destroy s currentTID = Except.error Fault.blocked := by
  simp [tls_destroy, sem_wait, h]

theorem tls_clone_blocked (s : State) (h : s.notInitialized = true) (currentTID tid : Nat) :
    tls_clone s currentTID tid = Except.error Fault.blocked := by
  simp [tls_clone, sem_wait, h]

/-- A call of `tls_write` that returns found the semaphore initialised. -/
theorem tls_write_returns {s : State} {currentTID offset length : Nat} {buffer : Nat → Nat}
    {x : Int × State} (h : tls_write s currentTID offset length buffer = Except.ok x) :
    s.notInitialized = false ∧
      tls_write_locked s currentTID offset length buffer = Except.ok x := by
  cases hn : s.notInitialized with
  | true => rw [tls_write_blocked s hn] at h; cases h
  | false => rw [tls_write_of_initialized s hn] at h; exact ⟨rfl, h⟩

theorem tls_read_returns {s : State} {currentTID offset length : Nat} {buffer : Nat → Nat}
    {x : Int × State × (Nat → Nat)}
    (h : tls_read s currentTID offset length buffer = Except.ok x) :
    s.notInitialized = false ∧
      tls_read_locked s currentTID offset length buffer = Except.ok x := by
  cases hn : s.notInitialized with
  | true => rw [tls_read_blocked s hn] at h; cases h
  | false => rw [tls_read_of_initialized s hn] at h; exact ⟨rfl, h⟩

theorem tls_destroy_returns {s : State} {currentTID : Nat} {x : Int × State}
    (h : tls_destroy s currentTID = Except.ok x) :
    s.notInitialized = false ∧ tls_destroy_locked s currentTID = Except.ok x := by
  cases hn : s.notInitialized with
  | true => rw [tls_destroy_blocked s hn] at h; cases h
  | false => rw [tls_destroy_of_initialized s hn] at h; exact ⟨rfl, h⟩

theorem tls_clone_returns {s : State} {currentTID tid : Nat} {x : Int × State}
    (h : tls_clone s currentTID tid = Except.ok x) :
    s.notInitialized = false ∧ tls_clone_locked s currentTID tid = Except.ok x := by
  cases hn : s.notInitialized with
  | true => rw [tls_clone_blocked s hn] at h; cases h
  | false => rw [tls_clone_of_initialized s hn] at h; exact ⟨rfl, h⟩

/-! ## The invariant holds in every reachable state -/

theorem inv_initial (pageSize : Int) : Inv (initialState pageSize) := by
  constructor
  · intro t ht; cases ht
  · intro p hp
    simp [initialState, slotCount] at hp
  · intro t ht; cases ht
  · intro t ht; cases ht
  · simp [initialState]
  · intro t ht; cases ht

theorem exec_inv {s s' : State} {c : Call} {r : Int} (h : Inv s)
    (hr : exec s c = Except.ok (r, s')) : Inv s' := by
  cases c with
  | create currentTID size =>
    simp only [exec, Except.ok.injEq] at hr
    have := tls_create_inv s currentTID size h
    rw [hr] at this
    exact this
  | write currentTID offset length buffer =>
    exact tls_write_inv s s' currentTID offset length buffer r h (tls_write_returns hr).2
  | read currentTID offset length buffer =>
    simp only [exec] at hr
    cases hrd : tls_read s currentTID offset length buffer with
    | error e => rw [hrd] at hr; cases hr
    | ok x =>
      obtain ⟨r0, s0, out⟩ := x
      rw [hrd] at hr
      simp only [Except.ok.injEq, Prod.mk.injEq] at hr
      rw [← hr.2, tls_read_state h (tls_read_returns hrd).2]
      exact h
  | destroy currentTID =>
    exact tls_destroy_inv s s' currentTID r h (tls_destroy_returns hr).2
  | clone currentTID tid =>
    exact tls_clone_inv s s' currentTID tid r h (tls_clone_returns hr).2

theorem reachable_inv {pageSize : Int} {s : State} (h : Reachable pageSize s) : Inv s := by
  induction h with
  | init => exact inv_initial pageSize
  | step _ hr ih => exact exec_inv ih hr

/-! ## Lookup under unique thread ids -/

theorem findTls_mem {table : List TLS} {tid : Nat} {t : TLS}
    (h : findTlsWithThreadID table tid = some t) : t ∈ table ∧ t.tid = tid := by
  by_cases hc : tableContains table tid = true
  · obtain ⟨pre, t', post, hsplit, htid, _, hfind⟩ := lookup_of_contains table tid hc
    rw [findTls_of_lookup table pre post t' tid hsplit hfind] at h
    simp only [Option.some.injEq] at h
    subst h
    exact ⟨by rw [hsplit]; simp, htid⟩
  · have hc' : tableContains table tid = false := by simpa using hc
    exfalso
    unfold findTlsWithThreadID at h
    cases hf : findIndex table tid with
    | none => rw [hf] at h; cases h
    | some j =>
      rcases findIndexFrom_some tid table 0 none j hf with ⟨h1, _⟩ | ⟨pre, t', post, h1, _, h3, _⟩
      · cases h1
      · have := (tableContains_false_iff table tid).mp hc' t' (by rw [h1]; simp)
        exact this h3

theorem findTls_eq_some_iff {table : List TLS} (hnd : (table.map TLS.tid).Nodup)
    (tid : Nat) (t : TLS) :
    findTlsWithThreadID table tid = some t ↔ t ∈ table ∧ t.tid = tid := by
  constructor
  · exact findTls_mem
  · rintro ⟨hmem, htid⟩
    have hc : tableContains table tid = true := (tableContains_iff table tid).mpr ⟨t, hmem, htid⟩
    obtain ⟨pre, t', post, hsplit, htid', _, hfind⟩ := lookup_of_contains table tid hc
    rw [findTls_of_lookup table pre post t' tid hsplit hfind]
    have hmem' : t' ∈ table := by rw [hsplit]; simp
    have : t' = t := List.inj_on_of_nodup_map hnd hmem' hmem (htid'.trans htid.symm)
    rw [this]

theorem findTls_eq_none_iff (table : List TLS) (tid : Nat) :
    findTlsWithThreadID table tid = none ↔ tableContains table tid = false := by
  constructor
  · intro h
    by_contra hc
    have hc' : tableContains table tid = true := by simpa using hc
    obtain ⟨pre, t', post, hsplit, _, _, hfind⟩ := lookup_of_contains table tid hc'
    rw [findTls_of_lookup table pre post t' tid hsplit hfind] at h
    cases h
  · intro h
    cases hf : findTlsWithThreadID table tid with
    | none => rfl
    | some t =>
      obtain ⟨hmem, htid⟩ := findTls_mem hf
      exact absurd htid ((tableContains_false_iff table tid).mp h t hmem)

/-! ## tls_write: other LSAs are not affected -/

theorem tls_write_ok {s s' : State} {currentTID offset length : Nat} {buffer : Nat → Nat}
    (hr : tls_write_locked s currentTID offset length buffer = Except.ok (0, s')) :
    ∃ pre cur post, s.table = pre ++ cur :: post ∧ cur.tid = currentTID ∧
      findTlsWithThreadID s.table currentTID = some cur ∧
      ¬ ((offset + length) % 4294967296 > toUInt32 cur.size) ∧
      writeBody s pre.length cur offset length buffer = Except.ok s' := by
  have hne : ¬ (ERROR_CODE = (0 : Int)) := by decide
  unfold tls_write_locked at hr
  by_cases hc : tableContains s.table currentTID = false
  · rw [if_pos hc] at hr
    simp only [Except.ok.injEq, Prod.mk.injEq] at hr
    exact absurd hr.1 hne
  · rw [if_neg hc] at hr
    have hc' : tableContains s.table currentTID = true := by simpa using hc
    obtain ⟨pre, cur, post, hsplit, htid, _, hfind⟩ := lookup_of_contains s.table currentTID hc'
    have hget : s.table[pre.length]? = some cur := by rw [hsplit]; exact getElem?_split pre post cur
    rw [hfind] at hr
    simp only [hget] at hr
    refine ⟨pre, cur, post, hsplit, htid,
      findTls_of_lookup s.table pre post cur currentTID hsplit hfind, ?_⟩
    by_cases hrange : (offset + length) % 4294967296 > toUInt32 cur.size
    · rw [if_pos hrange] at hr
      simp only [Except.ok.injEq, Prod.mk.injEq] at hr
      exact absurd hr.1 hne
    · rw [if_neg hrange] at hr
      refine ⟨hrange, ?_⟩
      cases hw : writeBody s pre.length cur offset length buffer with
      | error e => rw [hw] at hr; cases hr
      | ok s1 =>
        rw [hw] at hr
        simp only [Except.ok.injEq, Prod.mk.injEq] at hr
        rw [hr.2]

/-- A call of `tls_write_locked` that returns leaves every other thread's LSA registered
with the same `TLS` object, and the bytes of all its pages as they were. -/
theorem tls_write_isolation {s s' : State} {writer offset length : Nat} {buffer : Nat → Nat}
    {r : Int} (h : Inv s)
    (hr : tls_write_locked s writer offset length buffer = Except.ok (r, s')) :
    s'.pageSize = s.pageSize ∧
    ∀ other, other ≠ writer →
      findTlsWithThreadID s'.table other = findTlsWithThreadID s.table other ∧
      ∀ t, findTlsWithThreadID s.table other = some t →
        contents s' t.pageTable = contents s t.pageTable := by
  have hinv' := tls_write_inv s s' writer offset length buffer r h hr
  rcases tls_write_spec h hr with ⟨_, h2⟩ | ⟨_, pre, cur, post, sN, pt', hsplit, htid, hb, hs'⟩
  · subst h2
    exact ⟨rfl, fun _ _ => ⟨rfl, fun _ _ => rfl⟩⟩
  · have htable : s'.table = pre ++ { cur with pageTable := pt' } :: post := by rw [hs']
    have hheap : s'.heap = sN.heap := by rw [hs']
    refine ⟨by rw [hs']; exact hb.pageSize, ?_⟩
    intro other hne
    have hmem_iff : ∀ t : TLS, t.tid = other → (t ∈ s'.table ↔ t ∈ s.table) := by
      intro t ht
      rw [htable, hsplit, mem_split_iff, mem_split_iff]
      constructor
      · rintro (e | e)
        · exfalso
          rw [e] at ht
          exact hne (ht.symm.trans htid)
        · exact Or.inr e
      · rintro (e | e)
        · exfalso
          rw [e] at ht
          exact hne (ht.symm.trans htid)
        · exact Or.inr e
    have hfind : findTlsWithThreadID s'.table other = findTlsWithThreadID s.table other := by
      cases hf : findTlsWithThreadID s.table other with
      | none =>
        rw [findTls_eq_none_iff, tableContains_false_iff] at hf ⊢
        intro u hu hut
        exact hf u ((hmem_iff u hut).mp hu) hut
      | some t =>
        obtain ⟨hm, ht⟩ := findTls_mem hf
        exact (findTls_eq_some_iff hinv'.tids other t).mpr ⟨(hmem_iff t ht).mpr hm, ht⟩
    refine ⟨hfind, ?_⟩
    intro t hf
    obtain ⟨hm, ht⟩ := findTls_mem hf
    have hm' : t ∈ pre ++ post := by
      rw [hsplit, mem_split_iff] at hm
      rcases hm with e | e
      · exfalso
        rw [e] at ht
        exact hne (ht.symm.trans htid)
      · exact e
    unfold contents
    apply List.map_congr_left
    intro p hp
    rw [hheap]
    exact hb.frame p ((slotCount_pos_iff _ _).mpr ⟨t, hm', hp⟩)

/-! ## A write that returns 0 is followed by a read of the same range that returns -/

theorem Body.length_eq {pre post : List TLS} {cur : TLS} {s0 s : State} {pt : List Nat}
    (hb : Body pre post cur s0 s pt) : pt.length = cur.numPages.toNat := by
  have := hb.wf.pages _ Body.cur_mem
  simpa using this.symm

theorem readChunkP_of_writeChunk {pre post : List TLS} {cur : TLS} {s0 s s1 : State}
    {pt : List Nat} (hb : Body pre post cur s0 s pt) {pn off srcOff : Int} {n : Nat}
    {buffer : Nat → Nat} (hw : writeChunk s pt pn off buffer srcOff n = Except.ok s1)
    (pages : List (Nat → Nat)) (hlen : pages.length = cur.numPages.toNat)
    (out : Nat → Nat) (dstOff : Int) :
    ∃ out', readChunkP s0.pageSize pages pn off out dstOff n = Except.ok out' := by
  cases hv : vecAt pt pn with
  | error e =>
    unfold writeChunk at hw
    rw [hv] at hw
    cases hw
  | ok p =>
    have hpmem : p ∈ pt := mem_of_vecAt hv
    have hrest := hb.wf.rest _ Body.cur_mem p hpmem
    obtain ⟨_, hbound⟩ := writeChunk_spec s pt pn p hv hrest.1 hrest.2 off buffer srcOff n s1 hw
    obtain ⟨hpn, hk⟩ := vecAt_ok hv
    have hklt : pn.toNat < pages.length := by
      rw [hlen, ← hb.length_eq]
      exact (List.getElem?_eq_some.mp hk).1
    unfold readChunkP
    rw [if_neg (by omega), List.getElem?_eq_getElem hklt]
    simp only
    rw [hb.pageSize] at hbound
    by_cases hn : n = 0
    · rw [if_pos hn]
      exact ⟨_, rfl⟩
    · rw [if_neg hn]
      rcases hbound with e | e
      · exact absurd e hn
      · rw [if_pos e]
        exact ⟨_, rfl⟩

theorem readLoopP_of_writeLoop {pre post : List TLS} {cur : TLS} {s0 : State}
    (buffer : Nat → Nat) (pages : List (Nat → Nat)) (hlen : pages.length = cur.numPages.toNat)
    (fuel : Nat) : ∀ (s : State) (pt : List Nat) (pn rem ob : Int) (r : State × List Nat)
      (out : Nat → Nat),
    Body pre post cur s0 s pt →
    writeLoop buffer fuel s pt pn rem ob = Except.ok r →
    ∃ out', readLoopP s0.pageSize pages fuel out pn rem ob = Except.ok out' := by
  induction fuel with
  | zero =>
    intro s pt pn rem ob r out hb hr
    unfold writeLoop at hr
    unfold readLoopP
    by_cases h0 : rem > 0
    · rw [if_pos h0] at hr
      cases hr
    · rw [if_neg h0]
      exact ⟨_, rfl⟩
  | succ fuel ih =>
    intro s pt pn rem ob r out hb hr
    unfold writeLoop at hr
    unfold readLoopP
    by_cases h0 : rem > 0
    · rw [if_pos h0] at hr
      rw [if_pos h0]
      cases hc : copyOnWrite s pt (pn + 1) with
      | error e => rw [hc] at hr; cases hr
      | ok r1 =>
        rw [hc] at hr
        simp only at hr
        obtain ⟨hb1, p', hv', hrc'⟩ := body_copyOnWrite hb (pn + 1) r1 hc
        by_cases h1 : rem > 4096
        · rw [if_pos h1] at hr
          rw [if_pos h1]
          cases hw : writeChunk r1.1 r1.2 (pn + 1) 0 buffer ob 4096 with
          | error e => rw [hw] at hr; cases hr
          | ok s1 =>
            rw [hw] at hr
            simp only at hr
            obtain ⟨b, hbuf⟩ := readChunkP_of_writeChunk hb1 hw pages hlen out ob
            rw [hbuf]
            exact ih _ _ _ _ _ _ b (body_writeChunk hb1 _ p' hv' hrc' _ _ _ _ _ hw) hr
        · rw [if_neg h1] at hr
          rw [if_neg h1]
          cases hw : writeChunk r1.1 r1.2 (pn + 1) 0 buffer ob (toSizeT rem) with
          | error e => rw [hw] at hr; cases hr
          | ok s1 =>
            rw [hw] at hr
            simp only at hr
            obtain ⟨b, hbuf⟩ := readChunkP_of_writeChunk hb1 hw pages hlen out ob
            rw [hbuf]
            exact ih _ _ _ _ _ _ b (body_writeChunk hb1 _ p' hv' hrc' _ _ _ _ _ hw) hr
    · rw [if_neg h0]
      exact ⟨_, rfl⟩

theorem readFromP_of_writeFrom {pre post : List TLS} {cur : TLS} {s s' : State}
    (hsplit : s.table = pre ++ cur :: post) (h : Inv s) (length : Nat)
    (buffer : Nat → Nat) (pageNum pageOffset remainingMemory : Int)
    (hr : writeFrom s pre.length cur length buffer pageNum pageOffset remainingMemory
      = Except.ok s')
    (pages : List (Nat → Nat)) (hlen : pages.length = cur.numPages.toNat) (out : Nat → Nat) :
    ∃ out', readFromP s.pageSize pages length out pageNum pageOffset remainingMemory
      = Except.ok out' := by
  have hb := body_init hsplit h
  unfold writeFrom at hr
  unfold readFromP
  cases hc : copyOnWrite s cur.pageTable pageNum with
  | error e => rw [hc] at hr; cases hr
  | ok r1 =>
    rw [hc] at hr
    simp only at hr
    obtain ⟨hb1, p', hv', hrc'⟩ := body_copyOnWrite hb pageNum r1 hc
    by_cases h1 : length ≤ toUInt32 remainingMemory
    · rw [if_pos h1] at hr
      rw [if_pos h1]
      cases hw : writeChunk r1.1 r1.2 pageNum pageOffset buffer 0 length with
      | error e => rw [hw] at hr; cases hr
      | ok s1 => exact readChunkP_of_writeChunk hb1 hw pages hlen out 0
    · rw [if_neg h1] at hr
      rw [if_neg h1]
      cases hw : writeChunk r1.1 r1.2 pageNum pageOffset buffer 0 (toSizeT remainingMemory) with
      | error e => rw [hw] at hr; cases hr
      | ok s1 =>
        rw [hw] at hr
        simp only at hr
        have hb2 := body_writeChunk hb1 _ p' hv' hrc' _ _ _ _ _ hw
        obtain ⟨b, hbuf⟩ := readChunkP_of_writeChunk hb1 hw pages hlen out 0
        rw [hbuf]
        cases hl : writeLoop buffer (toInt32 (↑length - remainingMemory)).toNat s1 r1.2 pageNum
            (toInt32 (↑length - remainingMemory)) remainingMemory with
        | error e => rw [hl] at hr; cases hr
        | ok r2 => exact readLoopP_of_writeLoop buffer pages hlen _ _ _ _ _ _ _ b hb2 hl

theorem readBodyP_of_writeBody {pre post : List TLS} {cur : TLS} {s s' : State}
    (hsplit : s.table = pre ++ cur :: post) (h : Inv s) (offset length : Nat)
    (buffer : Nat → Nat)
    (hr : writeBody s pre.length cur offset length buffer = Except.ok s')
    (pages : List (Nat → Nat)) (hlen : pages.length = cur.numPages.toNat) (out : Nat → Nat) :
    ∃ out', readBodyP s.pageSize pages offset length out = Except.ok out' :=
  readFromP_of_writeFrom hsplit h length buffer _ _ _ hr pages hlen out

theorem tls_clone_ok_pre {s s1 : State} {currentTID tid : Nat}
    (h : tls_clone_locked s currentTID tid = Except.ok (0, s1)) :
    tableContains s.table tid = true ∧ tableContains s.table currentTID = false := by
  have hne : ¬ (ERROR_CODE = (0 : Int)) := by decide
  unfold tls_clone_locked at h
  by_cases h1 : tableContains s.table tid = false
  · rw [if_pos h1] at h
    simp only [Except.ok.injEq, Prod.mk.injEq] at h
    exact absurd h.1 hne
  · rw [if_neg h1] at h
    by_cases h2 : tableContains s.table currentTID = true
    · rw [if_pos h2] at h
      simp only [Except.ok.injEq, Prod.mk.injEq] at h
      exact absurd h.1 hne
    · exact ⟨by simpa using h1, by simpa using h2⟩

theorem tls_read_of_find {s : State} (h : Inv s) {currentTID offset length : Nat}
    {buffer out : Nat → Nat} {t : TLS}
    (hf : findTlsWithThreadID s.table currentTID = some t)
    (hrange : ¬ ((offset + length) % 4294967296 > toUInt32 t.size))
    (hout : readBodyP s.pageSize (contents s t.pageTable) offset length buffer = Except.ok out) :
    tls_read_locked s currentTID offset length buffer = Except.ok (0, s, out) := by
  rw [tls_read_eq s currentTID offset length buffer h]
  have hc : ¬ (tableContains s.table currentTID = false) := by
    intro hc
    rw [(findTls_eq_none_iff _ _).mpr hc] at hf
    cases hf
  rw [if_neg hc, hf]
  simp only
  rw [if_neg hrange, hout]

theorem contents_length (s : State) (pt : List Nat) : (contents s pt).length = pt.length := by
  simp [contents]

/-! ## The iteration bounds of the two loops are never exhausted -/

theorem vecAt_ne_fuel (v : List Nat) (i : Int) : vecAt v i ≠ Except.error Fault.fuel := by
  unfold vecAt
  split
  · simp
  · split <;> simp

theorem memcpyPageToPage_ne_fuel (s : State) (dst src n : Nat) :
    memcpyPageToPage s dst src n ≠ Except.error Fault.fuel := by
  unfold memcpyPageToPage
  split
  · simp
  · split <;> simp

theorem memcpyToPage_ne_fuel (s : State) (p : Nat) (off : Int) (buffer : Nat → Nat)
    (srcOff : Int) (n : Nat) :
    memcpyToPage s p off buffer srcOff n ≠ Except.error Fault.fuel := by
  unfold memcpyToPage
  split
  · simp
  · split <;> simp

theorem memcpyFromPage_ne_fuel (s : State) (buffer : Nat → Nat) (dstOff : Int) (p : Nat)
    (off : Int) (n : Nat) :
    memcpyFromPage s buffer dstOff p off n ≠ Except.error Fault.fuel := by
  unfold memcpyFromPage
  split
  · simp
  · split <;> simp

theorem copyOnWrite_ne_fuel (s : State) (pt : List Nat) (pn : Int) :
    copyOnWrite s pt pn ≠ Except.error Fault.fuel := by
  unfold copyOnWrite
  cases hv : vecAt pt pn with
  | error e =>
    intro h
    simp only [Except.error.injEq] at h
    exact vecAt_ne_fuel pt pn (hv.trans (congrArg Except.error h))
  | ok p =>
    simp only
    split
    · cases hm : memcpyPageToPage
          (mprotect (newPage _ Prot.PROT_READ_WRITE).1 p Prot.PROT_READ_WRITE)
          (newPage _ Prot.PROT_READ_WRITE).2 p (toSizeT s.pageSize) with
      | error e =>
        intro h
        simp only [Except.error.injEq] at h
        exact memcpyPageToPage_ne_fuel _ _ _ _ (hm.trans (congrArg Except.error h))
      | ok s4 => simp
    · simp

theorem writeChunk_ne_fuel (s : State) (pt : List Nat) (pn off : Int) (buffer : Nat → Nat)
    (srcOff : Int) (n : Nat) :
    writeChunk s pt pn off buffer srcOff n ≠ Except.error Fault.fuel := by
  unfold writeChunk
  cases hv : vecAt pt pn with
  | error e =>
    intro h
    simp only [Except.error.injEq] at h
    exact vecAt_ne_fuel pt pn (hv.trans (congrArg Except.error h))
  | ok p =>
    simp only
    cases hm : memcpyToPage (mprotect s p Prot.PROT_READ_WRITE) p off buffer srcOff n with
    | error e =>
      intro h
      simp only [Except.error.injEq] at h
      exact memcpyToPage_ne_fuel _ _ _ _ _ _ (hm.trans (congrArg Except.error h))
    | ok s1 => simp

theorem readChunk_ne_fuel (s : State) (pt : List Nat) (pn off : Int) (buffer : Nat → Nat)
    (dstOff : Int) (n : Nat) :
    readChunk s pt pn off buffer dstOff n ≠ Except.error Fault.fuel := by
  unfold readChunk
  cases hv : vecAt pt pn with
  | error e =>
    intro h
    simp only [Except.error.injEq] at h
    exact vecAt_ne_fuel pt pn (hv.trans (congrArg Except.error h))
  | ok p =>
    simp only
    cases hm : memcpyFromPage (mprotect s p Prot.PROT_READ_WRITE) buffer dstOff p off n with
    | error e =>
      intro h
      simp only [Except.error.injEq] at h
      exact memcpyFromPage_ne_fuel _ _ _ _ _ _ (hm.trans (congrArg Except.error h))
    | ok b => simp

/-- With at least `remainingLength` iterations allowed, the loop of `tls_write` ends
by its own condition. -/
theorem writeLoop_ne_fuel (buffer : Nat → Nat) (fuel : Nat) :
    ∀ (s : State) (pt : List Nat) (pn rem ob : Int), rem ≤ (fuel : Int) →
      writeLoop buffer fuel s pt pn rem ob ≠ Except.error Fault.fuel := by
  induction fuel with
  | zero =>
    intro s pt pn rem ob hle
    unfold writeLoop
    have : ¬ rem > 0 := by simpa using hle
    rw [if_neg this]
    simp
  | succ fuel ih =>
    intro s pt pn rem ob hle
    unfold writeLoop
    by_cases h0 : rem > 0
    · rw [if_pos h0]
      cases hc : copyOnWrite s pt (pn + 1) with
      | error e =>
        intro h
        simp only [Except.error.injEq] at h
        exact copyOnWrite_ne_fuel _ _ _ (hc.trans (congrArg Except.error h))
      | ok r1 =>
        simp only
        by_cases h1 : rem > 4096
        · rw [if_pos h1]
          cases hw : writeChunk r1.1 r1.2 (pn + 1) 0 buffer ob 4096 with
          | error e =>
            intro h
            simp only [Except.error.injEq] at h
            exact writeChunk_ne_fuel _ _ _ _ _ _ _ (hw.trans (congrArg Except.error h))
          | ok s1 =>
            simp only
            apply ih
            push_cast at hle
            omega
        · rw [if_neg h1]
          cases hw : writeChunk r1.1 r1.2 (pn + 1) 0 buffer ob (toSizeT rem) with
          | error e =>
            intro h
            simp only [Except.error.injEq] at h
            exact writeChunk_ne_fuel _ _ _ _ _ _ _ (hw.trans (congrArg Except.error h))
          | ok s1 =>
            simp only
            apply ih
            omega
    · rw [if_neg h0]
      simp

/-- With at least `remainingLength` iterations allowed, the loop of `tls_read` ends by
its own condition. -/
theorem readLoop_ne_fuel (pt : List Nat) (fuel : Nat) :
    ∀ (s : State) (buffer : Nat → Nat) (pn rem ob : Int), rem ≤ (fuel : Int) →
      readLoop pt fuel s buffer pn rem ob ≠ Except.error Fault.fuel := by
  induction fuel with
  | zero =>
    intro s buffer pn rem ob hle
    unfold readLoop
    have : ¬ rem > 0 := by simpa using hle
    rw [if_neg this]
    simp
  | succ fuel ih =>
    intro s buffer pn rem ob hle
    unfold readLoop
    by_cases h0 : rem > 0
    · rw [if_pos h0]
      by_cases h1 : rem > 4096
      · rw [if_pos h1]
        cases hw : readChunk s pt (pn + 1) 0 buffer ob 4096 with
        | error e =>
          intro h
          simp only [Except.error.injEq] at h
          exact readChunk_ne_fuel _ _ _ _ _ _ _ (hw.trans (congrArg Except.error h))
        | ok r =>
          simp only
          apply ih
          push_cast at hle
          omega
      · rw [if_neg h1]
        cases hw : readChunk s pt (pn + 1) 0 buffer ob (toSizeT rem) with
        | error e =>
          intro h
          simp only [Except.error.injEq] at h
          exact readChunk_ne_fuel _ _ _ _ _ _ _ (hw.trans (congrArg Except.error h))
        | ok r =>
          simp only
          apply ih
          omega
    · rw [if_neg h0]
      simp

theorem writeFrom_ne_fuel (s : State) (index : Nat) (cur : TLS) (length : Nat)
    (buffer : Nat → Nat) (pageNum pageOffset remainingMemory : Int) :
    writeFrom s index cur length buffer pageNum pageOffset remainingMemory
      ≠ Except.error Fault.fuel := by
  unfold writeFrom
  cases hc : copyOnWrite s cur.pageTable pageNum with
  | error e =>
    intro h
    simp only [Except.error.injEq] at h
    exact copyOnWrite_ne_fuel _ _ _ (hc.trans (congrArg Except.error h))
  | ok r1 =>
    simp only
    split
    · cases hw : writeChunk r1.1 r1.2 pageNum pageOffset buffer 0 length with
      | error e =>
        intro h
        simp only [Except.error.injEq] at h
        exact writeChunk_ne_fuel _ _ _ _ _ _ _ (hw.trans (congrArg Except.error h))
      | ok s1 => simp
    · cases hw : writeChunk r1.1 r1.2 pageNum pageOffset buffer 0 (toSizeT remainingMemory) with
      | error e =>
        intro h
        simp only [Except.error.injEq] at h
        exact writeChunk_ne_fuel _ _ _ _ _ _ _ (hw.trans (congrArg Except.error h))
      | ok s1 =>
        simp only
        cases hl : writeLoop buffer (toInt32 (↑length - remainingMemory)).toNat s1 r1.2 pageNum
            (toInt32 (↑length - remainingMemory)) remainingMemory with
        | error e =>
          intro h
          simp only [Except.error.injEq] at h
          exact writeLoop_ne_fuel buffer _ _ _ _ _ _ (Int.self_le_toNat _)
            (hl.trans (congrArg Except.error h))
        | ok r2 => simp

theorem readFrom_ne_fuel (s : State) (cur : TLS) (length : Nat)
    (buffer : Nat → Nat) (pageNum pageOffset remainingMemory : Int) :
    readFrom s cur length buffer pageNum pageOffset remainingMemory
      ≠ Except.error Fault.fuel := by
  unfold readFrom
  split
  · exact readChunk_ne_fuel _ _ _ _ _ _ _
  · cases hw : readChunk s cur.pageTable pageNum pageOffset buffer 0
        (toSizeT remainingMemory) with
    | error e =>
      intro h
      simp only [Except.error.injEq] at h
      exact readChunk_ne_fuel _ _ _ _ _ _ _ (hw.trans (congrArg Except.error h))
    | ok r =>
      simp only
      exact readLoop_ne_fuel _ _ _ _ _ _ _ (Int.self_le_toNat _)

/-- A call of `tls_write_locked` returns or ends in a fault of the program itself: the bound
on the iterations of its loop is never the reason for not returning. -/
theorem tls_write_locked_ne_fuel (s : State) (currentTID offset length : Nat) (buffer : Nat → Nat) :
    tls_write_locked s currentTID offset length buffer ≠ Except.error Fault.fuel := by
  unfold tls_write_locked
  split
  · simp
  · split
    · simp
    · split
      · simp
      · split
        · simp
        · rename_i index _ _ currentTLS _ _
          cases hw : writeBody s index currentTLS offset length buffer with
          | error e =>
            intro h
            simp only [Except.error.injEq] at h
            exact writeFrom_ne_fuel _ _ _ _ _ _ _ _ (hw.trans (congrArg Except.error h))
          | ok s1 => simp

/-- A call of `tls_read_locked` returns or ends in a fault of the program itself. -/
theorem tls_read_locked_ne_fuel (s : State) (currentTID offset length : Nat) (buffer : Nat → Nat) :
    tls_read_locked s currentTID offset length buffer ≠ Except.error Fault.fuel := by
  unfold tls_read_locked
  split
  · simp
  · split
    · simp
    · split
      · simp
      · rename_i currentTLS _ _
        cases hw : readBody s currentTLS offset length buffer with
        | error e =>
          intro h
          simp only [Except.error.injEq] at h
          exact readFrom_ne_fuel _ _ _ _ _ _ _ (hw.trans (congrArg Except.error h))
        | ok r => simp

/-! ## The fault handler -/

theorem handlerInner_same (f : HandlerFrame) (s : State) (t : TLS) (a a' : Nat)
    (pages : List Nat) : ∀ (j : Nat) (flag : Bool),
    handlerInner f s t a pages j flag = handlerInner f s t a' pages j flag := by
  induction pages with
  | nil => intro j flag; rfl
  | cons p ps ih =>
    intro j flag
    simp only [handlerInner]
    rw [ih]
    rfl

theorem handlerOuter_same (f : HandlerFrame) (s : State) (a a' : Nat) (table : List TLS) :
    ∀ flag : Bool, handlerOuter f s a table flag = handlerOuter f s a' table flag := by
  induction table with
  | nil => intro flag; rfl
  | cons t ts ih =>
    intro flag
    simp only [handlerOuter]
    rw [ih, handlerInner_same f s t a a']

theorem handler_same_for_all_addresses (f : HandlerFrame) (s : State) (a a' : Nat) :
    SIGSEGV_handler f s a = SIGSEGV_handler f s a' := by
  unfold SIGSEGV_handler
  rw [handlerOuter_same f s a a']

/-! ## Integer conversions on values in range -/

theorem toInt32_of_range {x : Int} (h0 : -2147483648 ≤ x) (h1 : x < 2147483648) :
    toInt32 x = x := by
  unfold toInt32
  split <;> omega

theorem toUInt32_of_range {x : Int} (h0 : 0 ≤ x) (h1 : x < 4294967296) :
    toUInt32 x = x.toNat := by
  unfold toUInt32
  rw [Int.emod_eq_of_lt h0 h1]

theorem toSizeT_of_range {x : Int} (h0 : 0 ≤ x) (h1 : x < 18446744073709551616) :
    toSizeT x = x.toNat := by
  unfold toSizeT
  rw [Int.emod_eq_of_lt h0 h1]

theorem toSizeT_natCast {n : Nat} (h : n < 18446744073709551616) : toSizeT (n : Int) = n := by
  rw [toSizeT_of_range (by omega) (by omega)]
  simp

/-! ## The two building blocks of tls_write return on a consistent state -/

theorem memcpyPageToPage_error {s : State} {dst src n : Nat} {e : Fault}
    (h : memcpyPageToPage s dst src n = Except.error e) :
    n ≠ 0 ∧ ¬ (pageRangeOk s dst 0 n ∧ pageRangeOk s src 0 n) := by
  unfold memcpyPageToPage at h
  by_cases hn : n = 0
  · rw [if_pos hn] at h
    cases h
  · rw [if_neg hn] at h
    refine ⟨hn, ?_⟩
    intro hok
    rw [if_pos hok] at h
    cases h

theorem memcpyToPage_error {s : State} {p : Nat} {off srcOff : Int} {buffer : Nat → Nat}
    {n : Nat} {e : Fault} (h : memcpyToPage s p off buffer srcOff n = Except.error e) :
    n ≠ 0 ∧ ¬ pageRangeOk s p off n := by
  unfold memcpyToPage at h
  by_cases hn : n = 0
  · rw [if_pos hn] at h
    cases h
  · rw [if_neg hn] at h
    refine ⟨hn, ?_⟩
    intro hok
    rw [if_pos hok] at h
    cases h

theorem copyOnWrite_isOk (s : State) (pt : List Nat) (pn : Int) (p : Nat)
    (hv : vecAt pt pn = Except.ok p) (hlt : p < s.nextPage)
    (hm : (s.heap p).mapped = true)
    (hps0 : 0 ≤ s.pageSize) (hps1 : s.pageSize < 18446744073709551616) :
    ∃ r, copyOnWrite s pt pn = Except.ok r := by
  unfold copyOnWrite
  rw [hv]
  simp only
  by_cases hrc : (s.heap p).referenceCounter > 1
  · rw [if_pos hrc]
    have hne : p ≠ s.nextPage := by omega
    split
    · rename_i e hmc
      exfalso
      obtain ⟨hn, hnot⟩ := memcpyPageToPage_error hmc
      apply hnot
      have hsz : ((toSizeT s.pageSize : Nat) : Int) = s.pageSize := by
        rw [toSizeT_of_range hps0 hps1]
        omega
      unfold pageRangeOk
      simp only [mprotect_heap, (mprotect_frame _ _ _).2.2.1]
      simp [newPage, hne, Ne.symm hne, hm, hsz]
    · exact ⟨_, rfl⟩
  · rw [if_neg hrc]
    exact ⟨_, rfl⟩

theorem writeChunk_isOk (s : State) (pt : List Nat) (pn : Int) (p : Nat)
    (hv : vecAt pt pn = Except.ok p) (hm : (s.heap p).mapped = true)
    (off : Int) (buffer : Nat → Nat) (srcOff : Int) (n : Nat)
    (hbound : n = 0 ∨ (0 ≤ off ∧ off + n ≤ s.pageSize)) :
    ∃ s1, writeChunk s pt pn off buffer srcOff n = Except.ok s1 := by
  unfold writeChunk
  rw [hv]
  simp only
  split
  · rename_i e hmc
    exfalso
    obtain ⟨hn, hnot⟩ := memcpyToPage_error hmc
    apply hnot
    rcases hbound with e' | e'
    · exact absurd e' hn
    · unfold pageRangeOk
      simp only [mprotect_heap, (mprotect_frame _ _ _).2.2.1]
      simp [hm, e'.1, e'.2]
  · exact ⟨_, rfl⟩

/-! ## One transfer step of tls_write: copy-on-write, then the chunk -/

theorem getD_of_getElem? {pt : List Nat} {k p : Nat} (h : pt[k]? = some p) :
    pt.getD k 0 = p := by
  rw [List.getD_eq_getElem?_getD, h]
  rfl

theorem forkPage_bytes_other (s : State) (p x : Nat) (hx : x ≠ s.nextPage) :
    ((forkPage s p).heap x).bytes = (s.heap x).bytes := by
  unfold forkPage
  simp only
  rw [Function.update_noteq hx]
  by_cases hxp : x = p
  · subst hxp
    simp
  · rw [Function.update_noteq hxp]

/-- The effect of the copy-on-write step followed by the chunk on slot `i`: both
return, the page table keeps its length, and within the pages only the bytes
`[off, off + n)` of slot `i` change, to the bytes of the buffer. -/
theorem transfer_step {pre post : List TLS} {cur : TLS} {s0 s : State} {pt : List Nat}
    (hb : Body pre post cur s0 s pt)
    (hps0 : 0 ≤ s0.pageSize) (hps1 : s0.pageSize < 18446744073709551616)
    (i : Nat) (hi : i < pt.length) (off : Int) (n : Nat)
    (hbound : n = 0 ∨ (0 ≤ off ∧ off + n ≤ s0.pageSize))
    (buffer : Nat → Nat) (srcOff : Int) :
    ∃ r s1, copyOnWrite s pt (i : Int) = Except.ok r ∧
      writeChunk r.1 r.2 (i : Int) off buffer srcOff n = Except.ok s1 ∧
      Body pre post cur s0 s1 r.2 ∧ r.2.length = pt.length ∧
      ∀ k, k < pt.length → ∀ x : Nat, (x : Int) < s0.pageSize →
        slotByte s1 r.2 k x =
          if k = i then copyBytes (slotByte s pt k) off.toNat buffer srcOff.toNat n x
          else slotByte s pt k x := by
  have hv := vecAt_natCast_lt pt i hi
  have hget : pt[i]? = some (pt.get ⟨i, hi⟩) := List.getElem?_eq_getElem hi
  generalize pt.get ⟨i, hi⟩ = p at hv hget
  have hpmem : p ∈ pt := List.getElem?_mem hget
  have hlt : p < s.nextPage := hb.wf.valid _ Body.cur_mem p hpmem
  have hrest := hb.wf.rest _ Body.cur_mem p hpmem
  have hnd : pt.Nodup := hb.wf.nodup _ Body.cur_mem
  have hps := hb.pageSize
  obtain ⟨r, hc⟩ := copyOnWrite_isOk s pt i p hv hlt hrest.1 (by rw [hps]; exact hps0)
    (by rw [hps]; exact hps1)
  obtain ⟨hb1, p', hv', hrc'⟩ := body_copyOnWrite hb i r hc
  have hrest' := hb1.wf.rest _ Body.cur_mem p' (mem_of_vecAt hv')
  obtain ⟨s1, hw⟩ := writeChunk_isOk r.1 r.2 i p' hv' hrest'.1 off buffer srcOff n
    (by rw [hb1.pageSize]; exact hbound)
  have hb2 := body_writeChunk hb1 _ p' hv' hrc' _ _ _ _ _ hw
  obtain ⟨hs1, _⟩ := writeChunk_spec r.1 r.2 i p' hv' hrest'.1 hrest'.2 off buffer srcOff n s1 hw
  refine ⟨r, s1, hc, hw, hb2, by rw [hb1.length_eq, hb.length_eq], ?_⟩
  intro k hk x hx
  have hkget : pt[k]? = some (pt.get ⟨k, hk⟩) := List.getElem?_eq_getElem hk
  have hother : k ≠ i → pt.get ⟨k, hk⟩ ≠ p := by
    intro hne e
    have h1 : pt[k]? = pt[i]? := by rw [hkget, hget, e]
    rw [List.getElem?_eq_getElem hk, List.getElem?_eq_getElem hi] at h1
    simp only [Option.some.injEq] at h1
    exact hne ((List.Nodup.getElem_inj_iff hnd).mp h1)
  rcases copyOnWrite_spec s pt i p hv hlt hrest.1 hrest.2 r hc with ⟨_, h2⟩ | ⟨_, h2⟩
  · subst h2
    have hpp : p' = p := by
      rw [hv] at hv'
      simp only [Except.ok.injEq] at hv'
      exact hv'.symm
    subst hpp
    rw [hs1]
    unfold slotByte storeChunk
    simp only
    by_cases hki : k = i
    · subst hki
      rw [if_pos rfl, getD_of_getElem? hget, Function.update_same]
    · rw [if_neg hki, getD_of_getElem? hkget, Function.update_noteq (hother hki)]
  · subst h2
    have hpp : p' = s.nextPage := by
      have e := (vecAt_ok hv').2
      simp only [Int.toNat_ofNat] at e
      rw [List.getElem?_set_self hi] at e
      simp only [Option.some.injEq] at e
      exact e.symm
    subst hpp
    rw [hs1]
    unfold slotByte storeChunk
    simp only [Int.toNat_ofNat]
    by_cases hki : k = i
    · subst hki
      rw [if_pos rfl, getD_of_getElem? (List.getElem?_set_self hi), Function.update_same,
        getD_of_getElem? hget]
      simp only
      have hfq : ((forkPage s p).heap s.nextPage).bytes =
          copyBytes (fun _ => 0) 0 (s.heap p).bytes 0 (toSizeT s.pageSize) := by
        simp [forkPage]
      rw [hfq]
      have hxs : x < toSizeT s.pageSize := by
        rw [hps, toSizeT_of_range hps0 hps1]
        omega
      unfold copyBytes
      simp [hxs]
    · rw [if_neg hki]
      have hset : (pt.set i s.nextPage)[k]? = some (pt.get ⟨k, hk⟩) := by
        rw [List.getElem?_set_ne (fun e => hki e.symm)]
        exact hkget
      rw [getD_of_getElem? hset, getD_of_getElem? hkget]
      have hkq : pt.get ⟨k, hk⟩ ≠ s.nextPage := by
        have := hb.wf.valid _ Body.cur_mem _ (List.getElem?_mem hkget)
        omega
      rw [Function.update_noteq hkq, forkPage_bytes_other s p _ hkq]

/-! ## The loop of tls_write with 4096-byte pages -/

/-- With 4096-byte pages, the loop that starts after slot `pn` with `rem` bytes left,
taken from position `ob` of the buffer, returns when the page table is long enough,
and stores these bytes at the logical positions
`[4096 * (pn + 1), 4096 * (pn + 1) + rem)`, leaving every other byte as it was. -/
theorem writeLoop_effect {pre post : List TLS} {cur : TLS} {s0 : State} (buffer : Nat → Nat)
    (hps : s0.pageSize = 4096) (fuel : Nat) :
    ∀ (s : State) (pt : List Nat) (pn rem ob : Nat),
      Body pre post cur s0 s pt → rem ≤ fuel →
      (0 < rem → 4096 * (pn + 1) + rem ≤ 4096 * pt.length) →
      ∃ r, writeLoop buffer fuel s pt (pn : Int) (rem : Int) (ob : Int) = Except.ok r ∧
        Body pre post cur s0 r.1 r.2 ∧ r.2.length = pt.length ∧
        ∀ k, k < pt.length → ∀ x : Nat, x < 4096 →
          slotByte r.1 r.2 k x =
            if 4096 * (pn + 1) ≤ 4096 * k + x ∧ 4096 * k + x < 4096 * (pn + 1) + rem
            then buffer (ob + (4096 * k + x - 4096 * (pn + 1))) else slotByte s pt k x := by
  induction fuel with
  | zero =>
    intro s pt pn rem ob hb hle _
    have hrem : rem = 0 := by omega
    subst hrem
    refine ⟨(s, pt), ?_, hb, rfl, ?_⟩
    · unfold writeLoop
      simp
    · intro k _ x _
      rw [if_neg (by omega)]
  | succ fuel ih =>
    intro s pt pn rem ob hb hle hpages
    by_cases hrem : rem = 0
    · subst hrem
      refine ⟨(s, pt), ?_, hb, rfl, ?_⟩
      · unfold writeLoop
        simp
      · intro k _ x _
        rw [if_neg (by omega)]
    · have hpos : 0 < rem := Nat.pos_of_ne_zero hrem
      have hpg := hpages hpos
      have hi : pn + 1 < pt.length := by omega
      have hcast : ((pn : Int) + 1) = ((pn + 1 : Nat) : Int) := by push_cast; rfl
      have hps0 : 0 ≤ s0.pageSize := by rw [hps]; decide
      have hps1 : s0.pageSize < 18446744073709551616 := by rw [hps]; decide
      unfold writeLoop
      rw [if_pos (by omega : (rem : Int) > 0), hcast]
      by_cases hbig : rem > 4096
      · obtain ⟨r1, s1, hc, hw, hb2, hlen, hbytes⟩ := transfer_step hb hps0 hps1 (pn + 1) hi 0 4096
          (Or.inr ⟨le_refl _, by rw [hps]; decide⟩) buffer (ob : Int)
        rw [hc]
        simp only
        rw [if_pos (by omega : (rem : Int) > 4096), hw]
        simp only
        have h1 : ((rem : Int) - 4096) = ((rem - 4096 : Nat) : Int) := by omega
        have h2 : ((ob : Int) + 4096) = ((ob + 4096 : Nat) : Int) := by push_cast; rfl
        rw [h1, h2]
        obtain ⟨r, hr, hb3, hlen3, hbytes3⟩ := ih s1 r1.2 (pn + 1) (rem - 4096) (ob + 4096) hb2
          (by omega) (by intro _; rw [hlen]; omega)
        refine ⟨r, hr, hb3, by rw [hlen3, hlen], ?_⟩
        intro k hk x hx
        rw [hbytes3 k (by rw [hlen]; exact hk) x hx,
          hbytes k hk x (by rw [hps]; omega)]
        unfold copyBytes
        simp only [Int.toNat_ofNat, Int.toNat_zero]
        split_ifs <;> first | omega | exact congrArg buffer (by omega)
      · have hsz : toSizeT (rem : Int) = rem := toSizeT_natCast (by omega)
        obtain ⟨r1, s1, hc, hw, hb2, hlen, hbytes⟩ := transfer_step hb hps0 hps1 (pn + 1) hi 0 rem
          (Or.inr ⟨le_refl _, by rw [hps]; omega⟩) buffer (ob : Int)
        rw [hc]
        simp only
        rw [if_neg (by omega : ¬ (rem : Int) > 4096), hsz, hw]
        simp only
        obtain ⟨r, hr, hb3, hlen3, hbytes3⟩ := ih s1 r1.2 (pn + 1) 0 ob hb2
          (by omega) (by intro h; omega)
        refine ⟨r, hr, hb3, by rw [hlen3, hlen], ?_⟩
        intro k hk x hx
        rw [hbytes3 k (by rw [hlen]; exact hk) x hx,
          hbytes k hk x (by rw [hps]; omega)]
        unfold copyBytes
        simp only [Int.toNat_ofNat, Int.toNat_zero]
        split_ifs <;> first | omega | exact congrArg buffer (by omega)

/-! ## tls_write at an offset inside the first page, with 4096-byte pages -/

theorem toUInt32_4096 : toUInt32 4096 = 4096 := by decide

theorem conversions_first_page (o : Nat) (ho : o < 4096) :
    toInt32 ((o : Int) / ((4096 : Nat) : Int)) = 0 ∧
    toInt32 ((o : Int) % ((4096 : Nat) : Int)) = (o : Int) ∧
    toInt32 (4096 - (o : Int)) = ((4096 - o : Nat) : Int) := by
  refine ⟨?_, ?_, ?_⟩
  · rw [toInt32_of_range (by omega) (by omega)]
    omega
  · rw [toInt32_of_range (by omega) (by omega)]
    omega
  · rw [toInt32_of_range (by omega) (by omega)]
    omega

/-- With 4096-byte pages and an offset inside the first page, the body of `tls_write`
returns when the range fits in the pages of the LSA, and stores `buffer[i]` at the
logical position `offset + i` for every `i < length`, leaving every other byte of the
LSA as it was. -/
theorem writeFrom_first_page {pre post : List TLS} {cur : TLS} {s : State}
    (hsplit : s.table = pre ++ cur :: post) (h : Inv s) (hps : s.pageSize = 4096)
    (o L : Nat) (ho : o < 4096) (hlen0 : 0 < cur.pageTable.length)
    (hfit : o + L ≤ 4096 * cur.pageTable.length) (hL : L < 2147483648)
    (buffer : Nat → Nat) :
    ∃ sN pt',
      writeFrom s pre.length cur L buffer 0 (o : Int) ((4096 - o : Nat) : Int) =
        Except.ok { sN with table := pre ++ { cur with pageTable := pt' } :: post } ∧
      Body pre post cur s sN pt' ∧ pt'.length = cur.pageTable.length ∧
      ∀ k, k < cur.pageTable.length → ∀ x : Nat, x < 4096 →
        slotByte sN pt' k x =
          if o ≤ 4096 * k + x ∧ 4096 * k + x < o + L then buffer (4096 * k + x - o)
          else slotByte s cur.pageTable k x := by
  have hb := body_init hsplit h
  have hps0 : 0 ≤ s.pageSize := by rw [hps]; decide
  have hps1 : s.pageSize < 18446744073709551616 := by rw [hps]; decide
  have hrm : toUInt32 ((4096 - o : Nat) : Int) = 4096 - o := by
    rw [toUInt32_of_range (by omega) (by omega)]
    simp
  have hzero : (0 : Int) = ((0 : Nat) : Int) := rfl
  unfold writeFrom
  rw [hrm]
  by_cases hsmall : L ≤ 4096 - o
  · obtain ⟨r1, s1, hc, hw, hb2, hlen, hbytes⟩ := transfer_step hb hps0 hps1 0 hlen0 (o : Int) L
      (Or.inr ⟨by omega, by rw [hps]; omega⟩) buffer 0
    rw [← hzero] at hc hw
    rw [hc]
    simp only
    rw [if_pos hsmall, hw]
    simp only
    refine ⟨s1, r1.2, ?_, hb2, hlen, ?_⟩
    · rw [hb2.table, hsplit, set_split]
    · intro k hk x hx
      rw [hbytes k hk x (by rw [hps]; omega)]
      unfold copyBytes
      simp only [Int.toNat_ofNat, Int.toNat_zero]
      split_ifs <;> first | omega | exact congrArg buffer (by omega)
  · obtain ⟨r1, s1, hc, hw, hb2, hlen, hbytes⟩ := transfer_step hb hps0 hps1 0 hlen0 (o : Int)
      (4096 - o) (Or.inr ⟨by omega, by rw [hps]; omega⟩) buffer 0
    rw [← hzero] at hc hw
    have hsz : toSizeT ((4096 - o : Nat) : Int) = 4096 - o := toSizeT_natCast (by omega)
    have hrem : toInt32 ((L : Int) - ((4096 - o : Nat) : Int)) = ((L - (4096 - o) : Nat) : Int) := by
      rw [toInt32_of_range (by omega) (by omega)]
      omega
    rw [hc]
    simp only
    rw [if_neg hsmall, hsz, hw]
    simp only
    rw [hrem, Int.toNat_ofNat, hzero]
    obtain ⟨r, hr, hb3, hlen3, hbytes3⟩ := writeLoop_effect buffer hps (L - (4096 - o)) s1 r1.2 0
      (L - (4096 - o)) (4096 - o) hb2 (le_refl _) (by intro _; rw [hlen]; omega)
    rw [hr]
    simp only
    refine ⟨r.1, r.2, ?_, hb3, by rw [hlen3, hlen], ?_⟩
    · rw [hb3.table, hsplit, set_split]
    · intro k hk x hx
      rw [hbytes3 k (by rw [hlen]; exact hk) x hx, hbytes k hk x (by rw [hps]; omega)]
      unfold copyBytes
      simp only [Int.toNat_ofNat, Int.toNat_zero]
      split_ifs <;> first | omega | exact congrArg buffer (by omega)

/-! ## tls_read at an offset inside the first page, with 4096-byte pages -/

theorem pageByte_eq {pages : List (Nat → Nat)} {k : Nat} {b : Nat → Nat}
    (hk : pages[k]? = some b) (pos : Nat) (h1 : 4096 * k ≤ pos) (h2 : pos < 4096 * k + 4096) :
    pageByte pages pos = b (pos - 4096 * k) := by
  unfold pageByte
  have e1 : pos / 4096 = k := by omega
  have e2 : pos % 4096 = pos - 4096 * k := by omega
  rw [e1, e2, List.getD_eq_getElem?_getD, hk]
  rfl

theorem readChunkP_eq {pageSize : Int} {pages : List (Nat → Nat)} {i : Nat} {b : Nat → Nat}
    (hi : pages[i]? = some b) (off : Int) (out : Nat → Nat) (dstOff : Int) (n : Nat)
    (hbound : n = 0 ∨ (0 ≤ off ∧ off + n ≤ pageSize)) :
    readChunkP pageSize pages (i : Int) off out dstOff n =
      Except.ok (copyBytes out dstOff.toNat b off.toNat n) := by
  unfold readChunkP
  rw [if_neg (by omega), Int.toNat_ofNat, hi]
  simp only
  by_cases hn : n = 0
  · rw [if_pos hn, hn, copyBytes_zero]
  · rw [if_neg hn]
    rcases hbound with e | e
    · exact absurd e hn
    · rw [if_pos e]

/-- With 4096-byte pages, the loop of `tls_read` that starts after slot `pn` with
`rem` bytes left, to be put at position `ob` of the buffer, returns when there are
enough pages, and delivers the bytes at the logical positions from
`4096 * (pn + 1)` on. -/
theorem readLoopP_effect (pages : List (Nat → Nat)) (fuel : Nat) :
    ∀ (out : Nat → Nat) (pn rem ob : Nat), rem ≤ fuel →
      (0 < rem → 4096 * (pn + 1) + rem ≤ 4096 * pages.length) →
      ∃ out', readLoopP 4096 pages fuel out (pn : Int) (rem : Int) (ob : Int) = Except.ok out' ∧
        ∀ j, out' j =
          if ob ≤ j ∧ j < ob + rem then pageByte pages (4096 * (pn + 1) + (j - ob))
          else out j := by
  induction fuel with
  | zero =>
    intro out pn rem ob hle _
    have hrem : rem = 0 := by omega
    subst hrem
    refine ⟨out, ?_, ?_⟩
    · unfold readLoopP
      simp
    · intro j
      rw [if_neg (by omega)]
  | succ fuel ih =>
    intro out pn rem ob hle hpages
    by_cases hrem : rem = 0
    · subst hrem
      refine ⟨out, ?_, ?_⟩
      · unfold readLoopP
        simp
      · intro j
        rw [if_neg (by omega)]
    · have hpos : 0 < rem := Nat.pos_of_ne_zero hrem
      have hpg := hpages hpos
      have hi : pn + 1 < pages.length := by omega
      have hget : pages[pn + 1]? = some (pages.get ⟨pn + 1, hi⟩) := List.getElem?_eq_getElem hi
      generalize pages.get ⟨pn + 1, hi⟩ = b at hget
      have hcast : ((pn : Int) + 1) = ((pn + 1 : Nat) : Int) := by push_cast; rfl
      unfold readLoopP
      rw [if_pos (by omega : (rem : Int) > 0), hcast]
      by_cases hbig : rem > 4096
      · rw [if_pos (by omega : (rem : Int) > 4096),
          readChunkP_eq hget 0 out (ob : Int) 4096 (Or.inr ⟨le_refl _, by decide⟩)]
        simp only
        have h1 : ((rem : Int) - 4096) = ((rem - 4096 : Nat) : Int) := by omega
        have h2 : ((ob : Int) + 4096) = ((ob + 4096 : Nat) : Int) := by push_cast; rfl
        rw [h1, h2]
        obtain ⟨out', hr, hout⟩ := ih (copyBytes out (ob : Int).toNat b (0 : Int).toNat 4096)
          (pn + 1) (rem - 4096) (ob + 4096) (by omega) (by intro _; omega)
        refine ⟨out', hr, ?_⟩
        intro j
        rw [hout j]
        unfold copyBytes
        simp only [Int.toNat_ofNat, Int.toNat_zero]
        by_cases hj1 : ob + 4096 ≤ j ∧ j < ob + 4096 + (rem - 4096)
        · rw [if_pos hj1, if_pos (by omega)]
          exact congrArg (pageByte pages) (by omega)
        · rw [if_neg hj1]
          by_cases hj2 : ob ≤ j ∧ j < ob + 4096
          · rw [if_pos hj2, if_pos (by omega),
              pageByte_eq hget _ (by omega) (by omega)]
            exact congrArg b (by omega)
          · rw [if_neg hj2, if_neg (by omega)]
      · have hsz : toSizeT (rem : Int) = rem := toSizeT_natCast (by omega)
        rw [if_neg (by omega : ¬ (rem : Int) > 4096), hsz,
          readChunkP_eq hget 0 out (ob : Int) rem (Or.inr ⟨le_refl _, by omega⟩)]
        simp only
        obtain ⟨out', hr, hout⟩ := ih (copyBytes out (ob : Int).toNat b (0 : Int).toNat rem)
          (pn + 1) 0 ob (by omega) (by intro h; omega)
        refine ⟨out', hr, ?_⟩
        intro j
        rw [hout j, if_neg (by omega)]
        unfold copyBytes
        simp only [Int.toNat_ofNat, Int.toNat_zero]
        by_cases hj2 : ob ≤ j ∧ j < ob + rem
        · rw [if_pos hj2, if_pos hj2, pageByte_eq hget _ (by omega) (by omega)]
          exact congrArg b (by omega)
        · rw [if_neg hj2, if_neg hj2]

/-- With 4096-byte pages and an offset inside the first page, what `tls_read`
delivers when the range fits in the pages: `out[j]` is the byte at the logical
position `offset + j` for every `j < length`, and the rest of the buffer is as it
was. -/
theorem readFromP_first_page (pages : List (Nat → Nat)) (o L : Nat) (ho : o < 4096)
    (hlen0 : 0 < pages.length) (hfit : o + L ≤ 4096 * pages.length) (hL : L < 2147483648)
    (out : Nat → Nat) :
    ∃ out', readFromP 4096 pages L out 0 (o : Int) ((4096 - o : Nat) : Int) = Except.ok out' ∧
      ∀ j, out' j = if j < L then pageByte pages (o + j) else out j := by
  have hget : pages[0]? = some (pages.get ⟨0, hlen0⟩) := List.getElem?_eq_getElem hlen0
  generalize pages.get ⟨0, hlen0⟩ = b at hget
  have hrm : toUInt32 ((4096 - o : Nat) : Int) = 4096 - o := by
    rw [toUInt32_of_range (by omega) (by omega)]
    simp
  have hzero : (0 : Int) = ((0 : Nat) : Int) := rfl
  unfold readFromP
  rw [hrm]
  by_cases hsmall : L ≤ 4096 - o
  · rw [if_pos hsmall, hzero, readChunkP_eq hget (o : Int) out ((0 : Nat) : Int) L
      (Or.inr ⟨by omega, by omega⟩)]
    refine ⟨_, rfl, ?_⟩
    intro j
    unfold copyBytes
    simp only [Int.toNat_ofNat]
    by_cases hj : j < L
    · rw [if_pos hj, if_pos (by omega), pageByte_eq hget _ (by omega) (by omega)]
      exact congrArg b (by omega)
    · rw [if_neg hj, if_neg (by omega)]
  · have hsz : toSizeT ((4096 - o : Nat) : Int) = 4096 - o := toSizeT_natCast (by omega)
    have hrem : toInt32 ((L : Int) - ((4096 - o : Nat) : Int)) = ((L - (4096 - o) : Nat) : Int) := by
      rw [toInt32_of_range (by omega) (by omega)]
      omega
    rw [if_neg hsmall, hsz, hzero, readChunkP_eq hget (o : Int) out ((0 : Nat) : Int) (4096 - o)
      (Or.inr ⟨by omega, by omega⟩)]
    simp only
    rw [hrem, Int.toNat_ofNat]
    obtain ⟨out', hr, hout⟩ := readLoopP_effect pages (L - (4096 - o))
      (copyBytes out ((0 : Nat) : Int).toNat b (o : Int).toNat (4096 - o)) 0
      (L - (4096 - o)) (4096 - o) (le_refl _) (by intro _; omega)
    refine ⟨out', hr, ?_⟩
    intro j
    rw [hout j]
    unfold copyBytes
    simp only [Int.toNat_ofNat]
    by_cases hj1 : 4096 - o ≤ j ∧ j < 4096 - o + (L - (4096 - o))
    · rw [if_pos hj1, if_pos (by omega)]
      exact congrArg (pageByte pages) (by omega)
    · rw [if_neg hj1]
      by_cases hj : j < L
      · rw [if_pos hj, if_pos (by omega), pageByte_eq hget _ (by omega) (by omega)]
        exact congrArg b (by omega)
      · rw [if_neg hj, if_neg (by omega)]

/-! ## Page size and page counts in reachable states -/

theorem numPagesFor_cover {size : Int} (h0 : 0 < size) :
    0 < numPagesFor size 4096 ∧ size ≤ 4096 * numPagesFor size 4096 := by
  unfold numPagesFor
  rw [Int.tmod_eq_emod (by omega) (by omega), Int.tdiv_eq_ediv (by omega) (by omega)]
  split <;> constructor <;> omega

theorem TLS_new_shaped (s : State) (currentTID : Nat) (sz : Int) (ni : Bool) (h : Shaped s) :
    ({ (TLS_new { s with notInitialized := ni } sz currentTID).1 with
      table := (TLS_new { s with notInitialized := ni } sz currentTID).1.table ++
        [(TLS_new { s with notInitialized := ni } sz currentTID).2] } : State).pageSize
      = s.pageSize ∧
    Shaped { (TLS_new { s with notInitialized := ni } sz currentTID).1 with
      table := (TLS_new { s with notInitialized := ni } sz currentTID).1.table ++
        [(TLS_new { s with notInitialized := ni } sz currentTID).2] } := by
  obtain ⟨_, _, h3, h4, _, _, _⟩ :=
    allocPages_spec (numPagesFor sz s.pageSize).toNat { s with notInitialized := ni } []
  unfold Shaped TLS_new
  generalize allocPages (numPagesFor sz s.pageSize).toNat
    { s with notInitialized := ni } [] = r at h3 h4 ⊢
  obtain ⟨s', pt⟩ := r
  simp only at h3 h4 ⊢
  refine ⟨h4, ?_⟩
  intro t ht
  rw [h3] at ht
  rw [h4]
  rcases List.mem_append.mp ht with ht | ht
  · exact h t ht
  · simp only [List.mem_singleton] at ht
    rw [ht]

theorem tls_create_shaped (s : State) (currentTID size : Nat) (h : Shaped s) :
    (tls_create s currentTID size).2.pageSize = s.pageSize ∧
    Shaped (tls_create s currentTID size).2 := by
  unfold tls_create
  by_cases h0 : size = 0
  · rw [if_pos h0]
    exact ⟨rfl, h⟩
  · rw [if_neg h0]
    by_cases hc : tableContains s.table currentTID = true
    · rw [if_pos hc]
      exact ⟨rfl, h⟩
    · rw [if_neg hc]
      exact TLS_new_shaped s currentTID _ false h

theorem exec_shaped {s s' : State} {c : Call} {r : Int} (hinv : Inv s) (h : Shaped s)
    (hr : exec s c = Except.ok (r, s')) : s'.pageSize = s.pageSize ∧ Shaped s' := by
  cases c with
  | create currentTID size =>
    simp only [exec, Except.ok.injEq] at hr
    have := tls_create_shaped s currentTID size h
    rw [hr] at this
    exact this
  | write currentTID offset length buffer =>
    have hr' : tls_write_locked s currentTID offset length buffer = Except.ok (r, s') :=
      (tls_write_returns hr).2
    rcases tls_write_spec hinv hr' with ⟨_, h2⟩ | ⟨_, pre, cur, post, sN, pt', hsplit, _, hb, hs'⟩
    · rw [h2]
      exact ⟨rfl, h⟩
    · have hps : s'.pageSize = s.pageSize := by rw [hs']; exact hb.pageSize
      refine ⟨hps, ?_⟩
      intro t ht
      rw [hps]
      have ht' : t ∈ pre ++ { cur with pageTable := pt' } :: post := by rw [hs'] at ht; exact ht
      rcases mem_split_iff.mp ht' with e | e
      · rw [e]
        exact h cur (by rw [hsplit]; exact mem_split_iff.mpr (Or.inl rfl))
      · exact h t (by rw [hsplit]; exact mem_split_iff.mpr (Or.inr e))
  | read currentTID offset length buffer =>
    simp only [exec] at hr
    cases hrd : tls_read s currentTID offset length buffer with
    | error e => rw [hrd] at hr; cases hr
    | ok x =>
      obtain ⟨r0, s0, out⟩ := x
      rw [hrd] at hr
      simp only [Except.ok.injEq, Prod.mk.injEq] at hr
      rw [← hr.2, tls_read_state hinv (tls_read_returns hrd).2]
      exact ⟨rfl, h⟩
  | destroy currentTID =>
    replace hr : tls_destroy_locked s currentTID = Except.ok (r, s') :=
      (tls_destroy_returns hr).2
    by_cases h1 : tableContains s.table currentTID = true
    · obtain ⟨pre, t, post, hsplit, _, heq⟩ := tls_destroy_eq s currentTID hinv h1
      rw [heq] at hr
      simp only [Except.ok.injEq, Prod.mk.injEq] at hr
      have hps : s'.pageSize = s.pageSize := by
        rw [← hr.2]
        exact (releaseAll_frame t.pageTable s).2.2.1
      refine ⟨hps, ?_⟩
      intro u hu
      rw [hps]
      have hu' : u ∈ pre ++ post := by rw [← hr.2] at hu; exact hu
      exact h u (by rw [hsplit]; exact mem_split_iff.mpr (Or.inr hu'))
    · have h1' : tableContains s.table currentTID = false := by simpa using h1
      unfold tls_destroy_locked at hr
      rw [h1'] at hr
      simp only [if_true, Except.ok.injEq, Prod.mk.injEq] at hr
      rw [← hr.2]
      exact ⟨rfl, h⟩
  | clone currentTID tid =>
    replace hr : tls_clone_locked s currentTID tid = Except.ok (r, s') :=
      (tls_clone_returns hr).2
    by_cases h1 : tableContains s.table tid = true
    · by_cases h2 : tableContains s.table currentTID = true
      · unfold tls_clone_locked at hr
        rw [h1, h2] at hr
        simp only [Bool.true_eq_false, if_false, if_true, Except.ok.injEq, Prod.mk.injEq] at hr
        rw [← hr.2]
        exact ⟨rfl, h⟩
      · have h2' : tableContains s.table currentTID = false := by simpa using h2
        obtain ⟨src, hmem, _, _, heq⟩ := tls_clone_eq s currentTID tid hinv h1 h2'
        rw [heq] at hr
        simp only [Except.ok.injEq, Prod.mk.injEq] at hr
        have hps : s'.pageSize = s.pageSize := by rw [← hr.2]
        refine ⟨hps, ?_⟩
        intro u hu
        rw [hps]
        have hu' : u ∈ s.table ++ [TLS.mk src.size src.numPages currentTID src.pageTable] := by
          rw [← hr.2] at hu
          exact hu
        rcases List.mem_append.mp hu' with e | e
        · exact h u e
        · simp only [List.mem_singleton] at e
          rw [e]
          exact h src hmem
    · have h1' : tableContains s.table tid = false := by simpa using h1
      unfold tls_clone_locked at hr
      rw [h1'] at hr
      simp only [if_true, Except.ok.injEq, Prod.mk.injEq] at hr
      rw [← hr.2]
      exact ⟨rfl, h⟩

theorem reachable_shaped {pageSize : Int} {s : State} (h : Reachable pageSize s) :
    s.pageSize = pageSize ∧ Shaped s := by
  induction h with
  | init => exact ⟨rfl, fun t ht => by cases ht⟩
  | step hprev hr ih =>
    obtain ⟨h1, h2⟩ := exec_shaped (reachable_inv hprev) ih.2 hr
    exact ⟨h1.trans ih.1, h2⟩

/-! ## The one-time setup in reachable states -/

theorem TLS_new_flag (s : State) (sz : Int) (tid : Nat) (ni : Bool) :
    ({ (TLS_new { s with notInitialized := ni } sz tid).1 with
      table := (TLS_new { s with notInitialized := ni } sz tid).1.table ++
        [(TLS_new { s with notInitialized := ni } sz tid).2] } : State).notInitialized = ni :=
  (allocPages_spec _ { s with notInitialized := ni } []).2.2.2.2.1

theorem tls_create_initialized (s : State) (currentTID size : Nat) :
    (tls_create s currentTID size).2.notInitialized = false := by
  unfold tls_create
  by_cases h0 : size = 0
  · rw [if_pos h0]
  · rw [if_neg h0]
    by_cases hc : tableContains s.table currentTID = true
    · rw [if_pos hc]
    · rw [if_neg hc]
      exact TLS_new_flag s _ currentTID false

/-- A call that returns leaves `notInitialized` false: `tls_create` clears it, and
the other four operations return only when it is false already. -/
theorem exec_initialized {s s' : State} {c : Call} {r : Int} (hinv : Inv s)
    (hr : exec s c = Except.ok (r, s')) : s'.notInitialized = false := by
  cases c with
  | create currentTID size =>
    simp only [exec, Except.ok.injEq] at hr
    have := tls_create_initialized s currentTID size
    rw [hr] at this
    exact this
  | write currentTID offset length buffer =>
    obtain ⟨hn, hr'⟩ := tls_write_returns hr
    rcases tls_write_spec hinv hr' with ⟨_, h2⟩ | ⟨_, pre, cur, post, sN, pt', _, _, hb, hs'⟩
    · rw [h2]
      exact hn
    · rw [hs']
      exact hb.flag.trans hn
  | read currentTID offset length buffer =>
    simp only [exec] at hr
    cases hrd : tls_read s currentTID offset length buffer with
    | error e => rw [hrd] at hr; cases hr
    | ok x =>
      obtain ⟨r0, s0, out⟩ := x
      rw [hrd] at hr
      simp only [Except.ok.injEq, Prod.mk.injEq] at hr
      obtain ⟨hn, hrd'⟩ := tls_read_returns hrd
      rw [← hr.2, tls_read_state hinv hrd']
      exact hn
  | destroy currentTID =>
    obtain ⟨hn, hr'⟩ := tls_destroy_returns hr
    by_cases h1 : tableContains s.table currentTID = true
    · obtain ⟨pre, t, post, _, _, heq⟩ := tls_destroy_eq s currentTID hinv h1
      rw [heq] at hr'
      simp only [Except.ok.injEq, Prod.mk.injEq] at hr'
      rw [← hr'.2]
      exact ((releaseAll_frame t.pageTable s).2.2.2).trans hn
    · have h1' : tableContains s.table currentTID = false := by simpa using h1
      unfold tls_destroy_locked at hr'
      rw [h1'] at hr'
      simp only [if_true, Except.ok.injEq, Prod.mk.injEq] at hr'
      rw [← hr'.2]
      exact hn
  | clone currentTID tid =>
    obtain ⟨hn, hr'⟩ := tls_clone_returns hr
    by_cases h1 : tableContains s.table tid = true
    · by_cases h2 : tableContains s.table currentTID = true
      · unfold tls_clone_locked at hr'
        rw [h1, h2] at hr'
        simp only [Bool.true_eq_false, if_false, if_true, Except.ok.injEq, Prod.mk.injEq] at hr'
        rw [← hr'.2]
        exact hn
      · have h2' : tableContains s.table currentTID = false := by simpa using h2
        obtain ⟨src, _, _, _, heq⟩ := tls_clone_eq s currentTID tid hinv h1 h2'
        rw [heq] at hr'
        simp only [Except.ok.injEq, Prod.mk.injEq] at hr'
        rw [← hr'.2]
        exact hn
    · have h1' : tableContains s.table tid = false := by simpa using h1
      unfold tls_clone_locked at hr'
      rw [h1'] at hr'
      simp only [if_true, Except.ok.injEq, Prod.mk.injEq] at hr'
      rw [← hr'.2]
      exact hn

/-- The part of `tls_write` after `sem_wait` does not touch `notInitialized`. -/
theorem tls_write_locked_flag {s s' : State} {currentTID offset length : Nat}
    {buffer : Nat → Nat} {r : Int} (hinv : Inv s)
    (hr : tls_write_locked s currentTID offset length buffer = Except.ok (r, s')) :
    s'.notInitialized = s.notInitialized := by
  rcases tls_write_spec hinv hr with ⟨_, h2⟩ | ⟨_, pre, cur, post, sN, pt', _, _, hb, hs'⟩
  · rw [h2]
  · rw [hs']
    exact hb.flag

/-- A call of `tls_write` returns or ends in a fault of the program itself: the bound
on the iterations of the loop is never what stops it. -/
theorem tls_write_ne_fuel (s : State) (currentTID offset length : Nat) (buffer : Nat → Nat) :
    tls_write s currentTID offset length buffer ≠ Except.error Fault.fuel := by
  cases hn : s.notInitialized with
  | true =>
    rw [tls_write_blocked s hn]
    intro e
    cases e
  | false =>
    rw [tls_write_of_initialized s hn]
    exact tls_write_locked_ne_fuel s currentTID offset length buffer

/-- A call of `tls_read` returns or ends in a fault of the program itself. -/
theorem tls_read_ne_fuel (s : State) (currentTID offset length : Nat) (buffer : Nat → Nat) :
    tls_read s currentTID offset length buffer ≠ Except.error Fault.fuel := by
  cases hn : s.notInitialized with
  | true =>
    rw [tls_read_blocked s hn]
    intro e
    cases e
  | false =>
    rw [tls_read_of_initialized s hn]
    exact tls_read_locked_ne_fuel s currentTID offset length buffer

/-- A reachable state is the state of the fresh process, or the one-time setup has
run. -/
theorem reachable_initialized {pageSize : Int} {s : State} (h : Reachable pageSize s) :
    s = initialState pageSize ∨ s.notInitialized = false := by
  cases h with
  | init => exact Or.inl rfl
  | step h0 hr => exact Or.inr (exec_initialized (reachable_inv h0) hr)

/-- In a reachable state with a registered thread the one-time setup has run. -/
theorem reachable_registered {pageSize : Int} {s : State} (h : Reachable pageSize s)
    {tid : Nat} (hc : tableContains s.table tid = true) : s.notInitialized = false := by
  rcases reachable_initialized h with e | e
  · rw [e] at hc
    cases hc
  · exact e

/-! ## Assembling a call of tls_write and the read that follows -/

theorem tls_write_of_body {s s' : State} {currentTID offset length : Nat}
    {buffer : Nat → Nat} {pre post : List TLS} {cur : TLS}
    (hc : tableContains s.table currentTID = true)
    (hsplit : s.table = pre ++ cur :: post)
    (hfind : findIndex s.table currentTID = some pre.length)
    (hrange : ¬ ((offset + length) % 4294967296 > toUInt32 cur.size))
    (hbody : writeBody s pre.length cur offset length buffer = Except.ok s') :
    tls_write_locked s currentTID offset length buffer = Except.ok (0, s') := by
  have hget : s.table[pre.length]? = some cur := by rw [hsplit]; exact getElem?_split pre post cur
  unfold tls_write_locked
  rw [hc, hfind]
  simp only [Bool.true_eq_false, if_false, hget]
  rw [if_neg hrange, hbody]

theorem pageByte_contents (s : State) (pt : List Nat) (pos : Nat)
    (h : pos / 4096 < pt.length) :
    pageByte (contents s pt) pos = slotByte s pt (pos / 4096) (pos % 4096) := by
  unfold pageByte slotByte contents
  rw [List.getD_eq_getElem?_getD, List.getD_eq_getElem?_getD, List.getElem?_map,
    List.getElem?_eq_getElem h]
  rfl

theorem writeBody_first_page (s : State) (index : Nat) (cur : TLS) (hps : s.pageSize = 4096)
    (o L : Nat) (ho : o < 4096) (buffer : Nat → Nat) :
    writeBody s index cur o L buffer =
      writeFrom s index cur L buffer 0 (o : Int) ((4096 - o : Nat) : Int) := by
  obtain ⟨c1, c2, c3⟩ := conversions_first_page o ho
  unfold writeBody
  rw [hps, toUInt32_4096, c1, c2, c3]

theorem readBodyP_first_page (pages : List (Nat → Nat)) (o L : Nat) (ho : o < 4096)
    (out : Nat → Nat) :
    readBodyP 4096 pages o L out =
      readFromP 4096 pages L out 0 (o : Int) ((4096 - o : Nat) : Int) := by
  obtain ⟨c1, c2, c3⟩ := conversions_first_page o ho
  unfold readBodyP
  rw [toUInt32_4096, c1, c2, c3]

/-! ## Example runs -/

theorem reachable_twoPageState : Reachable 4096 twoPageState :=
  Reachable.step (c := Call.create 1 8192) (r := 0) Reachable.init rfl

theorem reachable_smallState : Reachable 4096 smallState :=
  Reachable.step (c := Call.create 1 100) (r := 0) Reachable.init rfl

theorem reachable_sharedState : Reachable 4096 sharedState :=
  Reachable.step (c := Call.clone 2 1) (r := 0) reachable_twoPageState rfl

theorem reachable_sharedOnePageState : Reachable 4096 sharedOnePageState :=
  Reachable.step (c := Call.clone 2 1) (r := 0)
    (Reachable.step (c := Call.create 1 4096) (r := 0) Reachable.init rfl) rfl

theorem reachable_writtenState : Reachable 4096 writtenState :=
  Reachable.step (c := Call.write 1 0 5 helloBuffer) (r := 0) reachable_twoPageState rfl

theorem exec_write_sharedState :
    exec sharedState (Call.write 1 4094 4 helloBuffer) = Except.ok (0, forkedState) := rfl

/-! ## Claims -/

/-- C1 (round trip `create(S)`, `write(o,L,buf)`, `read(o,L,out)`), evaluated where
it breaks: with 4096-byte pages, after `tls_create(8192)` returned 0, the call
`tls_write(4096, 1, buf)`, whose range `4096 + 1 <= 8192` is valid, does not return:
`remainingMemory = pageSize - offset` is 0, nothing is copied into page 1, and the
loop asks for page 2 of a two-page table, so `vector::at` throws. -/
theorem write_at_second_page_throws :
    (tls_create (initialState 4096) 1 8192).1 = 0 ∧ 4096 + 1 ≤ 8192 ∧
    tls_write twoPageState 1 4096 1 helloBuffer = Except.error Fault.out_of_range :=
  ⟨rfl, by decide, rfl⟩

/-- C3 (range check on the mathematical sum), evaluated where it breaks: after
`tls_create(100)`, the call `tls_write(1, 4294967295, buf)` has
`offset + length = 4294967296 > 100`, but the sum wraps to 0 in `unsigned int`, the
check passes, the call returns 0 and page 0 is overwritten from in-page offset 1 up
to its last byte; `tls_read` with the same arguments returns 0 as well. -/
theorem wrapped_range_is_accepted :
    1 + 4294967295 > 100 ∧
    codeOf (tls_write smallState 1 1 4294967295 helloBuffer) = some 0 ∧
    ((stateOf smallState (tls_write smallState 1 1 4294967295 helloBuffer)).heap 0).bytes 1
      = 104 ∧
    (smallState.heap 0).bytes 1 = 0 ∧
    ((stateOf smallState (tls_write smallState 1 1 4294967295 helloBuffer)).heap 0).bytes 4095
      = helloBuffer 4094 ∧
    (match tls_read smallState 1 1 4294967295 (fun _ => 0) with
      | Except.ok r => some r.1
      | Except.error _ => none) = some 0 :=
  ⟨by decide, rfl, rfl, rfl, rfl, rfl⟩

/-- C6 (postcondition of `tls_create` for every `unsigned int` size), evaluated where
it breaks: `tls_create(2147483648)` returns 0 but the constructor receives the size
as `int`, so the registered LSA has size -2147483648, `numPages` -524288 and an
empty page table instead of 524288 pages. -/
theorem create_large_size_has_no_pages :
    (tls_create (initialState 4096) 1 2147483648).1 = 0 ∧
    (tls_create (initialState 4096) 1 2147483648).2.table.map
        (fun t => (t.tid, t.size, t.numPages, t.pageTable)) =
      [(1, -2147483648, -524288, [])] :=
  ⟨rfl, rfl⟩

/-- C5: `tls_create(size)` returns -1 exactly when `size == 0` or the caller already
has an LSA, and then the registry, the page objects and their mappings are as before;
in every other case it returns 0. -/
theorem create_fails_iff_precondition_violated (s : State) (currentTID size : Nat) :
    ((tls_create s currentTID size).1 = ERROR_CODE ↔
      (size = 0 ∨ tableContains s.table currentTID = true)) ∧
    ((tls_create s currentTID size).1 = ERROR_CODE →
      (tls_create s currentTID size).2.table = s.table ∧
      (tls_create s currentTID size).2.heap = s.heap ∧
      (tls_create s currentTID size).2.nextPage = s.nextPage ∧
      (tls_create s currentTID size).2.pageSize = s.pageSize) ∧
    ((tls_create s currentTID size).1 ≠ ERROR_CODE → (tls_create s currentTID size).1 = 0) := by
  unfold tls_create
  by_cases h0 : size = 0
  · rw [if_pos h0]
    exact ⟨⟨fun _ => Or.inl h0, fun _ => rfl⟩, fun _ => ⟨rfl, rfl, rfl, rfl⟩, fun h => absurd rfl h⟩
  · rw [if_neg h0]
    by_cases hc : tableContains s.table currentTID = true
    · rw [if_pos hc]
      exact ⟨⟨fun _ => Or.inr hc, fun _ => rfl⟩, fun _ => ⟨rfl, rfl, rfl, rfl⟩,
        fun h => absurd rfl h⟩
    · rw [if_neg hc]
      have hne : ¬ ((0 : Int) = ERROR_CODE) := by decide
      refine ⟨⟨fun h => absurd h hne, ?_⟩, fun h => absurd h hne, fun _ => rfl⟩
      rintro (h | h)
      · exact absurd h h0
      · exact absurd h hc

/-- Scenario S2 of the specification, from C5: `create(100)` returns 0 and a second
`create(200)` by the same thread returns -1. -/
theorem create_twice_rejected :
    (tls_create (initialState 4096) 1 100).1 = 0 ∧ (tls_create smallState 1 200).1 = ERROR_CODE :=
  ⟨(create_fails_iff_precondition_violated (initialState 4096) 1 100).2.2 (by decide),
   (create_fails_iff_precondition_violated smallState 1 200).1.mpr (Or.inr rfl)⟩

/-- C4: in every state reachable from the empty registry by calls of the five
operations, whatever they returned, every page held in a slot of some LSA has a
reference counter equal to the number of slots, over all LSAs, that hold it, and
so at least 1. -/
theorem refcount_equals_slot_count (pageSize : Int) (s : State) (h : Reachable pageSize s)
    (t : TLS) (ht : t ∈ s.table) (p : Nat) (hp : p ∈ t.pageTable) :
    (s.heap p).referenceCounter = (slotCount s.table p : Int) ∧
    1 ≤ (s.heap p).referenceCounter := by
  have hpos : 0 < slotCount s.table p := (slotCount_pos_iff _ _).mpr ⟨t, ht, hp⟩
  have hrc := (reachable_inv h).refs p hpos
  refine ⟨hrc, ?_⟩
  rw [hrc]
  exact_mod_cast hpos

/-- Instance of C4 after `create(8192)` by thread 1, `clone(1)` by thread 2 and a write
by thread 1 into the last bytes of page 0: the old page 0 is held by one slot and has
counter 1. -/
theorem refcount_after_fork :
    Reachable 4096 forkedState ∧
    (forkedState.heap 0).referenceCounter = (slotCount forkedState.table 0 : Int) ∧
    1 ≤ (forkedState.heap 0).referenceCounter :=
  ⟨Reachable.step reachable_sharedState exec_write_sharedState,
   refcount_equals_slot_count 4096 forkedState
    (Reachable.step reachable_sharedState exec_write_sharedState)
    { size := 8192, numPages := 2, tid := 2, pageTable := [0, 1] }
    (List.mem_cons_of_mem _ (List.mem_cons_self _ _)) 0 (List.mem_cons_self _ _)⟩

/-- C10: when a call of any of the five operations returns (with any return value)
from a reachable state, every page held in a slot of some LSA, freshly allocated or
not, has protection `PROT_NONE`. -/
theorem protection_none_after_call (pageSize : Int) (s s' : State) (c : Call) (r : Int)
    (h : Reachable pageSize s) (hr : exec s c = Except.ok (r, s'))
    (t : TLS) (ht : t ∈ s'.table) (p : Nat) (hp : p ∈ t.pageTable) :
    (s'.heap p).prot = Prot.PROT_NONE :=
  ((exec_inv (reachable_inv h) hr).rest t ht p hp).2

/-- Instance of C10: after the forking write, the page freshly allocated by the
copy-on-write for slot 0 of thread 1 is protected. -/
theorem protection_none_after_fork :
    (forkedState.heap 2).prot = Prot.PROT_NONE :=
  protection_none_after_call 4096 sharedState forkedState (Call.write 1 4094 4 helloBuffer) 0
    reachable_sharedState exec_write_sharedState
    { size := 8192, numPages := 2, tid := 1, pageTable := [2, 3] }
    (List.mem_cons_self _ _) 2 (List.mem_cons_self _ _)

/-- C7: in a reachable state where the source thread has an LSA and the caller has
none, `tls_clone` returns 0 and appends for the caller an LSA with the size, the page
count and, slot by slot, the very pages of the source; the counter of each of these
pages goes up by exactly one, no other page object changes, no page changes its
bytes or mapping, and the source LSA is still registered as it was. -/
theorem clone_shares_pages (pageSize : Int) (s : State) (h : Reachable pageSize s)
    (currentTID tid : Nat) (h1 : tableContains s.table tid = true)
    (h2 : tableContains s.table currentTID = false) :
    ∃ src s', findTlsWithThreadID s.table tid = some src ∧
      tls_clone s currentTID tid = Except.ok (0, s') ∧
      s'.table = s.table ++ [{ size := src.size, numPages := src.numPages, tid := currentTID,
                               pageTable := src.pageTable }] ∧
      findTlsWithThreadID s'.table currentTID =
        some { size := src.size, numPages := src.numPages, tid := currentTID,
               pageTable := src.pageTable } ∧
      findTlsWithThreadID s'.table tid = some src ∧
      (∀ p ∈ src.pageTable,
        (s'.heap p).referenceCounter = (s.heap p).referenceCounter + 1) ∧
      (∀ p, p ∉ src.pageTable → s'.heap p = s.heap p) ∧
      (∀ p, (s'.heap p).bytes = (s.heap p).bytes ∧ (s'.heap p).mapped = (s.heap p).mapped ∧
        (s'.heap p).prot = (s.heap p).prot ∧ (s'.heap p).pagePointer = (s.heap p).pagePointer) ∧
      s'.nextPage = s.nextPage := by
  have hinv := reachable_inv h
  have hn := reachable_registered h h1
  obtain ⟨src, hmem, hfind, htid, heq⟩ := tls_clone_eq s currentTID tid hinv h1 h2
  have hinv' := tls_clone_inv s _ currentTID tid 0 hinv heq
  refine ⟨src, _, hfind, (tls_clone_of_initialized s hn currentTID tid).trans heq, rfl,
    ?_, ?_, ?_, ?_, ?_, rfl⟩
  · exact (findTls_eq_some_iff hinv'.tids currentTID _).mpr ⟨by simp, rfl⟩
  · exact (findTls_eq_some_iff hinv'.tids tid src).mpr
      ⟨List.mem_append_left _ hmem, htid⟩
  · intro p hp
    show (bumpAll src.pageTable s.heap p).referenceCounter = _
    rw [bumpAll_heap, List.count_eq_one_of_mem (hinv.nodup src hmem) hp]
    simp
  · intro p hp
    show bumpAll src.pageTable s.heap p = _
    rw [bumpAll_heap, List.count_eq_zero_of_not_mem hp]
    simp
  · intro p
    show (bumpAll src.pageTable s.heap p).bytes = _ ∧ (bumpAll src.pageTable s.heap p).mapped = _ ∧
      (bumpAll src.pageTable s.heap p).prot = _ ∧ (bumpAll src.pageTable s.heap p).pagePointer = _
    rw [bumpAll_heap]
    exact ⟨rfl, rfl, rfl, rfl⟩

/-- Instance of C7: thread 2 clones the two-page LSA of thread 1. -/
theorem clone_shares_pages_example :
    ∃ src s', findTlsWithThreadID twoPageState.table 1 = some src ∧
      tls_clone twoPageState 2 1 = Except.ok (0, s') ∧
      s'.table = twoPageState.table ++
        [{ size := src.size, numPages := src.numPages, tid := 2, pageTable := src.pageTable }] ∧
      (∀ p ∈ src.pageTable,
        (s'.heap p).referenceCounter = (twoPageState.heap p).referenceCounter + 1) := by
  obtain ⟨src, s', a, b, c, _, _, d, _⟩ :=
    clone_shares_pages 4096 twoPageState reachable_twoPageState 2 1 rfl rfl
  exact ⟨src, s', a, b, c, d⟩

/-- C8 (`tls_clone` returns -1 exactly on its precondition violations, in every
state), evaluated where it breaks: in the fresh process thread 1 has no LSA, and
`tls_clone(1)` by thread 2 as the first call of the process does not return -1; it
does not return at all, whatever the page size and the two thread ids, because line
336 waits for the semaphore that only `tls_create` initialises. Once the one-time
setup has run the claim holds: in every reachable state with `notInitialized` false,
`tls_clone(tid)` returns, with -1 or 0; it returns -1 exactly when `tid` has no LSA
or the caller already has one, and then the state is the one before the call; in
particular cloning one's own LSA returns -1. -/
theorem clone_before_setup_does_not_return :
    tableContains (initialState 4096).table 1 = false ∧
    codeOf (tls_clone (initialState 4096) 2 1) = none ∧
    (∀ (pageSize : Int) (currentTID tid : Nat),
      tls_clone (initialState pageSize) currentTID tid = Except.error Fault.blocked) ∧
    ∀ (pageSize : Int) (s : State) (currentTID tid : Nat), Reachable pageSize s →
      s.notInitialized = false →
      (∃ r s', tls_clone s currentTID tid = Except.ok (r, s') ∧ (r = ERROR_CODE ∨ r = 0) ∧
        (r = ERROR_CODE ↔
          (tableContains s.table tid = false ∨ tableContains s.table currentTID = true)) ∧
        (r = ERROR_CODE → s' = s)) ∧
      tls_clone s currentTID currentTID = Except.ok (ERROR_CODE, s) := by
  refine ⟨rfl, rfl, fun pageSize currentTID tid => rfl, ?_⟩
  intro pageSize s currentTID tid h hn
  have hinv := reachable_inv h
  have hne : ¬ ((0 : Int) = ERROR_CODE) := by decide
  rw [tls_clone_of_initialized s hn, tls_clone_of_initialized s hn]
  constructor
  · by_cases h1 : tableContains s.table tid = true
    · by_cases h2 : tableContains s.table currentTID = true
      · refine ⟨ERROR_CODE, s, ?_, Or.inl rfl, ⟨fun _ => Or.inr h2, fun _ => rfl⟩, fun _ => rfl⟩
        unfold tls_clone_locked
        rw [h1, h2]
        rfl
      · have h2' : tableContains s.table currentTID = false := by simpa using h2
        obtain ⟨src, _, _, _, heq⟩ := tls_clone_eq s currentTID tid hinv h1 h2'
        refine ⟨0, _, heq, Or.inr rfl, ⟨fun e => absurd e hne, ?_⟩, fun e => absurd e hne⟩
        rintro (e | e)
        · rw [h1] at e; cases e
        · exact absurd e h2
    · have h1' : tableContains s.table tid = false := by simpa using h1
      refine ⟨ERROR_CODE, s, ?_, Or.inl rfl, ⟨fun _ => Or.inl h1', fun _ => rfl⟩, fun _ => rfl⟩
      unfold tls_clone_locked
      rw [h1']
      rfl
  · unfold tls_clone_locked
    by_cases h1 : tableContains s.table currentTID = true
    · rw [h1]
      rfl
    · have h1' : tableContains s.table currentTID = false := by simpa using h1
      rw [h1']
      rfl

/-- Instance of the part of C8 that holds: in `sharedState`, reached through
`tls_create`, thread 1 fails to clone itself. -/
theorem clone_self_fails_example :
    tls_clone sharedState 1 1 = Except.ok (ERROR_CODE, sharedState) :=
  (clone_before_setup_does_not_return.2.2.2 4096 sharedState 1 1 reachable_sharedState rfl).2

/-- C9 (`tls_destroy` by a caller without LSA returns -1 and changes nothing;
otherwise it returns 0 and releases exactly the caller's LSA), evaluated where it
breaks: in the fresh process the caller has no LSA, and `tls_destroy()` as the first
call of the process does not return -1; it does not return at all, whatever the page
size and the thread id, because line 304 waits for the semaphore that only
`tls_create` initialises. Everywhere else the claim holds: in a reachable state,
`tls_destroy` by a thread without LSA returns -1 and leaves the state as it is once
`notInitialized` is false; by a thread with an LSA it returns 0 and removes exactly
that LSA from the table, keeping the others in order; each page of the removed LSA
whose counter was 1 is unmapped, each other page of it has its counter decremented
and nothing else changed, page objects outside the removed LSA are untouched, and
every remaining LSA keeps its pages mapped with the same bytes. -/
theorem destroy_before_setup_does_not_return :
    tableContains (initialState 4096).table 1 = false ∧
    codeOf (tls_destroy (initialState 4096) 1) = none ∧
    (∀ (pageSize : Int) (currentTID : Nat),
      tls_destroy (initialState pageSize) currentTID = Except.error Fault.blocked) ∧
    ∀ (pageSize : Int) (s : State) (currentTID : Nat), Reachable pageSize s →
    (tableContains s.table currentTID = false → s.notInitialized = false →
      tls_destroy s currentTID = Except.ok (ERROR_CODE, s)) ∧
    (tableContains s.table currentTID = true →
      ∃ pre t post s', s.table = pre ++ t :: post ∧ t.tid = currentTID ∧
        tls_destroy s currentTID = Except.ok (0, s') ∧
        s'.table = pre ++ post ∧ tableContains s'.table currentTID = false ∧
        (∀ p ∈ t.pageTable, (s.heap p).referenceCounter = 1 →
          s'.heap p = { s.heap p with mapped := false }) ∧
        (∀ p ∈ t.pageTable, (s.heap p).referenceCounter ≠ 1 →
          s'.heap p =
            { s.heap p with referenceCounter := (s.heap p).referenceCounter - 1 }) ∧
        (∀ p, p ∉ t.pageTable → s'.heap p = s.heap p) ∧
        (∀ u ∈ pre ++ post, contents s' u.pageTable = contents s u.pageTable ∧
          ∀ p ∈ u.pageTable, (s'.heap p).mapped = true)) := by
  refine ⟨rfl, rfl, fun pageSize currentTID => rfl, ?_⟩
  intro pageSize s currentTID h
  have hinv := reachable_inv h
  constructor
  · intro h1 hn
    rw [tls_destroy_of_initialized s hn]
    unfold tls_destroy_locked
    rw [h1]
    rfl
  · intro h1
    have hn := reachable_registered h h1
    rw [tls_destroy_of_initialized s hn]
    obtain ⟨pre, t, post, hsplit, htid, heq⟩ := tls_destroy_eq s currentTID hinv h1
    have hinv' := tls_destroy_inv s _ currentTID 0 hinv heq
    have hmem : t ∈ s.table := by rw [hsplit]; simp
    have hnd := hinv.nodup t hmem
    have hwf : WF s.heap s.nextPage (pre ++ t :: post) := by rw [← hsplit]; exact hinv
    have hkeep : ∀ p, 0 < slotCount (pre ++ post) p →
        ((releaseAll t.pageTable s).heap p).bytes = (s.heap p).bytes := by
      intro p hp
      by_cases hpm : p ∈ t.pageTable
      · rw [releaseAll_mem _ _ _ hnd hpm, releasePage_same]
        split <;> rfl
      · rw [releaseAll_not_mem _ _ _ hpm]
    refine ⟨pre, t, post, _, hsplit, htid, heq, rfl, ?_, ?_, ?_, ?_, ?_⟩
    · show tableContains (pre ++ post) currentTID = false
      rw [tableContains_false_iff]
      intro u hu hutid
      have htids := hinv.tids
      rw [hsplit] at htids
      have hu' : u ∈ pre ++ t :: post := mem_split_iff.mpr (Or.inr hu)
      have ht' : t ∈ pre ++ t :: post := mem_split_iff.mpr (Or.inl rfl)
      have hut : u = t := List.inj_on_of_nodup_map htids hu' ht' (hutid.trans htid.symm)
      subst hut
      have hcnt : List.count u.tid ((pre ++ u :: post).map TLS.tid) ≤ 1 :=
        List.nodup_iff_count_le_one.mp htids _
      have h1 : 0 < List.count u.tid ((pre ++ post).map TLS.tid) :=
        List.count_pos_iff.mpr (List.mem_map.mpr ⟨u, hu, rfl⟩)
      simp only [List.map_append, List.map_cons, List.count_append, List.count_cons_self] at hcnt h1
      omega
    · intro p hp hrc
      show (releaseAll t.pageTable s).heap p = _
      rw [releaseAll_mem _ _ _ hnd hp, releasePage_same, if_pos hrc]
    · intro p hp hrc
      show (releaseAll t.pageTable s).heap p = _
      rw [releaseAll_mem _ _ _ hnd hp, releasePage_same, if_neg hrc]
    · intro p hp
      exact releaseAll_not_mem _ _ _ hp
    · intro u hu
      constructor
      · unfold contents
        apply List.map_congr_left
        intro p hp
        exact hkeep p ((slotCount_pos_iff _ _).mpr ⟨u, hu, hp⟩)
      · intro p hp
        exact (hinv'.rest u hu p hp).1

/-- Scenario S6 of the specification, the part of C9 that holds: after `create(4096)`
by thread 1 and `clone(1)` by thread 2, `destroy()` by thread 1 returns 0, leaves the shared page
mapped with counter 1, and `read(0, 4096)` by thread 2 still returns 0. -/
theorem destroy_keeps_shared_page :
    (∃ pre t post s', sharedOnePageState.table = pre ++ t :: post ∧ t.tid = 1 ∧
      tls_destroy sharedOnePageState 1 = Except.ok (0, s') ∧ s'.table = pre ++ post) ∧
    ((stateOf sharedOnePageState (tls_destroy sharedOnePageState 1)).heap 0).mapped = true ∧
    ((stateOf sharedOnePageState (tls_destroy sharedOnePageState 1)).heap 0).referenceCounter
      = 1 ∧
    (match tls_read (stateOf sharedOnePageState (tls_destroy sharedOnePageState 1)) 2 0 4096
        (fun _ => 0) with
      | Except.ok r => some r.1
      | Except.error _ => none) = some 0 := by
  refine ⟨?_, rfl, rfl, rfl⟩
  obtain ⟨pre, t, post, s', a, b, c, d, _⟩ :=
    (destroy_before_setup_does_not_return.2.2.2 4096 sharedOnePageState 1
      reachable_sharedOnePageState).2 rfl
  exact ⟨pre, t, post, s', a, b, c, d⟩

/-- Isolation under clone, in the form that holds: let thread B clone the LSA of
thread A in a reachable state. If A then writes `(o, L, buf)` with return value 0,
every byte of B's LSA is the byte A's LSA held before the clone, and
`tls_read(o, L, out)` by B returns 0 with exactly the buffer that `tls_read(o, L, out)`
by A delivered before the clone. The same holds with the roles exchanged: after a
write by B, A's LSA and A's read are as before the clone. In general, in a reachable
state a returning `tls_write` by one thread leaves the bytes of the LSA of every
other thread as they were. -/
theorem write_after_clone_is_isolated (pageSize : Int) (s s1 : State)
    (h : Reachable pageSize s) (A B : Nat)
    (hclone : tls_clone s B A = Except.ok (0, s1))
    (offset length : Nat) (buffer out : Nat → Nat) :
    (∀ s2, tls_write s1 A offset length buffer = Except.ok (0, s2) →
      lsaContents s2 B = lsaContents s A ∧
      ∃ out', tls_read s2 B offset length out = Except.ok (0, s2, out') ∧
        tls_read s A offset length out = Except.ok (0, s, out')) ∧
    (∀ s2, tls_write s1 B offset length buffer = Except.ok (0, s2) →
      lsaContents s2 A = lsaContents s A ∧
      ∃ out', tls_read s2 A offset length out = Except.ok (0, s2, out') ∧
        tls_read s A offset length out = Except.ok (0, s, out')) ∧
    (∀ writer other r s', other ≠ writer →
      tls_write s writer offset length buffer = Except.ok (r, s') →
      lsaContents s' other = lsaContents s other) := by
  have hinv := reachable_inv h
  obtain ⟨hn, hclone⟩ := tls_clone_returns hclone
  obtain ⟨hA, hB⟩ := tls_clone_ok_pre hclone
  have hAB : A ≠ B := by
    intro e
    rw [e, hB] at hA
    cases hA
  obtain ⟨src, hmem, hfindA, htidA, heq⟩ := tls_clone_eq s B A hinv hA hB
  have hinv1 : Inv s1 := tls_clone_inv s s1 B A 0 hinv hclone
  rw [heq] at hclone
  simp only [Except.ok.injEq, Prod.mk.injEq, true_and] at hclone
  have htable1 : s1.table = s.table ++ [TLS.mk src.size src.numPages B src.pageTable] := by
    rw [← hclone]
  have hps1 : s1.pageSize = s.pageSize := by rw [← hclone]
  have hn1 : s1.notInitialized = false := by rw [← hclone]; exact hn
  have hc1 : contents s1 src.pageTable = contents s src.pageTable := by
    unfold contents
    apply List.map_congr_left
    intro p _
    rw [← hclone]
    show (bumpAll src.pageTable s.heap p).bytes = _
    rw [bumpAll_heap]
  have hfA1 : findTlsWithThreadID s1.table A = some src :=
    (findTls_eq_some_iff hinv1.tids A src).mpr
      ⟨by rw [htable1]; exact List.mem_append_left _ hmem, htidA⟩
  have hfB1 : findTlsWithThreadID s1.table B =
      some (TLS.mk src.size src.numPages B src.pageTable) :=
    (findTls_eq_some_iff hinv1.tids B _).mpr ⟨by rw [htable1]; simp, rfl⟩
  have hlen : (contents s src.pageTable).length = src.numPages.toNat := by
    rw [contents_length]
    exact (hinv.pages src hmem).symm
  have hlsaA : lsaContents s A = some (contents s src.pageTable) := by
    unfold lsaContents
    rw [hfindA]
  refine ⟨?_, ?_, ?_⟩
  · intro s2 hw
    obtain ⟨_, hw⟩ := tls_write_returns hw
    have hn2 : s2.notInitialized = false := (tls_write_locked_flag hinv1 hw).trans hn1
    rw [tls_read_of_initialized s2 hn2, tls_read_of_initialized s hn]
    have hinv2 := tls_write_inv s1 s2 A offset length buffer 0 hinv1 hw
    obtain ⟨hps2, hiso⟩ := tls_write_isolation hinv1 hw
    obtain ⟨hfB2, hcB2⟩ := hiso B (fun e => hAB e.symm)
    have hcB := hcB2 _ hfB1
    simp only at hcB
    obtain ⟨pre, cur, post, hsplit, _, hfcur, hrange, hbody⟩ := tls_write_ok hw
    rw [hfA1] at hfcur
    simp only [Option.some.injEq] at hfcur
    subst hfcur
    obtain ⟨out', hout⟩ := readBodyP_of_writeBody hsplit hinv1 offset length buffer hbody
      (contents s src.pageTable) hlen out
    rw [hps1] at hout
    refine ⟨?_, out', ?_, tls_read_of_find hinv hfindA hrange hout⟩
    · rw [hlsaA]
      unfold lsaContents
      rw [hfB2, hfB1]
      simp only
      rw [hcB, hc1]
    · apply tls_read_of_find hinv2 (hfB2.trans hfB1) hrange
      simp only
      rw [hcB, hc1, hps2, hps1]
      exact hout
  · intro s2 hw
    obtain ⟨_, hw⟩ := tls_write_returns hw
    have hn2 : s2.notInitialized = false := (tls_write_locked_flag hinv1 hw).trans hn1
    rw [tls_read_of_initialized s2 hn2, tls_read_of_initialized s hn]
    have hinv2 := tls_write_inv s1 s2 B offset length buffer 0 hinv1 hw
    obtain ⟨hps2, hiso⟩ := tls_write_isolation hinv1 hw
    obtain ⟨hfA2, hcA2⟩ := hiso A hAB
    have hcA := hcA2 _ hfA1
    obtain ⟨pre, cur, post, hsplit, _, hfcur, hrange, hbody⟩ := tls_write_ok hw
    rw [hfB1] at hfcur
    simp only [Option.some.injEq] at hfcur
    subst hfcur
    obtain ⟨out', hout⟩ := readBodyP_of_writeBody hsplit hinv1 offset length buffer hbody
      (contents s src.pageTable) hlen out
    rw [hps1] at hout
    refine ⟨?_, out', ?_, tls_read_of_find hinv hfindA hrange hout⟩
    · rw [hlsaA]
      unfold lsaContents
      rw [hfA2, hfA1]
      simp only
      rw [hcA, hc1]
    · apply tls_read_of_find hinv2 (hfA2.trans hfA1) hrange
      rw [hcA, hc1, hps2, hps1]
      exact hout
  · intro writer other r s' hne hw
    obtain ⟨_, hw⟩ := tls_write_returns hw
    obtain ⟨_, hiso⟩ := tls_write_isolation hinv hw
    obtain ⟨hf, hc⟩ := hiso other hne
    unfold lsaContents
    rw [hf]
    cases hfo : findTlsWithThreadID s.table other with
    | none => rfl
    | some t =>
      simp only
      rw [hc t hfo]

/-- Scenario S3 of the specification: thread 1 creates 8192 bytes and writes
`hello` at offset 0, thread 2 clones, thread 1 writes `bbbbb` at offset 0; the read
of `(0, 5)` by thread 2 returns 0 and delivers what the read by thread 1 delivered
before the clone. -/
theorem clone_then_write_example :
    ∃ out', tls_read (stateOf writtenSharedState
        (tls_write writtenSharedState 1 0 5 otherBuffer)) 2 0 5 (fun _ => 0)
        = Except.ok (0, stateOf writtenSharedState
            (tls_write writtenSharedState 1 0 5 otherBuffer), out') ∧
      tls_read writtenState 1 0 5 (fun _ => 0) = Except.ok (0, writtenState, out') :=
  ((write_after_clone_is_isolated 4096 writtenState writtenSharedState reachable_writtenState
    1 2 rfl 0 5 otherBuffer (fun _ => 0)).1
    (stateOf writtenSharedState (tls_write writtenSharedState 1 0 5 otherBuffer)) rfl).2

/-- C2 (after B cloned the LSA of A and A wrote `(o, L, buf)`, `tls_read(o, L, out)`
by B yields the bytes A's LSA held at `[o, o + L)` before the clone), evaluated where
it breaks: thread 1 holds a three-page LSA whose only non-zero byte is the `h` at
position 8192; thread 2 clones it and thread 1 writes `b` with `tls_write(4096, 1)`,
both returning 0; then `tls_read(4096, 1, out)` by thread 2 returns 0 and delivers
`h`, the byte of position 8192, while position 4096 held 0 before the clone. That a
write through one LSA leaves the bytes of every other LSA as they were does hold
(`write_after_clone_is_isolated`). -/
theorem read_after_clone_delivers_other_position :
    thirdPageWrittenState.table.map (fun t => (t.tid, t.pageTable)) = [(1, [0, 1, 2])] ∧
    lsaByte thirdPageWrittenState [0, 1, 2] 4096 = 0 ∧
    lsaByte thirdPageWrittenState [0, 1, 2] 8192 = 104 ∧
    codeOf (tls_clone thirdPageWrittenState 2 1) = some 0 ∧
    codeOf (tls_write thirdPageClonedState 1 4096 1 otherBuffer) = some 0 ∧
    readCodeOf (tls_read clonedThenWrittenState 2 4096 1 (fun _ => 0)) = some 0 ∧
    bufferOf (fun _ => 0) (tls_read clonedThenWrittenState 2 4096 1 (fun _ => 0)) 0 = 104 := by
  decide!

/-! ## Claims C11 to C20 -/

/-- C12 (a write equals two adjacent writes), evaluated at the example of the claim:
on an LSA of 8192 bytes the single `tls_write(4094, 4, buf)` returns 0 and so does
`tls_write(4094, 2, buf)`, but the second half `tls_write(4096, 2, buf + 2)` does not
return: `remainingMemory = pageSize - offset` is 0 and the loop asks for page 2 of a
two-page table. -/
theorem split_write_at_page_boundary_throws :
    codeOf (tls_write twoPageState 1 4094 4 helloBuffer) = some 0 ∧
    codeOf (tls_write twoPageState 1 4094 2 helloBuffer) = some 0 ∧
    faultOf (tls_write (stateOf twoPageState (tls_write twoPageState 1 4094 2 helloBuffer))
      1 4096 2 (fun i => helloBuffer (i + 2))) = some Fault.out_of_range := by
  decide!

/-- C13 (only the slots of the written range are forked), evaluated where it breaks:
two threads share a three-page LSA; `tls_write(4096, 5, buf)` by thread 1 returns 0;
the written range lies in slot 1 alone (`4096 div 4096 = 4100 div 4096 = 1`), but
slot 2 is replaced by a fresh page as well and the counter of the page it held drops
from 2 to 1. -/
theorem write_forks_slot_outside_range :
    4096 / 4096 = 1 ∧ (4096 + 5 - 1) / 4096 = 1 ∧
    threePageSharedState.table.map (fun t => (t.tid, t.pageTable)) =
      [(1, [0, 1, 2]), (2, [0, 1, 2])] ∧
    codeOf (tls_write threePageSharedState 1 4096 5 helloBuffer) = some 0 ∧
    (stateOf threePageSharedState
        (tls_write threePageSharedState 1 4096 5 helloBuffer)).table.map
      (fun t => (t.tid, t.pageTable)) = [(1, [0, 3, 4]), (2, [0, 1, 2])] ∧
    (threePageSharedState.heap 2).referenceCounter = 2 ∧
    ((stateOf threePageSharedState
        (tls_write threePageSharedState 1 4096 5 helloBuffer)).heap 2).referenceCounter = 1 := by
  decide!

/-- C14 (`tls_read` delivers the bytes at the logical positions `offset + i`),
evaluated where it breaks: on a three-page LSA whose only non-zero byte is the `h` at
position 8192, `tls_read(4096, 1, out)` returns 0 and delivers that `h`, while the byte
at position 4096 (page 1, in-page offset 0) is 0. -/
theorem read_delivers_byte_of_next_page :
    thirdPageWrittenState.table.map (fun t => (t.tid, t.pageTable)) = [(1, [0, 1, 2])] ∧
    readCodeOf (tls_read thirdPageWrittenState 1 4096 1 (fun _ => 0)) = some 0 ∧
    bufferOf (fun _ => 0) (tls_read thirdPageWrittenState 1 4096 1 (fun _ => 0)) 0 = 104 ∧
    lsaByte thirdPageWrittenState [0, 1, 2] 4096 = 0 ∧
    lsaByte thirdPageWrittenState [0, 1, 2] 8192 = 104 := by
  decide!

/-- C15 (the handler ends the thread exactly when the faulting address lies in a
managed page), evaluated where it breaks: line 102 compares the addresses of three
locals, so wherever the compiler placed them the handler acts alike on every faulting
address; with the two-page LSA of thread 1 registered, address 4096 lies in a managed
page and address 0 in none, and the handler does the same for both. -/
theorem handler_ignores_fault_address (f : HandlerFrame) :
    inManagedPage twoPageState 4096 = true ∧ inManagedPage twoPageState 0 = false ∧
    SIGSEGV_handler f twoPageState 4096 = SIGSEGV_handler f twoPageState 0 ∧
    ∀ (s : State) (a a' : Nat), SIGSEGV_handler f s a = SIGSEGV_handler f s a' :=
  ⟨by decide!, by decide!, handler_same_for_all_addresses f _ _ _,
    handler_same_for_all_addresses f⟩

/-- C16 (each of the five operations runs the one-time setup when it is the first),
evaluated where it breaks: only `tls_create` tests `notInitialized`, runs `init()`
and returns with the flag cleared. `tls_write`, `tls_read`, `tls_destroy` and
`tls_clone` start with `sem_wait` (lines 163, 250, 304, 336): as the first call of
the process each of them waits on the semaphore that was never initialised and does
not return, for every page size and all arguments. -/
theorem first_call_blocks_unless_create (pageSize : Int)
    (currentTID tid size offset length : Nat) (buffer : Nat → Nat) :
    (initialState pageSize).notInitialized = true ∧
    (tls_create (initialState pageSize) currentTID size).2.notInitialized = false ∧
    tls_write (initialState pageSize) currentTID offset length buffer
      = Except.error Fault.blocked ∧
    tls_read (initialState pageSize) currentTID offset length buffer
      = Except.error Fault.blocked ∧
    tls_destroy (initialState pageSize) currentTID = Except.error Fault.blocked ∧
    tls_clone (initialState pageSize) currentTID tid = Except.error Fault.blocked :=
  ⟨rfl, tls_create_initialized _ _ _, rfl, rfl, rfl, rfl⟩

/-- C17 (the test hook returns the null sentinel for a caller without LSA), evaluated
where it breaks: line 373 is the expression statement `NULL;`, so for a caller
without LSA the hook goes on to dereference the `NULL` returned by the lookup and
does not return; for a caller with an LSA it returns the base address of page 0. -/
theorem start_address_without_lsa_faults :
    tableContains twoPageState.table 2 = false ∧
    tls_get_internal_start_address twoPageState 2 = Except.error Fault.segv ∧
    tls_get_internal_start_address twoPageState 1 = Except.ok 4096 ∧
    (twoPageState.heap 0).pagePointer = 4096 :=
  ⟨rfl, rfl, rfl, rfl⟩

/-- C18 (a write leaves the bytes outside `[o, o + L)` as they are and stores `buf`
inside), evaluated where it breaks: on a three-page LSA holding `h` at position 8192,
`tls_write(4096, 1, "b")` returns 0, position 8192 holds `b` afterwards, position 4096
still holds 0, and `tls_read(8192, 1, out)` delivers `b`. -/
theorem write_lands_on_next_page :
    lsaByte thirdPageWrittenState [0, 1, 2] 8192 = 104 ∧
    codeOf (tls_write thirdPageWrittenState 1 4096 1 otherBuffer) = some 0 ∧
    (stateOf thirdPageWrittenState
        (tls_write thirdPageWrittenState 1 4096 1 otherBuffer)).table.map
      (fun t => (t.tid, t.pageTable)) = [(1, [0, 1, 2])] ∧
    lsaByte (stateOf thirdPageWrittenState
      (tls_write thirdPageWrittenState 1 4096 1 otherBuffer)) [0, 1, 2] 8192 = 98 ∧
    lsaByte (stateOf thirdPageWrittenState
      (tls_write thirdPageWrittenState 1 4096 1 otherBuffer)) [0, 1, 2] 4096 = 0 ∧
    otherBuffer 0 = 98 ∧
    bufferOf (fun _ => 0) (tls_read (stateOf thirdPageWrittenState
      (tls_write thirdPageWrittenState 1 4096 1 otherBuffer)) 1 8192 1 (fun _ => 0)) 0 = 98 := by
  decide!

/-- C19 (every call within the range completes with all indices and copies in bounds),
evaluated where it breaks: on a one-page LSA of size 4096, `offset == size` with
`length == 0` makes `tls_write` and `tls_read` ask for page 1 and throw; on a
three-page LSA, `tls_write(4097, 4096, buf)` copies 4096 bytes to in-page offset 1 of
page 1, past the end of the page. -/
theorem access_in_range_does_not_complete :
    faultOf (tls_write onePageState 1 4096 0 helloBuffer) = some Fault.out_of_range ∧
    faultOf (tls_read onePageState 1 4096 0 (fun _ => 0)) = some Fault.out_of_range ∧
    4097 + 4096 ≤ 12288 ∧
    faultOf (tls_write threePageState 1 4097 4096 helloBuffer) = some Fault.segv := by
  decide!

/-- C20: with 4096-byte pages, in a reachable state where the caller has an LSA of
size `S` with `0 < S < 2^31`, for every offset `o < 4096` and length `L` with
`o + L <= S`: `tls_write(o, L, buf)` returns 0 and the caller's LSA then holds
`buf[i]` at the logical position `o + i` (page `(o + i) div 4096`, in-page offset
`(o + i) mod 4096`) for every `i < L`; the following `tls_read(o, L, out)` returns 0,
`out[i] = buf[i]` for every `i < L`, and the buffer is untouched beyond `L`. -/
theorem first_page_round_trip (s : State) (h : Reachable 4096 s) (currentTID : Nat) (t : TLS)
    (hf : findTlsWithThreadID s.table currentTID = some t)
    (hS0 : 0 < t.size) (hS1 : t.size < 2147483648)
    (offset length : Nat) (ho : offset < 4096) (hrange : (offset : Int) + length ≤ t.size)
    (buffer out : Nat → Nat) :
    ∃ s' pt' out', tls_write s currentTID offset length buffer = Except.ok (0, s') ∧
      findTlsWithThreadID s'.table currentTID = some { t with pageTable := pt' } ∧
      (∀ i, i < length → lsaByte s' pt' (offset + i) = buffer i) ∧
      tls_read s' currentTID offset length out = Except.ok (0, s', out') ∧
      (∀ i, i < length → out' i = buffer i) ∧ (∀ i, length ≤ i → out' i = out i) := by
  have hinv := reachable_inv h
  obtain ⟨hps, hshape⟩ := reachable_shaped h
  obtain ⟨hmem, htid⟩ := findTls_mem hf
  have hc : tableContains s.table currentTID = true :=
    (tableContains_iff _ _).mpr ⟨t, hmem, htid⟩
  have hn := reachable_registered h hc
  obtain ⟨pre, cur, post, hsplit, _, _, hfind⟩ := lookup_of_contains s.table currentTID hc
  have hfcur := findTls_of_lookup s.table pre post cur currentTID hsplit hfind
  rw [hf] at hfcur
  simp only [Option.some.injEq] at hfcur
  subst hfcur
  have hnp := hshape t hmem
  rw [hps] at hnp
  obtain ⟨hc1, hc2⟩ := numPagesFor_cover hS0
  rw [← hnp] at hc1 hc2
  have hpages := hinv.pages t hmem
  have hlen0 : 0 < t.pageTable.length := by omega
  have hfit : offset + length ≤ 4096 * t.pageTable.length := by omega
  have hL : length < 2147483648 := by omega
  have hnr : ¬ ((offset + length) % 4294967296 > toUInt32 t.size) := by
    rw [toUInt32_of_range (by omega) (by omega), Nat.mod_eq_of_lt (by omega)]
    omega
  obtain ⟨sN, pt', hw, hb, hlen, hbytes⟩ :=
    writeFrom_first_page hsplit hinv hps offset length ho hlen0 hfit hL buffer
  rw [← writeBody_first_page s pre.length t hps offset length ho buffer] at hw
  have hwrite := tls_write_of_body hc hsplit hfind hnr hw
  have hinv' := tls_write_inv s _ currentTID offset length buffer 0 hinv hwrite
  have hps' : sN.pageSize = 4096 := hb.pageSize.trans hps
  have hn' : ({ sN with table := pre ++ { t with pageTable := pt' } :: post } :
      State).notInitialized = false := hb.flag.trans hn
  have hf' : findTlsWithThreadID
      ({ sN with table := pre ++ { t with pageTable := pt' } :: post } : State).table currentTID
      = some { t with pageTable := pt' } :=
    (findTls_eq_some_iff hinv'.tids currentTID _).mpr ⟨mem_split_iff.mpr (Or.inl rfl), htid⟩
  have hplace : ∀ i, i < length → slotByte sN pt' ((offset + i) / 4096) ((offset + i) % 4096)
      = buffer i := by
    intro i hi
    rw [hbytes _ (by omega) _ (by omega), if_pos (by omega)]
    exact congrArg buffer (by omega)
  obtain ⟨out', hrd, hout⟩ := readFromP_first_page
    (contents ({ sN with table := pre ++ { t with pageTable := pt' } :: post } : State) pt')
    offset length ho (by rw [contents_length, hlen]; exact hlen0)
    (by rw [contents_length, hlen]; exact hfit) hL out
  rw [← readBodyP_first_page _ offset length ho out] at hrd
  refine ⟨_, pt', out', (tls_write_of_initialized s hn _ _ _ _).trans hwrite, hf',
    ?_, ?_, ?_, ?_⟩
  · intro i hi
    unfold lsaByte
    simp only [hps']
    exact hplace i hi
  · rw [tls_read_of_initialized _ hn']
    apply tls_read_of_find hinv' hf' hnr
    simp only [hps']
    exact hrd
  · intro i hi
    rw [hout i, if_pos hi, pageByte_contents _ _ _ (by rw [hlen]; omega)]
    exact hplace i hi
  · intro i hi
    rw [hout i, if_neg (by omega)]

/-- Scenario S4 of the specification, from C20: after `create(8192)`,
`write(4094, 4, "hell")` returns 0 and `read(4094, 4, out)` returns 0 with the four
bytes written. -/
theorem cross_page_round_trip_example :
    ∃ s' pt' out', tls_write twoPageState 1 4094 4 helloBuffer = Except.ok (0, s') ∧
      (∀ i, i < 4 → lsaByte s' pt' (4094 + i) = helloBuffer i) ∧
      tls_read s' 1 4094 4 (fun _ => 0) = Except.ok (0, s', out') ∧
      (∀ i, i < 4 → out' i = helloBuffer i) := by
  obtain ⟨s', pt', out', a, _, b, c, d, _⟩ :=
    first_page_round_trip twoPageState reachable_twoPageState 1
      { size := 8192, numPages := 2, tid := 1, pageTable := [0, 1] } rfl (by decide) (by decide)
      4094 4 (by decide) (by decide) helloBuffer (fun _ => 0)
  exact ⟨s', pt', out', a, b, c, d⟩

/-- C11: in every reachable state the table holds at most one LSA per thread id;
`tableContains(tid)` is true exactly when `findTlsWithThreadID(tid)` returns an LSA,
that LSA is an entry of the table with `tid` in its `tid` field, and it is the only
entry with that thread id. -/
theorem registry_has_one_lsa_per_thread (pageSize : Int) (s : State)
    (h : Reachable pageSize s) (tid : Nat) :
    (s.table.map TLS.tid).count tid ≤ 1 ∧
    (tableContains s.table tid = true ↔ ∃ t, findTlsWithThreadID s.table tid = some t) ∧
    (∀ t, findTlsWithThreadID s.table tid = some t → t ∈ s.table ∧ t.tid = tid) ∧
    (∀ t, t ∈ s.table → t.tid = tid → findTlsWithThreadID s.table tid = some t) := by
  have hinv := reachable_inv h
  refine ⟨List.nodup_iff_count_le_one.mp hinv.tids tid, ?_, fun t ht => findTls_mem ht, ?_⟩
  · constructor
    · intro hc
      cases hf : findTlsWithThreadID s.table tid with
      | none =>
        rw [(findTls_eq_none_iff _ _).mp hf] at hc
        cases hc
      | some t => exact ⟨t, rfl⟩
    · rintro ⟨t, ht⟩
      obtain ⟨hm, htid⟩ := findTls_mem ht
      exact (tableContains_iff _ _).mpr ⟨t, hm, htid⟩
  · intro t hm htid
    exact (findTls_eq_some_iff hinv.tids tid t).mpr ⟨hm, htid⟩

/-- Instance of C11: in `sharedState` thread 2 has exactly one LSA, and the lookup
returns it. -/
theorem registry_lookup_example :
    (sharedState.table.map TLS.tid).count 2 ≤ 1 ∧
    ∃ t, findTlsWithThreadID sharedState.table 2 = some t ∧ t.tid = 2 := by
  obtain ⟨a, b, c, _⟩ := registry_has_one_lsa_per_thread 4096 sharedState reachable_sharedState 2
  obtain ⟨t, ht⟩ := b.mp rfl
  exact ⟨a, t, ht, (c t ht).2⟩

end TLSLib
